import Mathlib

/-! # The event consumer of the publisher pipeline

A shallow embedding of `libbeat/publisher/pipeline/consumer.go`.

The worker goroutine (`eventConsumer.loop`) is embedded as a step function over
an explicit program counter.  Every access to state that other goroutines can
touch (the two atomic flags, the signal channel, the queue consumer, the output
work queue) is a step of its own; the statements between two such accesses only
touch variables of the worker and are executed together with the access that
precedes them.  The callers of the control surface (`sigPause`, `sigContinue`,
`sigWait`, `sigUnWait`, `updOutput`, `close`) are embedded statement by
statement in the same way, so that a run of the system is a list of actions,
one per atomic statement, in the order in which they take effect.
-/

namespace Pipeline

/-- Identity of a `queue.Consumer`; the nil interface value is `none`. -/
abbrev Handle := Nat

/-- Identity of a work queue channel; the nil channel is `none`. -/
abbrev Chan := Nat

/-- The records of a non-nil `queue.Batch`. -/
abbrev QueueBatch := List Nat

/-- Modelled from the spec: the type declaration of `outputGroup` is not part of
the sources at hand; the spec gives its three fields (delivery channel, batch
size limit, time to live), which are the three fields `loop` reads. -/
structure outputGroup where
  workQueue : Option Chan
  batchSize : Int
  timeToLive : Int
  deriving DecidableEq

/-- Modelled from the spec: the declaration of `Batch` and `newBatch` is not part
of the sources at hand; a batch wraps the queue batch, the shared batch context
and the time to live of the output group at creation time. -/
structure Batch where
  ctx : Nat
  original : QueueBatch
  ttl : Int
  deriving DecidableEq

/-- Modelled from the spec: `newBatch(ctx, queueBatch, ttl)`. -/
def newBatch (ctx : Nat) (original : QueueBatch) (ttl : Int) : Batch :=
  { ctx := ctx, original := original, ttl := ttl }

inductive consumerEventTag
  | sigConsumerCheck
  | sigConsumerUpdateOutput
  | sigConsumerUpdateInput
  | sigStop
  deriving DecidableEq

structure consumerSignal where
  tag : consumerEventTag
  consumer : Option Handle
  out : Option outputGroup
  deriving DecidableEq

/-- The value `consumerSignal{tag: sigStop}`. -/
def stopSignal : consumerSignal :=
  { tag := .sigStop, consumer := none, out := none }

/-- The value `consumerSignal{tag: sigConsumerCheck}`. -/
def checkSignal : consumerSignal :=
  { tag := .sigConsumerCheck, consumer := none, out := none }

/-- The value `consumerSignal{tag: sigConsumerUpdateOutput, out: grp}`. -/
def updateOutputSignal (grp : Option outputGroup) : consumerSignal :=
  { tag := .sigConsumerUpdateOutput, consumer := none, out := grp }

/-- The value `consumerSignal{tag: sigConsumerUpdateInput, consumer: h}`. -/
def updateInputSignal (h : Option Handle) : consumerSignal :=
  { tag := .sigConsumerUpdateInput, consumer := h, out := none }

/-- The only error value of the file. -/
inductive error
  | errStopped
  deriving DecidableEq

/-- Capacity of the signal channel: `make(chan consumerSignal, 3)`. -/
def sigCap : Nat := 3

/-- The fields of `eventConsumer` that the code reads or writes.  The channel
`sig` is the list of signals sent and not yet received, oldest first. -/
structure eventConsumer where
  ctx : Nat
  pause : Bool
  wait : Bool
  sig : List consumerSignal
  consumer : Option Handle
  out : Option outputGroup
  deriving DecidableEq

/-- The variables of `loop`: its parameter `consumer` and the three variables of
the `var` block. -/
structure loopVars where
  consumer : Option Handle
  out : Option Chan
  batch : Option Batch
  paused : Bool
  deriving DecidableEq

/-- The method `paused`: `c.pause.Load() || c.wait.Load()`, given the values
the two loads return. -/
def paused (pauseLoad waitLoad : Bool) : Bool :=
  pauseLoad || waitLoad

/-- The closure `handleSignal` of `loop`, given the values that the two atomic
loads of `c.paused()` return. -/
def handleSignal (pauseLoad waitLoad : Bool) (c : eventConsumer) (l : loopVars)
    (sig : consumerSignal) : Except error (eventConsumer × loopVars) :=
  match sig.tag with
  | .sigStop => .error .errStopped
  | tag =>
    let c1 : eventConsumer :=
      if tag = .sigConsumerUpdateOutput then { c with out := sig.out } else c
    let l1 : loopVars :=
      if tag = .sigConsumerUpdateInput then { l with consumer := sig.consumer } else l
    let p := paused pauseLoad waitLoad
    let out : Option Chan :=
      match c1.out, l1.batch with
      | some g, some _ => g.workQueue
      | _, _ => none
    .ok (c1, { l1 with paused := p, out := out })

/-- A blocking send on `c.sig`: it completes only when the channel has room. -/
def post (c : eventConsumer) (sig : consumerSignal) : Option eventConsumer :=
  if c.sig.length < sigCap then some { c with sig := c.sig ++ [sig] } else none

/-- The method `sigHint`: a send on `c.sig` inside a `select` with a `default`. -/
def sigHint (c : eventConsumer) : eventConsumer :=
  if c.sig.length < sigCap then { c with sig := c.sig ++ [checkSignal] } else c

/-- The four flag setters of the control surface. -/
inductive Call
  | sigWait
  | sigUnWait
  | sigPause
  | sigContinue
  deriving DecidableEq

/-- The first statement of a flag setter: the atomic store. -/
def Call.store : Call → eventConsumer → eventConsumer
  | .sigWait, c => { c with wait := true }
  | .sigUnWait, c => { c with wait := false }
  | .sigPause, c => { c with pause := true }
  | .sigContinue, c => { c with pause := false }

def sigWait (c : eventConsumer) : eventConsumer := sigHint (Call.sigWait.store c)

def sigUnWait (c : eventConsumer) : eventConsumer := sigHint (Call.sigUnWait.store c)

def sigPause (c : eventConsumer) : eventConsumer := sigHint (Call.sigPause.store c)

def sigContinue (c : eventConsumer) : eventConsumer := sigHint (Call.sigContinue.store c)

/-- What `consumer.Get` returns: an error, or a queue batch that may be nil. -/
inductive GetResult
  | err
  | ok (b : Option QueueBatch)
  deriving DecidableEq

/-- Where the worker stands in `loop`. -/
inductive PC
  /-- At the head of the `for` loop. -/
  | top
  /-- `Get` has returned without error; `c.paused()` loads the pause flag next. -/
  | fetched
  /-- After a fetch the pause flag was loaded as false; the wait flag is loaded next. -/
  | fetchedWait
  /-- At the first `select`, the one with a `default`. -/
  | drain
  /-- At the second `select`. -/
  | block
  /-- A signal other than `sigStop` was received; inside `handleSignal`,
  `c.paused()` loads the pause flag next. -/
  | handling (sig : consumerSignal)
  /-- Inside `handleSignal` the pause flag was loaded as false; the wait flag is
  loaded next. -/
  | handlingWait (sig : consumerSignal)
  /-- The function `loop` has returned. -/
  | stopped
  deriving DecidableEq

/-- Where the controller stands inside `updOutput` or `close`. -/
inductive Ctl
  | idle
  /-- In `updOutput(grp)`, the consumer is closed; the first send is next. -/
  | updPostOut (grp : Option outputGroup)
  /-- In `updOutput`, `c.queue.Consumer()` is next. -/
  | updAcquire
  /-- In `updOutput`, the second send is next. -/
  | updPostIn
  /-- In `close`, the consumer is closed; the send of `sigStop` is next. -/
  | closePostStop
  /-- In `close`, at `c.wg.Wait()`. -/
  | closeWait
  /-- The function `close` has returned. -/
  | returned
  deriving DecidableEq

/-- What an observer of the system can record. -/
inductive Event
  /-- The worker called `Get(max)` on `h` and the call returned `r`. -/
  | get (h : Handle) (max : Int) (r : GetResult)
  /-- The send `out <- batch` went through on channel `q` with value `b`. -/
  | send (q : Chan) (b : Option Batch)
  /-- The call `handleSignal(sig)` returned nil, having set `paused` to the given value. -/
  | handled (sig : consumerSignal) (paused : Bool)
  /-- The call `handleSignal(sig)` returned `errStopped` and `loop` returned. -/
  | stopped (sig : consumerSignal)
  /-- The controller called `Close` on `h`. -/
  | closed (h : Handle)
  /-- A send of `sig` on `c.sig` went through. -/
  | posted (sig : consumerSignal)
  /-- The call `c.queue.Consumer()` returned `h`, now stored in `c.consumer`. -/
  | acquired (h : Option Handle)
  /-- The function `close` returned. -/
  | returned
  /-- The atomic store of the flag setter `f` took effect. -/
  | stored (f : Call)
  /-- The first `select` found `c.sig` empty and took its `default` case. -/
  | drained
  deriving DecidableEq

/-- The atomic steps of the system. -/
inductive Action
  /-- The worker takes its next step, when that step needs nothing from outside. -/
  | step
  /-- The worker is at the loop head with the fetch condition true: `Get` returns `r`. -/
  | getReturns (r : GetResult)
  /-- The worker is at the second `select` and the receive case is taken. -/
  | recv
  /-- The worker is at the second `select` and the output accepts the send. -/
  | accept
  /-- Some goroutine executes the atomic store of a flag setter. -/
  | call (f : Call)
  /-- A goroutine that has stored a flag executes `sigHint`. -/
  | hint
  /-- Some goroutine completes a blocking send of an arbitrary signal. -/
  | post (sig : consumerSignal)
  /-- The controller enters `updOutput(grp)` and closes `c.consumer`. -/
  | updOutput (grp : Option outputGroup)
  /-- The controller enters `close()` and closes `c.consumer`. -/
  | close
  /-- The controller executes its next statement; `h` is what `c.queue.Consumer()`
  returns when that is the statement. -/
  | ctl (h : Option Handle)
  deriving DecidableEq

/-- The whole system: the shared struct, the variables of the worker, the two
program counters, the consumers on which `Close` was called, and the number of
flag setters that have stored their flag and not yet run `sigHint`. -/
structure State where
  c : eventConsumer
  l : loopVars
  pc : PC
  ctl : Ctl
  closed : List Handle
  calls : Nat
  deriving DecidableEq

/-- The system right after `newEventConsumer(log, queue, ctx)`, where
`queue.Consumer()` returned `h`. -/
def newEventConsumer (ctx : Nat) (h : Option Handle) : State :=
  { c := { ctx := ctx, pause := true, wait := false, sig := [], consumer := h, out := none }
    l := { consumer := h, out := none, batch := none, paused := true }
    pc := .top
    ctl := .idle
    closed := []
    calls := 0 }

/-- The condition of the `if` at the head of the loop. -/
def fetchCond (c : eventConsumer) (l : loopVars) : Bool :=
  !l.paused && c.out.isSome && l.consumer.isSome && l.batch.isNone

/-- The worker has received `sig` from `c.sig`, leaving `rest` in the channel,
and calls `handleSignal`, whose first case returns `errStopped`. -/
def received (s : State) (sig : consumerSignal) (rest : List consumerSignal) :
    State × List Event :=
  if sig.tag = .sigStop then
    ({ s with c := { s.c with sig := rest }, pc := .stopped }, [.stopped sig])
  else
    ({ s with c := { s.c with sig := rest }, pc := .handling sig }, [])

/-- The rest of `handleSignal` once both loads of `c.paused()` are done; the
loop continues at its head. -/
def finishSignal (s : State) (sig : consumerSignal) (pauseLoad waitLoad : Bool) :
    State × List Event :=
  match handleSignal pauseLoad waitLoad s.c s.l sig with
  | .ok (c, l) => ({ s with c := c, l := l, pc := .top }, [.handled sig l.paused])
  | .error _ => ({ s with pc := .stopped }, [.stopped sig])

/-- The statements after `paused = c.paused()` in the fetch branch; the loop
continues at the first `select`. -/
def finishFetch (s : State) (pauseLoad waitLoad : Bool) : State :=
  let p := paused pauseLoad waitLoad
  { s with
    l := { s.l with paused := p, out := if p || s.l.batch.isNone then none else s.l.out }
    pc := .drain }

/-- One step of `loop`. -/
def loopStep (s : State) : Action → Option (State × List Event)
  | .step =>
    match s.pc with
    | .top => if fetchCond s.c s.l then none else some ({ s with pc := .drain }, [])
    | .fetched =>
      if s.c.pause then some (finishFetch s true false, [])
      else some ({ s with pc := .fetchedWait }, [])
    | .fetchedWait => some (finishFetch s false s.c.wait, [])
    | .drain =>
      match s.c.sig with
      | [] => some ({ s with pc := .block }, [.drained])
      | sig :: rest => some (received s sig rest)
    | .handling sig =>
      if s.c.pause then some (finishSignal s sig true false)
      else some ({ s with pc := .handlingWait sig }, [])
    | .handlingWait sig => some (finishSignal s sig false s.c.wait)
    | _ => none
  | .getReturns r =>
    match s.pc with
    | .top =>
      if fetchCond s.c s.l then
        match s.c.out, s.l.consumer with
        | some g, some h =>
          match r with
          | .err =>
            some ({ s with l := { s.l with out := none, consumer := none } },
              [.get h g.batchSize r])
          | .ok queueBatch =>
            some ({ s with
                    l := { s.l with
                           out := g.workQueue
                           batch :=
                             match queueBatch with
                             | some b => some (newBatch s.c.ctx b g.timeToLive)
                             | none => s.l.batch }
                    pc := .fetched },
              [.get h g.batchSize r])
        | _, _ => none
      else none
    | _ => none
  | .recv =>
    match s.pc with
    | .block =>
      match s.c.sig with
      | [] => none
      | sig :: rest => some (received s sig rest)
    | _ => none
  | .accept =>
    match s.pc with
    | .block =>
      match s.l.out with
      | none => none
      | some q =>
        some ({ s with
                l := { s.l with batch := none, out := if s.l.paused then none else s.l.out }
                pc := .top },
          [.send q s.l.batch])
    | _ => none
  | _ => none

/-- The method `updOutput` and the method `close`, one statement at a time. -/
def ctlStep (s : State) : Action → Option (State × List Event)
  | .updOutput grp =>
    match s.ctl, s.c.consumer with
    | .idle, some h =>
      some ({ s with closed := h :: s.closed, ctl := .updPostOut grp }, [.closed h])
    | _, _ => none
  | .close =>
    match s.ctl, s.c.consumer with
    | .idle, some h =>
      some ({ s with closed := h :: s.closed, ctl := .closePostStop }, [.closed h])
    | _, _ => none
  | .ctl h =>
    match s.ctl with
    | .updPostOut grp =>
      match post s.c (updateOutputSignal grp) with
      | some c => some ({ s with c := c, ctl := .updAcquire }, [.posted (updateOutputSignal grp)])
      | none => none
    | .updAcquire =>
      some ({ s with c := { s.c with consumer := h }, ctl := .updPostIn }, [.acquired h])
    | .updPostIn =>
      match post s.c (updateInputSignal s.c.consumer) with
      | some c =>
        some ({ s with c := c, ctl := .idle }, [.posted (updateInputSignal s.c.consumer)])
      | none => none
    | .closePostStop =>
      match post s.c stopSignal with
      | some c => some ({ s with c := c, ctl := .closeWait }, [.posted stopSignal])
      | none => none
    | .closeWait =>
      if s.pc = .stopped then some ({ s with ctl := .returned }, [.returned]) else none
    | _ => none
  | _ => none

/-- One atomic step of the system; `none` when the action cannot take place in
this state (a blocked send or receive, a statement that is not next). -/
def exec (s : State) : Action → Option (State × List Event)
  | .call f => some ({ s with c := f.store s.c, calls := s.calls + 1 }, [.stored f])
  | .hint =>
    if 0 < s.calls then
      some ({ s with c := sigHint s.c, calls := s.calls - 1 },
        if s.c.sig.length < sigCap then [.posted checkSignal] else [])
    else none
  | .post sig =>
    match post s.c sig with
    | some c => some ({ s with c := c }, [.posted sig])
    | none => none
  | .updOutput grp => ctlStep s (.updOutput grp)
  | .close => ctlStep s .close
  | .ctl h => ctlStep s (.ctl h)
  | a => loopStep s a

/-- A run: the actions taken in order, with the events they produce. -/
def run : State → List Action → Option (State × List Event)
  | s, [] => some (s, [])
  | s, a :: as =>
    match exec s a with
    | none => none
    | some (s1, e1) =>
      match run s1 as with
      | none => none
      | some (s2, e2) => some (s2, e1 ++ e2)

/-- The assumption on the queue under which the reconfiguration protocol is
studied: `Get` on a consumer on which `Close` was called returns an error.
Signals are then sent by the methods of this file only. -/
def admissible (s : State) : Action → Bool
  | .post _ => false
  | .getReturns r =>
    match s.l.consumer with
    | some h => if h ∈ s.closed then r = .err else true
    | none => true
  | _ => true

/-- A run in which every action is admissible. -/
def runP : State → List Action → Option (State × List Event)
  | s, [] => some (s, [])
  | s, a :: as =>
    if admissible s a then
      match exec s a with
      | none => none
      | some (s1, e1) =>
        match runP s1 as with
        | none => none
        | some (s2, e2) => some (s2, e1 ++ e2)
    else none

/-- The output group in force after the `switch` of `handleSignal`. -/
def sigOut (c : eventConsumer) (sig : consumerSignal) : Option outputGroup :=
  if sig.tag = .sigConsumerUpdateOutput then sig.out else c.out

/-- The consumer in force after the `switch` of `handleSignal`. -/
def sigConsumer (l : loopVars) (sig : consumerSignal) : Option Handle :=
  if sig.tag = .sigConsumerUpdateInput then sig.consumer else l.consumer

/-- The delivery target that `handleSignal` computes. -/
def target (o : Option outputGroup) (b : Option Batch) : Option Chan :=
  match o, b with
  | some g, some _ => g.workQueue
  | _, _ => none

/-- The transitions of `exec`, one constructor per statement and outcome. -/
inductive Step : State → Action → State → List Event → Prop
  | topSkip (s : State) (hpc : s.pc = .top) (hc : fetchCond s.c s.l = false) :
      Step s .step { s with pc := .drain } []
  | getErr (s : State) (g : outputGroup) (h : Handle) (hpc : s.pc = .top)
      (hc : fetchCond s.c s.l = true) (hg : s.c.out = some g) (hh : s.l.consumer = some h) :
      Step s (.getReturns .err) { s with l := { s.l with out := none, consumer := none } }
        [.get h g.batchSize .err]
  | getOk (s : State) (g : outputGroup) (h : Handle) (qb : Option QueueBatch)
      (hpc : s.pc = .top) (hc : fetchCond s.c s.l = true) (hg : s.c.out = some g)
      (hh : s.l.consumer = some h) :
      Step s (.getReturns (.ok qb))
        { s with
          l := { s.l with
                 out := g.workQueue
                 batch :=
                   match qb with
                   | some b => some (newBatch s.c.ctx b g.timeToLive)
                   | none => s.l.batch }
          pc := .fetched }
        [.get h g.batchSize (.ok qb)]
  | fetchLoad (s : State) (hpc : s.pc = .fetched) (hp : s.c.pause = false) :
      Step s .step { s with pc := .fetchedWait } []
  | fetchDone (s : State) (p w : Bool)
      (h : (s.pc = .fetched ∧ s.c.pause = true ∧ p = true ∧ w = false) ∨
           (s.pc = .fetchedWait ∧ p = false ∧ w = s.c.wait)) :
      Step s .step (finishFetch s p w) []
  | drainEmpty (s : State) (hpc : s.pc = .drain) (hq : s.c.sig = []) :
      Step s .step { s with pc := .block } [.drained]
  | recvStop (s : State) (a : Action) (sig : consumerSignal) (rest : List consumerSignal)
      (h : (s.pc = .drain ∧ a = .step) ∨ (s.pc = .block ∧ a = .recv))
      (hq : s.c.sig = sig :: rest) (ht : sig.tag = .sigStop) :
      Step s a { s with c := { s.c with sig := rest }, pc := .stopped } [.stopped sig]
  | recvSig (s : State) (a : Action) (sig : consumerSignal) (rest : List consumerSignal)
      (h : (s.pc = .drain ∧ a = .step) ∨ (s.pc = .block ∧ a = .recv))
      (hq : s.c.sig = sig :: rest) (ht : sig.tag ≠ .sigStop) :
      Step s a { s with c := { s.c with sig := rest }, pc := .handling sig } []
  | sigLoad (s : State) (sig : consumerSignal) (hpc : s.pc = .handling sig)
      (hp : s.c.pause = false) :
      Step s .step { s with pc := .handlingWait sig } []
  | sigDone (s : State) (sig : consumerSignal) (p w : Bool)
      (h : (s.pc = .handling sig ∧ s.c.pause = true ∧ p = true ∧ w = false) ∨
           (s.pc = .handlingWait sig ∧ p = false ∧ w = s.c.wait))
      (ht : sig.tag ≠ .sigStop) :
      Step s .step
        { s with
          c := { s.c with out := sigOut s.c sig }
          l := { consumer := sigConsumer s.l sig
                 out := target (sigOut s.c sig) s.l.batch
                 batch := s.l.batch
                 paused := p || w }
          pc := .top }
        [.handled sig (p || w)]
  | sigStray (s : State) (sig : consumerSignal)
      (h : s.pc = .handling sig ∨ s.pc = .handlingWait sig) (ht : sig.tag = .sigStop) :
      Step s .step { s with pc := .stopped } [.stopped sig]
  | accept (s : State) (q : Chan) (hpc : s.pc = .block) (ho : s.l.out = some q) :
      Step s .accept
        { s with
          l := { s.l with batch := none, out := if s.l.paused then none else s.l.out }
          pc := .top }
        [.send q s.l.batch]
  | call (s : State) (f : Call) :
      Step s (.call f) { s with c := f.store s.c, calls := s.calls + 1 } [.stored f]
  | hintSent (s : State) (h : 0 < s.calls) (hroom : s.c.sig.length < sigCap) :
      Step s .hint
        { s with c := { s.c with sig := s.c.sig ++ [checkSignal] }, calls := s.calls - 1 }
        [.posted checkSignal]
  | hintDropped (s : State) (h : 0 < s.calls) (hfull : ¬ s.c.sig.length < sigCap) :
      Step s .hint { s with calls := s.calls - 1 } []
  | post (s : State) (sig : consumerSignal) (hroom : s.c.sig.length < sigCap) :
      Step s (.post sig) { s with c := { s.c with sig := s.c.sig ++ [sig] } } [.posted sig]
  | updOutput (s : State) (grp : Option outputGroup) (h : Handle) (hc : s.ctl = .idle)
      (hh : s.c.consumer = some h) :
      Step s (.updOutput grp) { s with closed := h :: s.closed, ctl := .updPostOut grp }
        [.closed h]
  | close (s : State) (h : Handle) (hc : s.ctl = .idle) (hh : s.c.consumer = some h) :
      Step s .close { s with closed := h :: s.closed, ctl := .closePostStop } [.closed h]
  | ctlPost (s : State) (x : Option Handle) (sig : consumerSignal) (next : Ctl)
      (h : (s.ctl = .updPostOut sig.out ∧ sig = updateOutputSignal sig.out ∧
              next = .updAcquire) ∨
           (s.ctl = .updPostIn ∧ sig = updateInputSignal s.c.consumer ∧ next = .idle) ∨
           (s.ctl = .closePostStop ∧ sig = stopSignal ∧ next = .closeWait))
      (hroom : s.c.sig.length < sigCap) :
      Step s (.ctl x) { s with c := { s.c with sig := s.c.sig ++ [sig] }, ctl := next }
        [.posted sig]
  | acquire (s : State) (x : Option Handle) (hc : s.ctl = .updAcquire) :
      Step s (.ctl x) { s with c := { s.c with consumer := x }, ctl := .updPostIn }
        [.acquired x]
  | ctlReturn (s : State) (x : Option Handle) (hc : s.ctl = .closeWait)
      (hpc : s.pc = .stopped) :
      Step s (.ctl x) { s with ctl := .returned } [.returned]

/-- The non-nil queue batch of a successful `Get`, if the event is one. -/
def Event.fetchedBatch : Event → Option QueueBatch
  | .get _ _ (.ok (some b)) => some b
  | _ => none

/-- The value handed to an output work queue, if the event is a send. -/
def Event.handoff : Event → Option (Option Batch)
  | .send _ b => some b
  | _ => none

/-- The batch handed to an output work queue, if the event is the send of one. -/
def Event.deliveredBatch : Event → Option Batch
  | .send _ (some b) => some b
  | _ => none

/-- The queue batches returned non-nil by successful `Get` calls, in call order. -/
def fetched (tr : List Event) : List QueueBatch := tr.filterMap Event.fetchedBatch

/-- The batches handed to output work queues, in order. -/
def delivered (tr : List Event) : List Batch := tr.filterMap Event.deliveredBatch

/-- Every value sent on an output work queue, nil values included, in order. -/
def handoffs (tr : List Event) : List (Option Batch) := tr.filterMap Event.handoff

/-- The pending batch slot as a list: no batch or one. -/
def pending (s : State) : List Batch := s.l.batch.toList

/-- No `sigConsumerUpdateInput` signal that the worker has handled carried a nil
consumer. -/
def nonNilInputs (tr : List Event) : Prop :=
  ∀ sig p, Event.handled sig p ∈ tr → sig.tag = .sigConsumerUpdateInput → sig.consumer ≠ none

/-- What is fetched is what was delivered followed by what is pending. -/
def Accounted (s : State) (tr : List Event) : Prop :=
  fetched tr = (delivered tr ++ pending s).map Batch.original

/-- While every installed consumer is non-nil, a delivery target without a
pending batch exists only on the way into or out of a fetch. -/
def Targeted (s : State) : Prop :=
  (s.l.consumer = none → s.l.batch = none ∧ s.l.out = none) ∧
  (s.l.out ≠ none → s.c.out ≠ none) ∧
  (s.l.out ≠ none → s.l.batch = none →
    (s.pc = .top ∧ s.l.paused = false) ∨ s.pc = .fetched ∨ s.pc = .fetchedWait)

/-- The invariant behind the absence of nil sends. -/
def Guarded (s : State) (tr : List Event) : Prop :=
  nonNilInputs tr → Targeted s ∧ ∀ b ∈ handoffs tr, b ≠ none

/-- The output group of the sample runs. -/
def demoGroup : outputGroup := { workQueue := some 7, batchSize := 10, timeToLive := 5 }

/-- A sample run: an output is assigned, the pause flag is cleared, a batch of
two records is fetched and handed to the output. -/
def demoActs : List Action :=
  [.post (updateOutputSignal (some demoGroup)), .call .sigContinue, .hint,
   .step, .step, .step, .step, .getReturns (.ok (some [1, 2])), .step, .step,
   .step, .step, .step, .step, .step, .accept]

/-- The state and the events at the end of the sample run. -/
def demoEnd : State × List Event :=
  (run (newEventConsumer 0 (some 1)) demoActs).getD (newEventConsumer 0 (some 1), [])

/-- The pair (Pause flag, Wait flag) after one more event. -/
def Event.applyStore (fl : Bool × Bool) : Event → Bool × Bool
  | .stored .sigPause => (true, fl.2)
  | .stored .sigContinue => (false, fl.2)
  | .stored .sigWait => (fl.1, true)
  | .stored .sigUnWait => (fl.1, false)
  | _ => fl

/-- The pair (Pause flag, Wait flag) as last stored in a history that starts at
`newEventConsumer`, which stores true in the pause flag. -/
def lastStored (tr : List Event) : Bool × Bool :=
  tr.foldl Event.applyStore (true, false)

/-- The flags hold what was last stored. -/
def FlagsTracked (s : State) (tr : List Event) : Prop :=
  (s.c.pause, s.c.wait) = lastStored tr

/-- Unless a flag setter still owes its hint or the channel holds a signal, the
worker's `paused` agrees with the flags, or the worker is in the middle of
`c.paused()` and what it has loaded still agrees with them. -/
def Settled (s : State) : Prop :=
  0 < s.calls ∨ s.c.sig ≠ [] ∨
    match s.pc with
    | .top | .drain | .block => s.l.paused = (s.c.pause || s.c.wait)
    | .fetchedWait | .handlingWait _ => s.c.pause = false
    | .fetched | .handling _ | .stopped => True

/-- A sample run of flag setters: three hints fill the channel, the hints of
the two setters that follow are dropped, and the worker then handles the three
signals and reaches its second `select`. -/
def quietActs : List Action :=
  [.call .sigContinue, .hint, .call .sigWait, .hint, .call .sigUnWait, .hint,
   .call .sigPause, .hint, .call .sigContinue, .hint,
   .step,
   .step, .step, .step, .step,
   .step, .step, .step, .step,
   .step, .step, .step, .step,
   .step]

/-- The state and the events at the end of the sample run of flag setters. -/
def quietEnd : State × List Event :=
  (run (newEventConsumer 0 (some 1)) quietActs).getD (newEventConsumer 0 (some 1), [])

/-- The event records a handled `sigConsumerUpdateInput` signal. -/
def Event.isInput : Event → Bool
  | .handled sig _ => sig.tag = .sigConsumerUpdateInput
  | _ => false

/-- The event records a call of `Get`. -/
def Event.isGet : Event → Bool
  | .get _ _ _ => true
  | _ => false

/-- The event records a send on an output work queue. -/
def Event.isSend : Event → Bool
  | .send _ _ => true
  | _ => false

/-- The events that precede the first event of kind `g`. -/
def before (g : Event → Bool) (tr : List Event) : List Event :=
  tr.takeWhile (fun ev => !g ev)

/-- The events that precede the first handled `sigConsumerUpdateInput` signal. -/
def beforeInput (tr : List Event) : List Event := before Event.isInput tr

/-- Until the first event of kind `g` every event is of kind `quiet` and the
state satisfies `Q`. -/
def Gated (g quiet : Event → Bool) (Q : State → Prop) (s : State) (tr : List Event) : Prop :=
  (∀ ev ∈ before g tr, quiet ev = true) ∧ ((∀ ev ∈ tr, g ev = false) → Q s)

/-- The state of the sample run in which the worker stands at the loop head
with the fetch condition true. -/
def fetchPoint : State :=
  ((run (newEventConsumer 0 (some 1)) (demoActs.take 7)).getD
    (newEventConsumer 0 (some 1), [])).1

/-- The state right after a `Get` error at `fetchPoint`. -/
def afterError : State :=
  { fetchPoint with l := { fetchPoint.l with out := none, consumer := none } }

/-- A run in which the pause flag is raised while a batch is pending. -/
def pausedSendActs : List Action :=
  [.post (updateOutputSignal (some demoGroup)), .call .sigContinue, .hint,
   .step, .step, .step, .step, .getReturns (.ok (some [1, 2])), .step, .step,
   .step, .step, .step, .step, .step,
   .call .sigPause, .hint, .recv, .step, .step, .step, .accept]

/-- The event is one of the worker, not of another goroutine. -/
def Event.isWorker : Event → Bool
  | .get _ _ _ => true
  | .send _ _ => true
  | .handled _ _ => true
  | .stopped _ => true
  | .drained => true
  | _ => false

/-- The last thing the worker did. -/
def lastWorker (tr : List Event) : Option Event := (tr.filter Event.isWorker).getLast?

/-- Every send follows a first `select` that found the channel empty, with no
other event of the worker in between. -/
def SendsFollowDrain (tr : List Event) : Prop :=
  ∀ pre post q b, tr = pre ++ Event.send q b :: post → lastWorker pre = some .drained

/-- The invariant behind `SendsFollowDrain`. -/
def DrainedFirst (s : State) (tr : List Event) : Prop :=
  (s.pc = .block → lastWorker tr = some .drained) ∧ SendsFollowDrain tr

/-- The event records a handled `sigConsumerUpdateOutput` signal that carries a
non-nil output group. -/
def Event.isOutputAssigned : Event → Bool
  | .handled sig _ => sig.tag = .sigConsumerUpdateOutput ∧ sig.out ≠ none
  | _ => false

/-- The event records a signal during whose handling both flags were loaded as
false. -/
def Event.isClear : Event → Bool
  | .handled _ p => !p
  | _ => false

/-- The event is neither a call of `Get` nor a send on an output work queue. -/
def Event.isQuiet (ev : Event) : Bool := !ev.isGet && !ev.isSend

/-- No output group, no delivery target, no pending batch. -/
def Unassigned (s : State) : Prop :=
  s.c.out = none ∧ s.l.out = none ∧ s.l.batch = none

/-- The worker's `paused` is true and it holds no delivery target and no batch. -/
def HeldBack (s : State) : Prop :=
  s.l.paused = true ∧ s.l.out = none ∧ s.l.batch = none ∧
  s.pc ≠ .fetched ∧ s.pc ≠ .fetchedWait

/-- The signal that the worker has received and not yet handled, if any. -/
def inflight : PC → List consumerSignal
  | .handling sig => [sig]
  | .handlingWait sig => [sig]
  | _ => []

/-- The signals sent and not yet handled, oldest first. -/
def inbox (s : State) : List consumerSignal := inflight s.pc ++ s.c.sig

/-- The consumers carried by the `sigConsumerUpdateInput` signals of a list. -/
def inputs (q : List consumerSignal) : List (Option Handle) :=
  (q.filter (fun sig => sig.tag = .sigConsumerUpdateInput)).map (fun sig => sig.consumer)

/-- The consumer of the worker followed by those it is going to install. -/
def chain (s : State) : List (Option Handle) := s.l.consumer :: inputs (inbox s)

/-- The consumer is nil or `Close` was called on it. -/
def closedOrNil (closed : List Handle) (x : Option Handle) : Prop :=
  ∀ h, x = some h → h ∈ closed

/-- Every consumer of the list but the last is closed or nil, and so is the
last unless the controller is outside `updOutput` and `close` (`idle`) and the
last is `cur`, the value of `c.consumer`. -/
def okChain (closed : List Handle) (idle : Prop) (cur : Option Handle) :
    List (Option Handle) → Prop
  | [] => True
  | [x] => closedOrNil closed x ∨ (idle ∧ x = cur)
  | x :: y :: rest => closedOrNil closed x ∧ okChain closed idle cur (y :: rest)

/-- The chain of the state satisfies `okChain`. -/
def ChainClosed (s : State) : Prop :=
  okChain s.closed (s.ctl = .idle) s.c.consumer (chain s)

/-- The signal of the event when it records the end of a `handleSignal` call. -/
def Event.processedSig : Event → Option consumerSignal
  | .handled sig _ => some sig
  | .stopped sig => some sig
  | _ => none

/-- The signal of the event when it records a send on `c.sig`. -/
def Event.postedSig : Event → Option consumerSignal
  | .posted sig => some sig
  | _ => none

/-- The signals handled so far, in order. -/
def processed (tr : List Event) : List consumerSignal := tr.filterMap Event.processedSig

/-- The signals sent so far, in order. -/
def postedSigs (tr : List Event) : List consumerSignal := tr.filterMap Event.postedSig

/-- The channel is first in, first out: what was sent is what was handled
followed by what waits. -/
def Fifo (s : State) (tr : List Event) : Prop :=
  processed tr ++ inbox s = postedSigs tr

/-- Scans a list of signals that must alternate between output updates and
input updates; the flag says that an output update awaits its input update. -/
def balance : Bool → List consumerSignal → Option Bool
  | b, [] => some b
  | b, sig :: rest =>
    match sig.tag with
    | .sigConsumerUpdateOutput => if b then none else balance true rest
    | .sigConsumerUpdateInput => if b then balance false rest else none
    | _ => balance b rest

/-- The controller is between the two sends of `updOutput`. -/
def Ctl.betweenSends : Ctl → Bool
  | .updAcquire => true
  | .updPostIn => true
  | _ => false

/-- The signals sent alternate, and an output update awaits its input update
exactly when the controller is between the two sends. -/
def Balanced (s : State) (tr : List Event) : Prop :=
  balance false (postedSigs tr) = some s.ctl.betweenSends

/-- Every consumer on which `Close` was called has its event. -/
def ClosedLogged (s : State) (tr : List Event) : Prop :=
  ∀ h ∈ s.closed, Event.closed h ∈ tr

/-- Every event of the history satisfies `φ`, given the events before it. -/
def Each (φ : List Event → Event → Prop) (tr : List Event) : Prop :=
  ∀ pre ev post, tr = pre ++ ev :: post → φ pre ev

/-- A call of `Get` made after an output update was handled and before the
input update that follows it was handled targets a closed consumer and returns
an error. -/
def windowGet (pre : List Event) (ev : Event) : Prop :=
  ∀ h n r, ev = Event.get h n r → balance false (processed pre) = some true →
    r = .err ∧ Event.closed h ∈ pre

/-- The invariants of the reconfiguration protocol. -/
def Proto (s : State) (tr : List Event) : Prop :=
  ChainClosed s ∧ Fifo s tr ∧ Balanced s tr ∧ ClosedLogged s tr ∧ Each windowGet tr

/-- A run of the reconfiguration protocol: the controller enters `updOutput`,
sends the output update, the worker handles it with both flags clear and
attempts a fetch on the consumer that `updOutput` closed, the controller then
acquires consumer 2 and sends the input update. -/
def swapActs : List Action :=
  [.call .sigContinue, .hint, .updOutput (some demoGroup), .ctl none,
   .step, .step, .step, .step, .step, .step, .step, .step,
   .getReturns .err, .ctl (some 2), .ctl none]

/-- The state and the events at the end of the reconfiguration run. -/
def swapEnd : State × List Event :=
  (runP (newEventConsumer 0 (some 1)) swapActs).getD (newEventConsumer 0 (some 1), [])

/-- The signal is not `sigStop`. -/
def nonStop (sig : consumerSignal) : Bool := sig.tag ≠ .sigStop

/-- The number of signals queued ahead of the first `sigStop`. -/
def ahead (q : List consumerSignal) : Nat := (q.takeWhile nonStop).length

/-- The signals up to the first `sigStop`, that one included. -/
def upToStop (q : List consumerSignal) : List consumerSignal :=
  q.takeWhile nonStop ++ (q.dropWhile nonStop).take 1

/-- The signals that the worker still handles before it returns. -/
def toHandle (s : State) : List consumerSignal :=
  if s.pc = .stopped then [] else upToStop (inbox s)

/-- A bound on the steps the worker takes before its next receive. -/
def cost (s : State) : Nat :=
  match s.pc with
  | .top => if fetchCond s.c s.l then 2 else 1
  | .fetched => 2
  | .fetchedWait => 1
  | .drain => 0
  | .block => 3
  | .handling _ => 4
  | .handlingWait _ => 3
  | .stopped => 0

/-- A bound on the steps the worker takes before `loop` returns, once `sigStop`
is queued and `Get` fails. -/
def fuel (s : State) : Nat :=
  if s.pc = .stopped then 0 else cost s + 1 + 5 * ahead s.c.sig

/-- The action is a step of the worker. -/
def Action.isWorker : Action → Bool
  | .step => true
  | .getReturns _ => true
  | .recv => true
  | .accept => true
  | _ => false

/-- The number of steps of the worker in a list of actions. -/
def workerSteps (acts : List Action) : Nat := (acts.filter Action.isWorker).length

/-- A step the worker can always take while `sigStop` is queued and its consumer
is closed: it never waits for the output. -/
def nextAction (s : State) : Action :=
  match s.pc with
  | .top => if fetchCond s.c s.l then .getReturns .err else .step
  | .block => .recv
  | _ => .step

/-- The controller is inside `close` after its send, with `sigStop` queued or
the worker stopped, or `close` has returned and the worker has stopped. -/
def StopQueued (s : State) : Prop :=
  (s.ctl = .closeWait ∧ (s.pc = .stopped ∨ ∃ sig ∈ s.c.sig, sig.tag = .sigStop)) ∨
  (s.ctl = .returned ∧ s.pc = .stopped)

/-- Once `close` waits, `sigStop` is queued or the worker has stopped; once
`close` has returned, the worker has stopped. -/
def CloseSent (s : State) : Prop :=
  (s.ctl = .closeWait → s.pc = .stopped ∨ ∃ sig ∈ s.c.sig, sig.tag = .sigStop) ∧
  (s.ctl = .returned → s.pc = .stopped)

/-- A run of the protocol up to the point where `close` waits for the worker:
the worker stands at its second `select` with a pending batch that the output
does not accept. -/
def closeActs : List Action :=
  [.call .sigContinue, .hint, .updOutput (some demoGroup), .ctl none, .ctl (some 2),
   .ctl none,
   .step,
   .step, .step, .step, .step,
   .step, .step, .step, .getReturns .err, .step,
   .step, .step, .step, .getReturns (.ok (some [1, 2])), .step, .step,
   .step,
   .close, .ctl none]

/-- The state and the events at the end of `closeActs`. -/
def closeEnd : State × List Event :=
  (runP (newEventConsumer 0 (some 1)) closeActs).getD (newEventConsumer 0 (some 1), [])

/-- The signal is one of the three that change the state of the worker. -/
def isStructural (sig : consumerSignal) : Bool := sig.tag ≠ .sigConsumerCheck

/-- A struct whose channel holds two structural signals. -/
def hintDemo : eventConsumer :=
  { ctx := 0, pause := true, wait := false
    sig := [stopSignal, updateInputSignal (some 2)]
    consumer := some 1, out := none }

/-- A struct whose channel holds one check signal that the worker has not
received yet. -/
def hintedOnce : eventConsumer :=
  { ctx := 0, pause := true, wait := false
    sig := [checkSignal]
    consumer := some 1, out := none }

/-- The event is not a handled `sigConsumerUpdateInput` signal with a nil
consumer. -/
def Event.inputOk : Event → Bool
  | .handled sig _ => sig.tag ≠ .sigConsumerUpdateInput || sig.consumer.isSome
  | _ => true

/-- A run in which the consumer is replaced through `updOutput`, a batch of two
records is fetched from the new consumer and the output accepts it. -/
def deliverActs : List Action := closeActs.take 23 ++ [.accept]

/-- The state and the events at the end of `deliverActs`. -/
def deliverEnd : State × List Event :=
  (run (newEventConsumer 0 (some 1)) deliverActs).getD (newEventConsumer 0 (some 1), [])

/-- The event records the end of a `handleSignal` call. -/
def Event.isProcessed (ev : Event) : Bool := ev.processedSig.isSome

/-- The worker has no delivery target and stands past the fetch branch of the
current iteration. -/
def Untargeted (s : State) : Prop :=
  s.l.out = none ∧ s.pc ≠ .top ∧ s.pc ≠ .fetched ∧ s.pc ≠ .fetchedWait

/-- The state right after `Get` returned a batch of two records at `fetchPoint`. -/
def afterFetch : State :=
  { fetchPoint with
    l := { fetchPoint.l with out := some 7, batch := some (newBatch 0 [1, 2] 5) }
    pc := .fetched }

/-- The event records a handled `sigConsumerUpdateOutput` signal. -/
def Event.isOutputUpdate : Event → Bool
  | .handled sig _ => sig.tag = .sigConsumerUpdateOutput
  | _ => false

/-- The event is a send or a handled output update. -/
def Event.endsRetarget (ev : Event) : Bool := ev.isSend || ev.isOutputUpdate

/-- If the event is a send, it is the send of `b` on the work queue of `g`. -/
def sendsTo (g : outputGroup) (b : Batch) (ev : Event) : Prop :=
  ∀ q b1, ev = Event.send q b1 → b1 = some b ∧ g.workQueue = some q

/-- The batch `b` is pending under the output group `g`. -/
def Retargeted (g : outputGroup) (b : Batch) (s : State) : Prop :=
  s.l.batch = some b ∧ s.c.out = some g ∧ (s.l.out = none ∨ s.l.out = g.workQueue)

/-- Until the first event of kind `g` the state satisfies `Q`, and every event up
to and including that first one satisfies `φ`. -/
def GatedEach (g : Event → Bool) (Q : State → Prop) (φ : Event → Prop)
    (s : State) (tr : List Event) : Prop :=
  ((∀ ev ∈ tr, g ev = false) → Q s) ∧
  Each (fun pre ev => (∀ x ∈ pre, g x = false) → φ ev) tr

/-- Another output group, with another work queue. -/
def otherGroup : outputGroup := { workQueue := some 8, batchSize := 3, timeToLive := 9 }

/-- The state of the sample run in which the batch fetched under `demoGroup` is
pending and the worker stands at its second `select`. -/
def pendingPoint : State :=
  ((run (newEventConsumer 0 (some 1)) (demoActs.take 15)).getD
    (newEventConsumer 0 (some 1), [])).1

/-- Modelled from the spec: the queue behind a consumer is not part of the
sources at hand.  `Get(max)` on a consumer on which `Close` was called returns
an error; otherwise it waits while no record is available (`none`), and returns
up to `max` of the available records, which leave the queue. -/
def queueGet (closed : List Handle) (avail : List Nat) (h : Handle) (max : Int) :
    Option (GetResult × List Nat) :=
  if h ∈ closed then some (.err, avail)
  else if avail = [] then none
  else some (.ok (some (avail.take max.toNat)), avail.drop max.toNat)

/-- The system together with the records available in the queue and the
statements that the caller of the control surface still has to execute. -/
structure Scene where
  s : State
  avail : List Nat
  script : List Action
  deriving DecidableEq

/-- The statements of `updOutput(g)` followed by `sigContinue()`, where
`c.queue.Consumer()` returns `h1`. -/
def setOutputThenContinue (g : outputGroup) (h1 : Handle) : List Action :=
  [.updOutput (some g), .ctl none, .ctl (some h1), .ctl none, .call .sigContinue, .hint]

/-- One step of the scenario: a step of the worker, in which `Get` returns what
the queue returns, or the next statement of the caller. -/
def sceneStep (sc : Scene) (a : Action) : Option (Scene × List Event) :=
  if a.isWorker then
    match a with
    | .getReturns r =>
      match sc.s.l.consumer, sc.s.c.out with
      | some h, some g =>
        match queueGet sc.s.closed sc.avail h g.batchSize with
        | some (r1, rest) =>
          if r = r1 then
            (exec sc.s a).map (fun x => ({ sc with s := x.1, avail := rest }, x.2))
          else none
        | none => none
      | _, _ => none
    | _ => (exec sc.s a).map (fun x => ({ sc with s := x.1 }, x.2))
  else
    match sc.script with
    | b :: rest =>
      if a = b then (exec sc.s a).map (fun x => ({ sc with s := x.1, script := rest }, x.2))
      else none
    | [] => none

/-- A run of the scenario. -/
def sceneRun : Scene → List Action → Option (Scene × List Event)
  | sc, [] => some (sc, [])
  | sc, a :: as =>
    match sceneStep sc a with
    | none => none
    | some (sc1, e1) =>
      match sceneRun sc1 as with
      | none => none
      | some (sc2, e2) => some (sc2, e1 ++ e2)

/-- The scenario at its start: a fresh `eventConsumer` with consumer `h0`, the
records in the queue, and the caller about to call `updOutput(g)` and then
`sigContinue()`. -/
def sceneStart (ctx : Nat) (h0 h1 : Handle) (g : outputGroup) (records : List Nat) : Scene :=
  { s := newEventConsumer ctx (some h0), avail := records,
    script := setOutputThenContinue g h1 }

/-- The caller has returned and the worker can take no step: it waits inside
`Get` or at its second `select`. -/
def Scene.blocked (sc : Scene) : Prop :=
  sc.script = [] ∧ ∀ a, a.isWorker = true → sceneStep sc a = none

/-- What a step of the scenario does besides the step of the system. -/
def SceneSide (sc : Scene) (a : Action) (sc1 : Scene) : Prop :=
  (a.isWorker = true ∧ sc1.script = sc.script ∧
    ((∃ r h g, a = .getReturns r ∧ sc.s.l.consumer = some h ∧ sc.s.c.out = some g ∧
        queueGet sc.s.closed sc.avail h g.batchSize = some (r, sc1.avail)) ∨
     ((∀ r, a ≠ .getReturns r) ∧ sc1.avail = sc.avail))) ∨
  (a.isWorker = false ∧ sc.script = a :: sc1.script ∧ sc1.avail = sc.avail)

/-- The parameters of the scenario: the batch context, the consumer the worker
starts with, the consumer that `updOutput` acquires, the output group and the
records in the queue. -/
structure Setting where
  ctx : Nat
  h0 : Handle
  h1 : Handle
  g : outputGroup
  records : List Nat

/-- The batch that wraps all the records of the scenario. -/
def Setting.batch (c : Setting) : Batch := newBatch c.ctx c.records c.g.timeToLive

/-- What the caller of the scenario has made of the shared state. -/
structure Shared where
  ctl : Ctl
  closed : List Handle
  consumer : Option Handle
  pause : Bool
  calls : Nat
  posted : List consumerSignal

/-- The shared state after the first `k` statements of the caller. -/
def Setting.sharedAt (c : Setting) : Nat → Shared
  | 0 => ⟨.idle, [], some c.h0, true, 0, []⟩
  | 1 => ⟨.updPostOut (some c.g), [c.h0], some c.h0, true, 0, []⟩
  | 2 => ⟨.updAcquire, [c.h0], some c.h0, true, 0, [updateOutputSignal (some c.g)]⟩
  | 3 => ⟨.updPostIn, [c.h0], some c.h1, true, 0, [updateOutputSignal (some c.g)]⟩
  | 4 => ⟨.idle, [c.h0], some c.h1, true, 0,
      [updateOutputSignal (some c.g), updateInputSignal (some c.h1)]⟩
  | 5 => ⟨.idle, [c.h0], some c.h1, false, 1,
      [updateOutputSignal (some c.g), updateInputSignal (some c.h1)]⟩
  | _ => ⟨.idle, [c.h0], some c.h1, false, 0,
      [updateOutputSignal (some c.g), updateInputSignal (some c.h1), checkSignal]⟩

/-- The caller has executed `k` statements and the shared state is what these
statements make of it. -/
def ScriptedAt (c : Setting) (k : Nat) (sc : Scene) (tr : List Event) : Prop :=
  k ≤ 6 ∧ sc.script = (setOutputThenContinue c.g c.h1).drop k ∧
  sc.s.ctl = (c.sharedAt k).ctl ∧ sc.s.closed = (c.sharedAt k).closed ∧
  sc.s.c.consumer = (c.sharedAt k).consumer ∧ sc.s.c.pause = (c.sharedAt k).pause ∧
  sc.s.calls = (c.sharedAt k).calls ∧ postedSigs tr = (c.sharedAt k).posted ∧
  sc.s.c.wait = false ∧ sc.s.c.ctx = c.ctx

/-- The shared state follows the script, and the channel is first in, first out. -/
def Scripted (c : Setting) (sc : Scene) (tr : List Event) : Prop :=
  (∃ k, ScriptedAt c k sc tr) ∧ Fifo sc.s tr

/-- The three signals sent in the scenario. -/
def Setting.sigs (c : Setting) : List consumerSignal :=
  [updateOutputSignal (some c.g), updateInputSignal (some c.h1), checkSignal]

/-- What holds of the worker, the queue and the history throughout the
scenario, where `q` is the work queue of the output group. -/
structure Working (c : Setting) (q : Chan) (sc : Scene) (tr : List Event) : Prop where
  running : sc.s.pc ≠ .stopped
  group : sc.s.c.out = none ∨ (sc.s.c.out = some c.g ∧ c.h0 ∈ sc.s.closed)
  cons : sc.s.l.consumer = some c.h0 ∨ sc.s.l.consumer = none ∨ sc.s.l.consumer = some c.h1
  consNew : updateInputSignal (some c.h1) ∈ processed tr → sc.s.l.consumer = some c.h1
  groupNew : updateOutputSignal (some c.g) ∈ processed tr → sc.s.c.out = some c.g
  queue : (sc.avail = c.records ∧ fetched tr = []) ∨ (sc.avail = [] ∧ fetched tr = [c.records])
  batch : sc.s.l.batch = none ∨ sc.s.l.batch = some c.batch
  out : sc.s.l.out = none ∨ sc.s.l.out = some q
  sends : ∀ q1 b1, Event.send q1 b1 ∈ tr → q1 = q ∧ b1 = some c.batch
  gets : ∀ h n r, Event.get h n r ∈ tr →
    n = c.g.batchSize ∧ ((h = c.h0 ∧ r = .err) ∨ (h = c.h1 ∧ r = .ok (some c.records)))
  fetching : sc.s.pc = .fetched ∨ sc.s.pc = .fetchedWait →
    sc.s.l.batch ≠ none ∧ sc.s.l.out = some q
  armed : sc.s.l.batch ≠ none → sc.s.l.paused = false → sc.s.c.out ≠ none →
    sc.s.l.out ≠ none
  loaded : sc.s.pc = .drain ∨ sc.s.pc = .block → sc.s.l.paused = false →
    sc.s.c.out ≠ none → sc.s.l.consumer ≠ none → sc.s.l.batch ≠ none
  target : Targeted sc.s

/-- The events are none of those the history of the scenario keeps track of. -/
def Silent (e : List Event) : Prop :=
  processed e = [] ∧ fetched e = [] ∧ ∀ ev ∈ e, ev.isSend = false ∧ ev.isGet = false

/-- The invariants of the scenario. -/
def SceneInv (c : Setting) (q : Chan) (sc : Scene) (tr : List Event) : Prop :=
  Scripted c sc tr ∧ Working c q sc tr ∧ Accounted sc.s tr ∧ Settled sc.s

/-- The scenario of the setting at its start. -/
def Setting.start (c : Setting) : Scene := sceneStart c.ctx c.h0 c.h1 c.g c.records

/-- One schedule of the scenario: the caller runs to its end, then the worker
handles the three signals, with a failing `Get` on the closed consumer after the
first and the successful `Get` after the second, and the output accepts. -/
def Setting.schedule (c : Setting) : List Action :=
  setOutputThenContinue c.g c.h1 ++
  [.step, .step, .step, .step, .getReturns .err, .step, .step, .step, .step,
   .getReturns (.ok (some c.records)), .step, .step, .step, .step, .step, .step, .step,
   .accept]

/-- The scenario at the end of the schedule. -/
def Setting.rest (c : Setting) : Scene :=
  { s :=
      { c := { ctx := c.ctx, pause := false, wait := false, sig := [], consumer := some c.h1,
               out := some c.g }
        l := { consumer := some c.h1, out := c.g.workQueue, batch := none, paused := false }
        pc := .top
        ctl := .idle
        closed := [c.h0]
        calls := 0 }
    avail := []
    script := [] }

/-- How far the worker is from the end of the current pass through its loop. -/
def PC.rank : PC → Nat
  | .stopped => 0
  | .block => 1
  | .drain => 2
  | .fetchedWait => 3
  | .fetched => 4
  | .top => 5
  | .handlingWait _ => 7
  | .handling _ => 8

/-- A bound on the number of steps that the scenario can still take: what is
left of the script, the signals in the channel, the one fetch, the one send, the
one failing `Get` and the rest of the current pass. -/
def Scene.weight (sc : Scene) (tr : List Event) : Nat :=
  9 * sc.script.length + 8 * sc.s.c.sig.length + 5 * (1 - (fetched tr).length) +
  5 * sc.s.l.batch.toList.length + sc.s.l.consumer.toList.length + sc.s.pc.rank

/-- The event records a call of `Get` on the consumer `h`. -/
def Event.isGetOn (h : Handle) : Event → Bool
  | .get h1 _ _ => h1 == h
  | _ => false

/-- The scenario of the spec: two records, batch size 10, time to live 5. -/
def demoSetting : Setting := { ctx := 0, h0 := 1, h1 := 2, g := demoGroup, records := [1, 2] }

/-! ## Theorems -/

theorem handleSignal_stop (p w : Bool) (c : eventConsumer) (l : loopVars)
    (sig : consumerSignal) (h : sig.tag = .sigStop) :
    handleSignal p w c l sig = .error .errStopped := by
  simp [handleSignal, h]

theorem handleSignal_ok (p w : Bool) (c : eventConsumer) (l : loopVars)
    (sig : consumerSignal) (h : sig.tag ≠ .sigStop) :
    handleSignal p w c l sig =
      .ok ({ c with out := sigOut c sig },
           { consumer := sigConsumer l sig, out := target (sigOut c sig) l.batch,
             batch := l.batch, paused := p || w }) := by
  obtain ⟨ctx, pf, wf, q, ch, co⟩ := c
  obtain ⟨lc, lo, lb, lp⟩ := l
  obtain ⟨tag, hc, o⟩ := sig
  cases tag <;> cases co <;> cases lb <;> cases o <;>
    simp_all [handleSignal, sigOut, sigConsumer, target, paused]


theorem received_step (s : State) (a : Action) (sig : consumerSignal)
    (rest : List consumerSignal)
    (h : (s.pc = .drain ∧ a = .step) ∨ (s.pc = .block ∧ a = .recv))
    (hq : s.c.sig = sig :: rest) :
    Step s a (received s sig rest).1 (received s sig rest).2 := by
  unfold received
  by_cases ht : sig.tag = .sigStop
  · simp only [ht, if_true]; exact Step.recvStop s a sig rest h hq ht
  · simp only [ht, if_false]; exact Step.recvSig s a sig rest h hq ht

theorem finishSignal_step (s : State) (sig : consumerSignal) (p w : Bool)
    (h : (s.pc = .handling sig ∧ s.c.pause = true ∧ p = true ∧ w = false) ∨
         (s.pc = .handlingWait sig ∧ p = false ∧ w = s.c.wait)) :
    Step s .step (finishSignal s sig p w).1 (finishSignal s sig p w).2 := by
  unfold finishSignal
  by_cases ht : sig.tag = .sigStop
  · rw [handleSignal_stop p w s.c s.l sig ht]
    exact Step.sigStray s sig (h.elim (fun h => Or.inl h.1) (fun h => Or.inr h.1)) ht
  · rw [handleSignal_ok p w s.c s.l sig ht]
    exact Step.sigDone s sig p w h ht

theorem exec_step {s s1 : State} {a : Action} {e : List Event}
    (h : exec s a = some (s1, e)) : Step s a s1 e := by
  cases a with
  | step =>
    simp only [exec, loopStep] at h
    split at h
    · split at h
      · exact absurd h (by simp)
      · next hpc hc =>
        simp only [Option.some.injEq, Prod.mk.injEq] at h
        obtain ⟨rfl, rfl⟩ := h
        exact Step.topSkip s hpc (by simpa using hc)
    · next hpc =>
      split at h
      · next hp =>
        simp only [Option.some.injEq, Prod.mk.injEq] at h
        obtain ⟨rfl, rfl⟩ := h
        exact Step.fetchDone s true false (Or.inl ⟨hpc, hp, rfl, rfl⟩)
      · next hp =>
        simp only [Option.some.injEq, Prod.mk.injEq] at h
        obtain ⟨rfl, rfl⟩ := h
        exact Step.fetchLoad s hpc (by simpa using hp)
    · next hpc =>
      simp only [Option.some.injEq, Prod.mk.injEq] at h
      obtain ⟨rfl, rfl⟩ := h
      exact Step.fetchDone s false s.c.wait (Or.inr ⟨hpc, rfl, rfl⟩)
    · next hpc =>
      split at h
      · next hq =>
        simp only [Option.some.injEq, Prod.mk.injEq] at h
        obtain ⟨rfl, rfl⟩ := h
        exact Step.drainEmpty s hpc hq
      · next sig rest hq =>
        simp only [Option.some.injEq] at h
        have hs := received_step s .step sig rest (Or.inl ⟨hpc, rfl⟩) hq
        rwa [h] at hs
    · next sig hpc =>
      split at h
      · next hp =>
        simp only [Option.some.injEq] at h
        have hs := finishSignal_step s sig true false (Or.inl ⟨hpc, hp, rfl, rfl⟩)
        rwa [h] at hs
      · next hp =>
        simp only [Option.some.injEq, Prod.mk.injEq] at h
        obtain ⟨rfl, rfl⟩ := h
        exact Step.sigLoad s sig hpc (by simpa using hp)
    · next sig hpc =>
      simp only [Option.some.injEq] at h
      have hs := finishSignal_step s sig false s.c.wait (Or.inr ⟨hpc, rfl, rfl⟩)
      rwa [h] at hs
    · exact absurd h (by simp)
  | getReturns r =>
    simp only [exec, loopStep] at h
    split at h
    · next hpc =>
      split at h
      · next hc =>
        split at h
        · next g hd hg hh =>
          split at h
          · simp only [Option.some.injEq, Prod.mk.injEq] at h
            obtain ⟨rfl, rfl⟩ := h
            exact Step.getErr s g hd hpc hc hg hh
          · next qb =>
            simp only [Option.some.injEq, Prod.mk.injEq] at h
            obtain ⟨rfl, rfl⟩ := h
            exact Step.getOk s g hd qb hpc hc hg hh
        · exact absurd h (by simp)
      · exact absurd h (by simp)
    · exact absurd h (by simp)
  | recv =>
    simp only [exec, loopStep] at h
    split at h
    · next hpc =>
      split at h
      · exact absurd h (by simp)
      · next sig rest hq =>
        simp only [Option.some.injEq] at h
        have hs := received_step s .recv sig rest (Or.inr ⟨hpc, rfl⟩) hq
        rwa [h] at hs
    · exact absurd h (by simp)
  | accept =>
    simp only [exec, loopStep] at h
    split at h
    · next hpc =>
      split at h
      · exact absurd h (by simp)
      · next q ho =>
        simp only [Option.some.injEq, Prod.mk.injEq] at h
        obtain ⟨rfl, rfl⟩ := h
        exact Step.accept s q hpc ho
    · exact absurd h (by simp)
  | call f =>
    simp only [exec, Option.some.injEq, Prod.mk.injEq] at h
    obtain ⟨rfl, rfl⟩ := h
    exact Step.call s f
  | hint =>
    simp only [exec] at h
    split at h
    · next hcalls =>
      simp only [Option.some.injEq, Prod.mk.injEq] at h
      obtain ⟨rfl, rfl⟩ := h
      by_cases hroom : s.c.sig.length < sigCap
      · simp only [sigHint, hroom, if_true]
        exact Step.hintSent s hcalls hroom
      · simp only [sigHint, hroom, if_false]
        exact Step.hintDropped s hcalls hroom
    · exact absurd h (by simp)
  | post sig =>
    simp only [exec, post] at h
    by_cases hroom : s.c.sig.length < sigCap
    · simp only [hroom, if_true, Option.some.injEq, Prod.mk.injEq] at h
      obtain ⟨rfl, rfl⟩ := h
      exact Step.post s sig hroom
    · simp [hroom] at h
  | updOutput grp =>
    simp only [exec, ctlStep] at h
    split at h
    · next h0 hc hh =>
      simp only [Option.some.injEq, Prod.mk.injEq] at h
      obtain ⟨rfl, rfl⟩ := h
      exact Step.updOutput s grp h0 hc hh
    · exact absurd h (by simp)
  | close =>
    simp only [exec, ctlStep] at h
    split at h
    · next h0 hc hh =>
      simp only [Option.some.injEq, Prod.mk.injEq] at h
      obtain ⟨rfl, rfl⟩ := h
      exact Step.close s h0 hc hh
    · exact absurd h (by simp)
  | ctl x =>
    simp only [exec, ctlStep, post] at h
    by_cases hroom : s.c.sig.length < sigCap
    · simp only [hroom, if_true] at h
      split at h
      · next grp hc =>
        simp only [Option.some.injEq, Prod.mk.injEq] at h
        obtain ⟨rfl, rfl⟩ := h
        exact Step.ctlPost s x (updateOutputSignal grp) .updAcquire
          (Or.inl ⟨hc, rfl, rfl⟩) hroom
      · next hc =>
        simp only [Option.some.injEq, Prod.mk.injEq] at h
        obtain ⟨rfl, rfl⟩ := h
        exact Step.acquire s x hc
      · next hc =>
        simp only [Option.some.injEq, Prod.mk.injEq] at h
        obtain ⟨rfl, rfl⟩ := h
        exact Step.ctlPost s x (updateInputSignal s.c.consumer) .idle
          (Or.inr (Or.inl ⟨hc, rfl, rfl⟩)) hroom
      · next hc =>
        simp only [Option.some.injEq, Prod.mk.injEq] at h
        obtain ⟨rfl, rfl⟩ := h
        exact Step.ctlPost s x stopSignal .closeWait
          (Or.inr (Or.inr ⟨hc, rfl, rfl⟩)) hroom
      · next hc =>
        split at h
        · next hpc =>
          simp only [Option.some.injEq, Prod.mk.injEq] at h
          obtain ⟨rfl, rfl⟩ := h
          exact Step.ctlReturn s x hc hpc
        · exact absurd h (by simp)
      · exact absurd h (by simp)
    · simp only [hroom, if_false] at h
      split at h
      · exact absurd h (by simp)
      · next hc =>
        simp only [Option.some.injEq, Prod.mk.injEq] at h
        obtain ⟨rfl, rfl⟩ := h
        exact Step.acquire s x hc
      · exact absurd h (by simp)
      · exact absurd h (by simp)
      · next hc =>
        split at h
        · next hpc =>
          simp only [Option.some.injEq, Prod.mk.injEq] at h
          obtain ⟨rfl, rfl⟩ := h
          exact Step.ctlReturn s x hc hpc
        · exact absurd h (by simp)
      · exact absurd h (by simp)

theorem run_invariant {P : State → List Event → Prop}
    (hP : ∀ s tr a s1 e, P s tr → Step s a s1 e → P s1 (tr ++ e)) :
    ∀ (acts : List Action) (s : State) (tr : List Event) (s2 : State) (e2 : List Event),
      P s tr → run s acts = some (s2, e2) → P s2 (tr ++ e2) := by
  intro acts
  induction acts with
  | nil =>
    intro s tr s2 e2 h hr
    simp only [run, Option.some.injEq, Prod.mk.injEq] at hr
    obtain ⟨rfl, rfl⟩ := hr
    simpa using h
  | cons a as ih =>
    intro s tr s2 e2 h hr
    simp only [run] at hr
    split at hr
    · exact absurd hr (by simp)
    · next s1 e1 hx =>
      split at hr
      · exact absurd hr (by simp)
      · next s3 e3 hr3 =>
        simp only [Option.some.injEq, Prod.mk.injEq] at hr
        obtain ⟨rfl, rfl⟩ := hr
        have h1 := hP s tr a s1 e1 h (exec_step hx)
        have h2 := ih s1 (tr ++ e1) s3 e3 h1 hr3
        simpa [List.append_assoc] using h2

theorem accounted_step (s : State) (tr : List Event) (a : Action) (s1 : State)
    (e : List Event) (h : Accounted s tr) (hs : Step s a s1 e) : Accounted s1 (tr ++ e) := by
  unfold Accounted fetched delivered pending at *
  cases hs <;>
    simp_all [fetchCond, finishFetch, Event.fetchedBatch, Event.deliveredBatch]
  case getOk g h0 qb hpc hc hg hh =>
    cases qb <;> simp [newBatch, Event.fetchedBatch]
  case accept q hpc ho =>
    cases hb : s.l.batch <;> simp [Event.deliveredBatch]

@[simp] theorem Call.store_out (f : Call) (c : eventConsumer) : (f.store c).out = c.out := by
  cases f <;> rfl

@[simp] theorem Call.store_sig (f : Call) (c : eventConsumer) : (f.store c).sig = c.sig := by
  cases f <;> rfl

@[simp] theorem Call.store_consumer (f : Call) (c : eventConsumer) :
    (f.store c).consumer = c.consumer := by
  cases f <;> rfl

@[simp] theorem Call.store_ctx (f : Call) (c : eventConsumer) : (f.store c).ctx = c.ctx := by
  cases f <;> rfl

theorem target_ne_none {o : Option outputGroup} {b : Option Batch}
    (h : target o b ≠ none) : o ≠ none ∧ b ≠ none := by
  cases o <;> cases b <;> simp_all [target]

theorem targeted_step (s : State) (a : Action) (s1 : State) (e : List Event)
    (h : Targeted s) (hs : Step s a s1 e)
    (hn : ∀ sig p, Event.handled sig p ∈ e → sig.tag = .sigConsumerUpdateInput →
      sig.consumer ≠ none) : Targeted s1 := by
  obtain ⟨h1, h2, h3⟩ := h
  cases hs with
  | topSkip hpc hc =>
    cases ho : s.l.out <;> cases hb : s.l.batch <;> cases hk : s.l.consumer <;>
      cases hco : s.c.out <;> simp_all [Targeted, fetchCond]
  | getErr g h0 hpc hc hg hh => simp_all [Targeted, fetchCond]
  | getOk g h0 qb hpc hc hg hh => simp_all [Targeted, fetchCond]
  | fetchLoad hpc hp => simp_all [Targeted]
  | fetchDone p w h => simp_all [Targeted, finishFetch]
  | drainEmpty hpc hq => simp_all [Targeted]
  | recvStop _ sig rest h hq ht => rcases h with ⟨hpc, _⟩ | ⟨hpc, _⟩ <;> simp_all [Targeted]
  | recvSig _ sig rest h hq ht => rcases h with ⟨hpc, _⟩ | ⟨hpc, _⟩ <;> simp_all [Targeted]
  | sigLoad sig hpc hp => simp_all [Targeted]
  | sigDone sig p w h ht =>
    have hn1 := hn sig (p || w) (by simp)
    refine ⟨?_, fun ho => (target_ne_none ho).1, fun ho hb => absurd hb (target_ne_none ho).2⟩
    intro hk
    have hb : s.l.batch = none := by
      by_cases hu : sig.tag = .sigConsumerUpdateInput
      · exact absurd (by simpa [sigConsumer, hu] using hk) (hn1 hu)
      · exact (h1 (by simpa [sigConsumer, hu] using hk)).1
    refine ⟨hb, ?_⟩
    show target (sigOut s.c sig) s.l.batch = none
    rw [hb]
    cases sigOut s.c sig <;> rfl
  | sigStray sig h ht => rcases h with hpc | hpc <;> simp_all [Targeted]
  | accept q hpc ho => simp_all [Targeted]
  | _ => simp_all [Targeted]

theorem handoff_step (s : State) (a : Action) (s1 : State) (e : List Event)
    (h : Targeted s) (hs : Step s a s1 e) : ∀ b ∈ handoffs e, b ≠ none := by
  obtain ⟨h1, h2, h3⟩ := h
  cases hs <;> simp_all [handoffs, Event.handoff]

theorem guarded_step (s : State) (tr : List Event) (a : Action) (s1 : State)
    (e : List Event) (h : Guarded s tr) (hs : Step s a s1 e) : Guarded s1 (tr ++ e) := by
  intro hn
  obtain ⟨ht, hh⟩ := h (fun sig p hm => hn sig p (List.mem_append_left e hm))
  refine ⟨targeted_step s a s1 e ht hs
    (fun sig p hm => hn sig p (List.mem_append_right tr hm)), ?_⟩
  intro b hb
  simp only [handoffs, List.filterMap_append, List.mem_append] at hb
  rcases hb with hb | hb
  · exact hh b hb
  · exact handoff_step s a s1 e ht hs b hb

theorem accounted_init (ctx : Nat) (h : Option Handle) :
    Accounted (newEventConsumer ctx h) [] := by
  simp [Accounted, fetched, delivered, pending, newEventConsumer]

theorem guarded_init (ctx : Nat) (h : Option Handle) :
    Guarded (newEventConsumer ctx h) [] := by
  intro _
  simp [Targeted, handoffs, newEventConsumer]

theorem handoffs_eq_delivered (tr : List Event) (h : ∀ b ∈ handoffs tr, b ≠ none) :
    handoffs tr = (delivered tr).map some := by
  induction tr with
  | nil => rfl
  | cons ev tr ih =>
    have ih1 := ih (fun b hb => h b (by
      simp only [handoffs, List.filterMap_cons] at hb ⊢
      split
      · exact hb
      · exact List.mem_cons_of_mem _ hb))
    cases ev with
    | send q b =>
      cases b with
      | none => exact absurd rfl (h none (by simp [handoffs, Event.handoff]))
      | some b =>
        simp only [handoffs, delivered, List.filterMap_cons, Event.handoff,
          Event.deliveredBatch, List.map_cons] at ih1 ⊢
        rw [ih1]
    | _ => simpa [handoffs, delivered, Event.handoff, Event.deliveredBatch] using ih1

theorem get_needs_empty_slot (s : State) (a : Action) (s1 : State) (e : List Event)
    (hs : Step s a s1 e) (h : Handle) (n : Int) (r : GetResult)
    (hm : Event.get h n r ∈ e) : s.l.batch = none := by
  cases hs <;> simp_all [fetchCond]

theorem demo_run : run (newEventConsumer 0 (some 1)) demoActs = some (demoEnd.1, demoEnd.2) := by
  decide

/-- C1: in every state that `loop` reaches from the state `newEventConsumer`
creates, whatever signals are sent, flags stored, `Get` results returned and
sends accepted, the pending batch slot holds no batch or one, the number of
non-nil batches fetched is the number of batches handed to an output work queue
plus the number pending (so their difference is 0 or 1), and a step that calls
`Get` starts from an empty slot.  A send of the nil value hands over no batch;
the last part shows that there is none as long as no handled
`sigConsumerUpdateInput` signal carried a nil consumer. -/
theorem at_most_one_batch_pending (ctx : Nat) (h : Option Handle) (acts : List Action)
    (s : State) (tr : List Event)
    (hrun : run (newEventConsumer ctx h) acts = some (s, tr)) :
    (pending s).length ≤ 1 ∧
    (fetched tr).length = (delivered tr).length + (pending s).length ∧
    (∀ a s1 e h1 n r, exec s a = some (s1, e) → Event.get h1 n r ∈ e → s.l.batch = none) ∧
    (nonNilInputs tr → handoffs tr = (delivered tr).map some) := by
  have hacc := run_invariant accounted_step acts _ [] s tr (accounted_init ctx h) hrun
  have hg := run_invariant guarded_step acts _ [] s tr (guarded_init ctx h) hrun
  simp only [List.nil_append] at hacc hg
  refine ⟨?_, ?_, ?_, ?_⟩
  · unfold pending; cases s.l.batch <;> simp
  · have := congrArg List.length hacc
    simpa using this
  · intro a s1 e h1 n r hx hm
    exact get_needs_empty_slot s a s1 e (exec_step hx) h1 n r hm
  · intro hn
    exact handoffs_eq_delivered tr (hg hn).2

theorem at_most_one_batch_pending_witness :
    run (newEventConsumer 0 (some 1)) demoActs = some (demoEnd.1, demoEnd.2) ∧
    (fetched demoEnd.2).length = (delivered demoEnd.2).length + (pending demoEnd.1).length ∧
    (delivered demoEnd.2).length = 1 :=
  ⟨demo_run,
   (at_most_one_batch_pending 0 (some 1) demoActs demoEnd.1 demoEnd.2 demo_run).2.1,
   by decide⟩

/-- C2: in every run of `loop` the batches handed to output work queues, read
as the queue batches they wrap, form an initial segment of the non-nil queue
batches that successful `Get` calls returned, in the same order: what was
fetched is exactly what was delivered followed by the pending batch, if any, so
no batch is delivered twice and none is overtaken.  A send of the nil value
hands over no batch; the last part shows that there is none as long as no
handled `sigConsumerUpdateInput` signal carried a nil consumer. -/
theorem delivered_in_fetch_order (ctx : Nat) (h : Option Handle) (acts : List Action)
    (s : State) (tr : List Event)
    (hrun : run (newEventConsumer ctx h) acts = some (s, tr)) :
    (delivered tr).map Batch.original <+: fetched tr ∧
    fetched tr = (delivered tr).map Batch.original ++ (pending s).map Batch.original ∧
    (nonNilInputs tr → handoffs tr = (delivered tr).map some) := by
  have hacc := run_invariant accounted_step acts _ [] s tr (accounted_init ctx h) hrun
  have hg := run_invariant guarded_step acts _ [] s tr (guarded_init ctx h) hrun
  simp only [List.nil_append] at hacc hg
  have hsplit : fetched tr =
      (delivered tr).map Batch.original ++ (pending s).map Batch.original := by
    rw [hacc, List.map_append]
  exact ⟨⟨_, hsplit.symm⟩, hsplit, fun hn => handoffs_eq_delivered tr (hg hn).2⟩

theorem delivered_in_fetch_order_witness :
    run (newEventConsumer 0 (some 1)) demoActs = some (demoEnd.1, demoEnd.2) ∧
    (delivered demoEnd.2).map Batch.original <+: fetched demoEnd.2 ∧
    fetched demoEnd.2 = [[1, 2]] ∧
    (delivered demoEnd.2).map Batch.original = [[1, 2]] :=
  ⟨demo_run,
   (delivered_in_fetch_order 0 (some 1) demoActs demoEnd.1 demoEnd.2 demo_run).1,
   by decide, by decide⟩

theorem settled_step (s : State) (a : Action) (s1 : State) (e : List Event)
    (h : Settled s) (hs : Step s a s1 e) : Settled s1 := by
  unfold Settled at *
  cases hs with
  | topSkip hpc hc => simp_all
  | getErr g h0 hpc hc hg hh => simp_all
  | getOk g h0 qb hpc hc hg hh => simp_all
  | fetchLoad hpc hp => simp_all
  | fetchDone p w h =>
    rcases h with ⟨hpc, hp, rfl, rfl⟩ | ⟨hpc, rfl, rfl⟩
    · simp [finishFetch, paused, hp]
    · rcases h with h | h | h
      · exact Or.inl h
      · exact Or.inr (Or.inl h)
      · simp only [hpc] at h
        simp [finishFetch, paused, h]
  | drainEmpty hpc hq => simp_all
  | recvStop _ sig rest h hq ht => simp_all
  | recvSig _ sig rest h hq ht => simp_all
  | sigLoad sig hpc hp => simp_all
  | sigDone sig p w h ht =>
    rcases h with ⟨hpc, hp, rfl, rfl⟩ | ⟨hpc, rfl, rfl⟩
    · simp [hp]
    · rcases h with h | h | h
      · exact Or.inl h
      · exact Or.inr (Or.inl h)
      · simp only [hpc] at h
        simp [h]
  | sigStray sig h ht => simp_all
  | accept q hpc ho => simp_all
  | call f => simp_all
  | hintSent h hroom => simp_all
  | hintDropped h hfull =>
    refine Or.inr (Or.inl ?_)
    intro hnil
    have hnil1 : s.c.sig = [] := hnil
    simp [hnil1, sigCap] at hfull
  | post sig hroom => simp_all
  | updOutput grp h0 hc hh => simp_all
  | close h0 hc hh => simp_all
  | ctlPost x sig next h hroom => simp_all
  | acquire x hc => simp_all
  | ctlReturn x hc hpc => simp_all

theorem settled_init (ctx : Nat) (h : Option Handle) : Settled (newEventConsumer ctx h) := by
  simp [Settled, newEventConsumer]

theorem lastStored_append (tr e : List Event) :
    lastStored (tr ++ e) = e.foldl Event.applyStore (lastStored tr) := by
  simp [lastStored, List.foldl_append]

theorem flagsTracked_step (s : State) (tr : List Event) (a : Action) (s1 : State)
    (e : List Event) (h : FlagsTracked s tr) (hs : Step s a s1 e) :
    FlagsTracked s1 (tr ++ e) := by
  unfold FlagsTracked at *
  rw [lastStored_append, ← h]
  cases hs with
  | call f => cases f <;> rfl
  | hintSent h hroom => rfl
  | fetchDone p w h => rfl
  | _ => rfl

theorem quiet_run :
    run (newEventConsumer 0 (some 1)) quietActs = some (quietEnd.1, quietEnd.2) := by
  decide

/-- C3: take any interleaving of flag setters (each an atomic store followed
later by `sigHint`, which drops the hint when the channel is full), other sends
and steps of the worker, starting at `newEventConsumer`.  Whenever every setter
has returned, the channel is empty and the worker stands at its second
`select`, the flags hold what was last stored in them and the worker's `paused`
is the disjunction of the two.  The store of `sigPause` and `sigContinue`
leaves the wait flag alone, the store of `sigWait` and `sigUnWait` leaves the
pause flag alone, and `sigHint` touches neither. -/
theorem paused_agrees_when_quiescent (ctx : Nat) (h : Option Handle) (acts : List Action)
    (s : State) (tr : List Event)
    (hrun : run (newEventConsumer ctx h) acts = some (s, tr))
    (hpc : s.pc = .block) (hcalls : s.calls = 0) (hsig : s.c.sig = []) :
    (s.c.pause, s.c.wait) = lastStored tr ∧
    s.l.paused = ((lastStored tr).1 || (lastStored tr).2) ∧
    (∀ c : eventConsumer,
      (Call.sigPause.store c).wait = c.wait ∧ (Call.sigContinue.store c).wait = c.wait ∧
      (Call.sigWait.store c).pause = c.pause ∧ (Call.sigUnWait.store c).pause = c.pause ∧
      (sigHint c).pause = c.pause ∧ (sigHint c).wait = c.wait) := by
  have hset := run_invariant (P := fun s _ => Settled s)
    (fun s _ a s1 e hP hs => settled_step s a s1 e hP hs) acts _ [] s tr
    (settled_init ctx h) hrun
  have hfl := run_invariant flagsTracked_step acts _ [] s tr
    (by simp [FlagsTracked, lastStored, newEventConsumer]) hrun
  simp only [List.nil_append] at hfl
  unfold FlagsTracked at hfl
  refine ⟨hfl, ?_, ?_⟩
  · rw [← hfl]
    rcases hset with h1 | h1 | h1
    · omega
    · exact absurd hsig h1
    · simpa [hpc] using h1
  · intro c
    refine ⟨rfl, rfl, rfl, rfl, ?_, ?_⟩ <;> unfold sigHint <;> split <;> rfl

theorem paused_agrees_when_quiescent_witness :
    run (newEventConsumer 0 (some 1)) quietActs = some (quietEnd.1, quietEnd.2) ∧
    quietEnd.1.pc = .block ∧ quietEnd.1.calls = 0 ∧ quietEnd.1.c.sig = [] ∧
    lastStored quietEnd.2 = (false, false) ∧ quietEnd.1.l.paused = false ∧
    quietEnd.1.l.paused = ((lastStored quietEnd.2).1 || (lastStored quietEnd.2).2) :=
  ⟨quiet_run, by decide, by decide, by decide, by decide, by decide,
   (paused_agrees_when_quiescent 0 (some 1) quietActs quietEnd.1 quietEnd.2 quiet_run
     (by decide) (by decide) (by decide)).2.1⟩

theorem handling_run (s : State) (sig : consumerSignal) (hpc : s.pc = .handling sig)
    (ht : sig.tag ≠ .sigStop) :
    ∃ n s1 e, n ≤ 2 ∧ run s (List.replicate n .step) = some (s1, e) ∧ s1.pc = .top ∧
      handleSignal s.c.pause s.c.wait s.c s.l sig = .ok (s1.c, s1.l) := by
  have hok := handleSignal_ok s.c.pause s.c.wait s.c s.l sig ht
  by_cases hp : s.c.pause = true
  swap
  · have hp : s.c.pause = false := by simpa using hp
    refine ⟨2, { s with
        c := { s.c with out := sigOut s.c sig }
        l := { consumer := sigConsumer s.l sig, out := target (sigOut s.c sig) s.l.batch,
               batch := s.l.batch, paused := false || s.c.wait }
        pc := .top }, [.handled sig (false || s.c.wait)], le_refl 2, ?_, rfl, ?_⟩
    · simp [List.replicate, run, exec, loopStep, hpc, hp, finishSignal,
        handleSignal_ok _ _ _ _ _ ht]
    · rw [hok]
      simp [hp]
  · refine ⟨1, { s with
        c := { s.c with out := sigOut s.c sig }
        l := { consumer := sigConsumer s.l sig, out := target (sigOut s.c sig) s.l.batch,
               batch := s.l.batch, paused := true }
        pc := .top }, [.handled sig true], by omega, ?_, rfl, ?_⟩
    · simp [List.replicate, run, exec, loopStep, hpc, hp, finishSignal,
        handleSignal_ok _ _ _ _ _ ht]
    · rw [hok]
      simp [hp]

/-- C4: for every state of the worker, every pair of values loaded from the two
flags and every signal other than `sigStop`, `handleSignal` returns no error and
leaves exactly this: `c.out` is the output group of the signal when the tag is
`sigConsumerUpdateOutput` and is unchanged otherwise; `consumer` is the consumer
of the signal when the tag is `sigConsumerUpdateInput` and is unchanged
otherwise; `batch` is unchanged; `paused` is the disjunction of the two loaded
flags; `out` is the work queue of the new `c.out` when that is non-nil and a
batch is pending, and nil otherwise, whatever the flags are; nothing else in the
struct changes.  For `sigStop` it returns `errStopped`, and the worker that
receives it changes none of its variables.  In the worker, which loads the two
flags one after the other, a signal received and handled without a store in
between leaves what `handleSignal` yields for the flags as they are then. -/
theorem handleSignal_effect (p w : Bool) (c : eventConsumer) (l : loopVars)
    (sig : consumerSignal) :
    (sig.tag ≠ .sigStop →
      ∃ c1 l1, handleSignal p w c l sig = .ok (c1, l1) ∧
        c1.out = (if sig.tag = .sigConsumerUpdateOutput then sig.out else c.out) ∧
        c1 = { c with out := c1.out } ∧
        l1.consumer = (if sig.tag = .sigConsumerUpdateInput then sig.consumer else l.consumer) ∧
        l1.batch = l.batch ∧
        l1.paused = (p || w) ∧
        l1.out = (match c1.out, l.batch with
                  | some g, some _ => g.workQueue
                  | _, _ => none) ∧
        ∀ p1 w1, ∃ c2 l2, handleSignal p1 w1 c l sig = .ok (c2, l2) ∧ l2.out = l1.out) ∧
    (sig.tag = .sigStop →
      handleSignal p w c l sig = .error .errStopped ∧
      ∀ (s : State) (rest : List consumerSignal),
        (received s sig rest).1.l = s.l ∧ (received s sig rest).1.c.out = s.c.out ∧
        (received s sig rest).1.c.consumer = s.c.consumer ∧
        (received s sig rest).1.pc = .stopped) ∧
    (sig.tag ≠ .sigStop → ∀ s : State, s.pc = .handling sig →
      ∃ n s1 e, n ≤ 2 ∧ run s (List.replicate n .step) = some (s1, e) ∧ s1.pc = .top ∧
        handleSignal s.c.pause s.c.wait s.c s.l sig = .ok (s1.c, s1.l)) := by
  refine ⟨?_, ?_, fun ht s hpc => handling_run s sig hpc ht⟩
  · intro ht
    refine ⟨_, _, handleSignal_ok p w c l sig ht, rfl, rfl, rfl, rfl, rfl, ?_, ?_⟩
    · show target (sigOut c sig) l.batch = _
      cases sigOut c sig <;> cases l.batch <;> rfl
    · intro p1 w1
      exact ⟨_, _, handleSignal_ok p1 w1 c l sig ht, rfl⟩
  · intro ht
    refine ⟨handleSignal_stop p w c l sig ht, fun s rest => ?_⟩
    simp [received, ht]

theorem handleSignal_effect_witness :
    (updateOutputSignal (some demoGroup)).tag ≠ .sigStop ∧
    ∃ c1 l1, handleSignal true false
        { ctx := 0, pause := true, wait := false, sig := [], consumer := some 1, out := none }
        { consumer := some 1, out := none, batch := some (newBatch 0 [1] 5), paused := false }
        (updateOutputSignal (some demoGroup)) = .ok (c1, l1) ∧
      c1.out = some demoGroup ∧ l1.paused = true ∧ l1.out = some 7 :=
  ⟨by decide,
   by
    obtain ⟨c1, l1, h, h1, _, _, _, h5, h6, _⟩ :=
      (handleSignal_effect true false
        { ctx := 0, pause := true, wait := false, sig := [], consumer := some 1, out := none }
        { consumer := some 1, out := none, batch := some (newBatch 0 [1] 5), paused := false }
        (updateOutputSignal (some demoGroup))).1 (by decide)
    refine ⟨c1, l1, h, ?_, h5, ?_⟩
    · simpa [updateOutputSignal] using h1
    · rw [h6, h1]
      rfl⟩

theorem before_append (g : Event → Bool) (tr e : List Event) :
    before g (tr ++ e) =
      if ∀ ev ∈ tr, g ev = false then tr ++ before g e else before g tr := by
  unfold before
  induction tr with
  | nil => simp
  | cons a tr ih =>
    cases ha : g a
    · simp only [List.cons_append, List.takeWhile_cons, ha, Bool.not_false, if_true,
        List.mem_cons, forall_eq_or_imp, true_and, ih]
      split <;> rfl
    · simp [List.takeWhile_cons, ha]

theorem gated_step {g quiet : Event → Bool} {Q : State → Prop}
    (hloc : ∀ s a s1 e, Step s a s1 e → Q s →
      (∀ ev ∈ e, quiet ev = true) ∧ ((∀ ev ∈ e, g ev = false) → Q s1))
    (s : State) (tr : List Event) (a : Action) (s1 : State) (e : List Event)
    (h : Gated g quiet Q s tr) (hs : Step s a s1 e) : Gated g quiet Q s1 (tr ++ e) := by
  obtain ⟨h1, h2⟩ := h
  unfold Gated
  rw [before_append]
  by_cases hall : ∀ ev ∈ tr, g ev = false
  · obtain ⟨k1, k2⟩ := hloc s a s1 e hs (h2 hall)
    have h1a : ∀ ev ∈ tr, quiet ev = true := by
      have hb : before g tr = tr :=
        List.takeWhile_eq_self_iff.2 (fun ev hev => by simp [hall ev hev])
      rw [hb] at h1
      exact h1
    rw [if_pos hall]
    refine ⟨fun ev hev => ?_, fun h3 => k2 (fun ev hev => h3 ev (List.mem_append_right tr hev))⟩
    rcases List.mem_append.1 hev with hm | hm
    · exact h1a ev hm
    · exact k1 ev (List.takeWhile_subset _ hm)
  · rw [if_neg hall]
    refine ⟨h1, fun h3 => absurd (fun ev hev => h3 ev (List.mem_append_left e hev)) hall⟩

theorem gated_run {g quiet : Event → Bool} {Q : State → Prop}
    (hloc : ∀ s a s1 e, Step s a s1 e → Q s →
      (∀ ev ∈ e, quiet ev = true) ∧ ((∀ ev ∈ e, g ev = false) → Q s1))
    (s : State) (hQ : Q s) (acts : List Action) (s2 : State) (e2 : List Event)
    (hrun : run s acts = some (s2, e2)) : ∀ ev ∈ before g e2, quiet ev = true := by
  have := run_invariant (gated_step hloc) acts s [] s2 e2
    ⟨by simp [before], fun _ => hQ⟩ hrun
  simpa using this.1

theorem stall_local (s : State) (a : Action) (s1 : State) (e : List Event)
    (hs : Step s a s1 e) (hc : s.l.consumer = none) :
    (∀ ev ∈ e, (!ev.isGet) = true) ∧
    ((∀ ev ∈ e, ev.isInput = false) → s1.l.consumer = none) := by
  cases hs with
  | getErr g h0 hpc hc1 hg hh => simp_all
  | getOk g h0 qb hpc hc1 hg hh => simp_all
  | fetchDone p w h => simp [finishFetch, hc]
  | sigDone sig p w h ht =>
    by_cases hu : sig.tag = .sigConsumerUpdateInput
    · simp [Event.isGet, Event.isInput, hu]
    · simp [Event.isGet, Event.isInput, hu, sigConsumer, hc]
  | hintSent h hroom => simp [Event.isGet, Event.isInput, hc]
  | _ => simp [Event.isGet, Event.isInput, hc]

/-- C5: when the worker attempts a fetch and `Get` returns an error, the worker
is left with a nil consumer, a nil delivery target and no pending batch, and in
every continuation, whatever the other goroutines do, none of the events that
precede the first handled `sigConsumerUpdateInput` signal is a call of `Get`:
handling check signals or output updates does not bring fetching back. -/
theorem fetch_error_stalls (s s1 : State) (e : List Event)
    (hx : exec s (.getReturns .err) = some (s1, e)) :
    s1.l.consumer = none ∧ s1.l.out = none ∧ s1.l.batch = none ∧
    ∀ acts s2 e2, run s1 acts = some (s2, e2) → ∀ ev ∈ beforeInput e2, ev.isGet = false := by
  have hs := exec_step hx
  have h3 : s1.l.consumer = none ∧ s1.l.out = none ∧ s1.l.batch = none := by
    cases hs with
    | getErr g h0 hpc hc hg hh =>
      simp only [fetchCond, Bool.and_eq_true, Option.isNone_iff_eq_none] at hc
      exact ⟨rfl, rfl, hc.2⟩
    | recvStop _ sig rest h hq ht => simp at h
    | recvSig _ sig rest h hq ht => simp at h
  refine ⟨h3.1, h3.2.1, h3.2.2, fun acts s2 e2 hrun ev hev => ?_⟩
  simpa using gated_run stall_local s1 h3.1 acts s2 e2 hrun ev hev

theorem fetch_error_stalls_witness :
    exec fetchPoint (.getReturns .err) = some (afterError, [.get 1 10 .err]) ∧
    afterError.l.consumer = none ∧
    ∀ acts s2 e2, run afterError acts = some (s2, e2) →
      ∀ ev ∈ beforeInput e2, ev.isGet = false :=
  ⟨by decide,
   (fetch_error_stalls fetchPoint afterError [.get 1 10 .err] (by decide)).1,
   (fetch_error_stalls fetchPoint afterError [.get 1 10 .err] (by decide)).2.2.2⟩

/-- C6, the code at the failing input: the worker holds a pending batch, the
pause flag is stored and hinted, the worker handles the hint and computes
`paused` true, and at the next second `select` the send on the work queue goes
through although the pause flag is still set. -/
theorem paused_worker_sends_pending_batch :
    (run (newEventConsumer 0 (some 1)) pausedSendActs).map
        (fun r => (r.1.c.pause, r.1.c.wait, r.2.drop 9)) =
      some (true, false,
        [.handled checkSignal true, .drained, .send 7 (some (newBatch 0 [1, 2] 5))]) := by
  decide

theorem lastWorker_append (tr e : List Event) :
    lastWorker (tr ++ e) =
      if e.filter Event.isWorker = [] then lastWorker tr
      else (e.filter Event.isWorker).getLast? := by
  unfold lastWorker
  rw [List.filter_append]
  split
  · next h => rw [h, List.append_nil]
  · next h => exact List.getLast?_append_of_ne_nil _ h

theorem sendsFollowDrain_append (tr e : List Event) (h : SendsFollowDrain tr)
    (he : e = [] ∨ ∃ ev, e = [ev] ∧ (ev.isSend = true → lastWorker tr = some .drained)) :
    SendsFollowDrain (tr ++ e) := by
  rcases he with rfl | ⟨ev, rfl, hev⟩
  · simpa using h
  · intro pre post q b heq
    rcases List.append_eq_append_iff.1 heq with ⟨a1, h1, h2⟩ | ⟨c1, h1, h2⟩
    · cases a1 with
      | nil =>
        simp only [List.nil_append, List.cons.injEq] at h2
        rw [h1, List.append_nil]
        exact hev (by rw [h2.1]; rfl)
      | cons x a2 =>
        simp only [List.cons_append, List.cons.injEq] at h2
        exact absurd h2.2 (by simp)
    · cases c1 with
      | nil =>
        simp only [List.nil_append, List.cons.injEq] at h2
        rw [List.append_nil] at h1
        rw [← h1]
        exact hev (by rw [← h2.1]; rfl)
      | cons x c2 =>
        simp only [List.cons_append, List.cons.injEq] at h2
        rw [← h2.1] at h1
        exact h pre c2 q b h1

theorem drainedFirst_step (s : State) (tr : List Event) (a : Action) (s1 : State)
    (e : List Event) (h : DrainedFirst s tr) (hs : Step s a s1 e) :
    DrainedFirst s1 (tr ++ e) := by
  obtain ⟨h1, h2⟩ := h
  unfold DrainedFirst
  rw [lastWorker_append]
  cases hs with
  | accept q hpc ho =>
    exact ⟨by simp, sendsFollowDrain_append tr _ h2 (Or.inr ⟨_, rfl, fun _ => h1 hpc⟩)⟩
  | hintSent h hroom =>
    exact ⟨by simpa [Event.isWorker] using h1,
      sendsFollowDrain_append tr _ h2 (Or.inr ⟨_, rfl, by simp [Event.isSend]⟩)⟩
  | fetchDone p w h =>
    exact ⟨by simp [finishFetch], sendsFollowDrain_append tr _ h2 (Or.inl rfl)⟩
  | recvStop _ sig rest h hq ht =>
    exact ⟨by simp, sendsFollowDrain_append tr _ h2 (Or.inr ⟨_, rfl, by simp [Event.isSend]⟩)⟩
  | recvSig _ sig rest h hq ht =>
    exact ⟨by simp, sendsFollowDrain_append tr _ h2 (Or.inl rfl)⟩
  | _ =>
    first
    | exact ⟨by simp_all [Event.isWorker],
        sendsFollowDrain_append tr _ h2 (Or.inr ⟨_, rfl, by simp [Event.isSend]⟩)⟩
    | exact ⟨by simp_all [Event.isWorker], sendsFollowDrain_append tr _ h2 (Or.inl rfl)⟩

/-- C7: when the worker reaches its first `select` and the channel holds a
signal, its step receives the head signal, leaves the variables of the loop
alone, sends nothing, and enters `handleSignal` (or returns, on `sigStop`);
from inside `handleSignal` its steps lead back to the loop head without a send;
a send is a step of the second `select` only; and in every run from
`newEventConsumer` the worker stands at the second `select` only when the last
thing it did was to find the channel empty at the first `select`, so that every
send follows such a finding directly. -/
theorem signals_before_send :
    (∀ s s1 e sig rest, exec s .step = some (s1, e) → s.pc = .drain → s.c.sig = sig :: rest →
      s1.c.sig = rest ∧ s1.l = s.l ∧ (∀ ev ∈ e, ev.isSend = false) ∧
      ((sig.tag ≠ .sigStop ∧ s1.pc = .handling sig) ∨
       (sig.tag = .sigStop ∧ s1.pc = .stopped))) ∧
    (∀ s s1 e sig, exec s .step = some (s1, e) →
      s.pc = .handling sig ∨ s.pc = .handlingWait sig →
      (∀ ev ∈ e, ev.isSend = false) ∧
      (s1.pc = .handlingWait sig ∨ s1.pc = .top ∨ s1.pc = .stopped)) ∧
    (∀ s a s1 e ev, exec s a = some (s1, e) → ev ∈ e → ev.isSend = true →
      s.pc = .block ∧ a = .accept) ∧
    (∀ s a s1 e, exec s a = some (s1, e) → s1.pc = .block → s.pc ≠ .block →
      s.pc = .drain ∧ s.c.sig = [] ∧ a = .step) ∧
    (∀ ctx h acts s tr, run (newEventConsumer ctx h) acts = some (s, tr) →
      (s.pc = .block → lastWorker tr = some .drained) ∧ SendsFollowDrain tr) := by
  refine ⟨?_, ?_, ?_, ?_, ?_⟩
  · intro s s1 e sig rest hx hpc hq
    have hs := exec_step hx
    cases hs with
    | recvStop _ sig1 rest1 h hq1 ht =>
      rw [hq] at hq1
      simp only [List.cons.injEq] at hq1
      obtain ⟨rfl, rfl⟩ := hq1
      exact ⟨rfl, rfl, by simp [Event.isSend], Or.inr ⟨ht, rfl⟩⟩
    | recvSig _ sig1 rest1 h hq1 ht =>
      rw [hq] at hq1
      simp only [List.cons.injEq] at hq1
      obtain ⟨rfl, rfl⟩ := hq1
      exact ⟨rfl, rfl, by simp, Or.inl ⟨ht, rfl⟩⟩
    | drainEmpty hpc1 hq1 => simp [hq] at hq1
    | fetchDone p w h => simp [hpc] at h
    | sigDone sig1 p w h ht => simp [hpc] at h
    | sigStray sig1 h ht => simp [hpc] at h
    | topSkip hpc1 hc => simp [hpc] at hpc1
    | fetchLoad hpc1 hp => simp [hpc] at hpc1
    | sigLoad sig1 hpc1 hp => simp [hpc] at hpc1
  · intro s s1 e sig hx hpc
    have hs := exec_step hx
    cases hs with
    | recvStop _ sig1 rest1 h hq1 ht => rcases hpc with hpc | hpc <;> simp [hpc] at h
    | recvSig _ sig1 rest1 h hq1 ht => rcases hpc with hpc | hpc <;> simp [hpc] at h
    | drainEmpty hpc1 hq1 => rcases hpc with hpc | hpc <;> simp [hpc] at hpc1
    | fetchDone p w h => rcases hpc with hpc | hpc <;> simp [hpc] at h
    | sigDone sig1 p w h ht => exact ⟨by simp [Event.isSend], Or.inr (Or.inl rfl)⟩
    | sigStray sig1 h ht => exact ⟨by simp [Event.isSend], Or.inr (Or.inr rfl)⟩
    | topSkip hpc1 hc => rcases hpc with hpc | hpc <;> simp [hpc] at hpc1
    | fetchLoad hpc1 hp => rcases hpc with hpc | hpc <;> simp [hpc] at hpc1
    | sigLoad sig1 hpc1 hp =>
      rcases hpc with hpc | hpc
      · rw [hpc] at hpc1
        simp only [PC.handling.injEq] at hpc1
        exact ⟨by simp, Or.inl (by rw [hpc1])⟩
      · simp [hpc] at hpc1
  · intro s a s1 e ev hx hm hsend
    have hs := exec_step hx
    cases hs with
    | accept q hpc ho => exact ⟨hpc, rfl⟩
    | fetchDone p w h => simp at hm
    | recvSig _ sig rest h hq ht => simp at hm
    | _ => simp_all [Event.isSend]
  · intro s a s1 e hx hb hnb
    have hs := exec_step hx
    cases hs with
    | drainEmpty hpc hq => exact ⟨hpc, hq, rfl⟩
    | fetchDone p w h => simp [finishFetch] at hb
    | _ => first | exact absurd hb hnb | simp at hb
  · intro ctx h acts s tr hrun
    have := run_invariant drainedFirst_step acts _ [] s tr
      ⟨by simp [newEventConsumer], by
        intro pre post q b heq
        simp at heq⟩ hrun
    simpa using this

theorem signals_before_send_witness :
    run (newEventConsumer 0 (some 1)) demoActs = some (demoEnd.1, demoEnd.2) ∧
    demoEnd.2 = demoEnd.2.dropLast ++ [Event.send 7 (some (newBatch 0 [1, 2] 5))] ∧
    lastWorker demoEnd.2.dropLast = some .drained :=
  ⟨demo_run, by decide,
   (signals_before_send.2.2.2.2 0 (some 1) demoActs demoEnd.1 demoEnd.2 demo_run).2
     demoEnd.2.dropLast [] 7 (some (newBatch 0 [1, 2] 5)) (by decide)⟩

theorem unassigned_local (s : State) (a : Action) (s1 : State) (e : List Event)
    (hs : Step s a s1 e) (hq : Unassigned s) :
    (∀ ev ∈ e, ev.isQuiet = true) ∧
    ((∀ ev ∈ e, ev.isOutputAssigned = false) → Unassigned s1) := by
  obtain ⟨h1, h2, h3⟩ := hq
  cases hs with
  | getErr g h0 hpc hc1 hg hh => simp_all
  | getOk g h0 qb hpc hc1 hg hh => simp_all
  | fetchDone p w h => simp [finishFetch, Unassigned, h1, h2, h3]
  | sigDone sig p w h ht =>
    refine ⟨by simp [Event.isQuiet, Event.isGet, Event.isSend], fun hg => ?_⟩
    have hg1 := hg _ (List.mem_singleton.2 rfl)
    simp only [Event.isOutputAssigned, ne_eq, Bool.decide_and, Bool.and_eq_false_imp,
      decide_eq_true_eq, decide_eq_false_iff_not, Decidable.not_not] at hg1
    have ho : sigOut s.c sig = none := by
      unfold sigOut
      split
      · next hu => exact hg1 hu
      · exact h1
    refine ⟨ho, ?_, h3⟩
    show target (sigOut s.c sig) s.l.batch = none
    rw [ho]
    rfl
  | accept q hpc ho => simp [h2] at ho
  | hintSent h hroom =>
    simp [Unassigned, Event.isQuiet, Event.isGet, Event.isSend, h1, h2, h3]
  | _ => simp [Unassigned, Event.isQuiet, Event.isGet, Event.isSend, h1, h2, h3]

theorem heldBack_local (s : State) (a : Action) (s1 : State) (e : List Event)
    (hs : Step s a s1 e) (hq : HeldBack s) :
    (∀ ev ∈ e, ev.isQuiet = true) ∧
    ((∀ ev ∈ e, ev.isClear = false) → HeldBack s1) := by
  obtain ⟨h1, h2, h3, h4, h5⟩ := hq
  cases hs with
  | getErr g h0 hpc hc1 hg hh => simp [fetchCond, h1] at hc1
  | getOk g h0 qb hpc hc1 hg hh => simp [fetchCond, h1] at hc1
  | fetchDone p w h => rcases h with h | h <;> simp_all
  | fetchLoad hpc hp => exact absurd hpc h4
  | sigDone sig p w h ht =>
    refine ⟨by simp [Event.isQuiet, Event.isGet, Event.isSend], fun hg => ?_⟩
    have hg1 := hg _ (List.mem_singleton.2 rfl)
    have hg2 : (p || w) = true := by
      simp only [Event.isClear] at hg1
      cases hpw : (p || w)
      · rw [hpw] at hg1
        exact absurd hg1 (by decide)
      · rfl
    refine ⟨hg2, ?_, h3, by simp, by simp⟩
    show target (sigOut s.c sig) s.l.batch = none
    rw [h3]
    cases sigOut s.c sig <;> rfl
  | accept q hpc ho => simp [h2] at ho
  | hintSent h hroom =>
    simp [HeldBack, Event.isQuiet, Event.isGet, Event.isSend, h1, h2, h3, h4, h5]
  | recvStop _ sig rest h hq ht =>
    simp [HeldBack, Event.isQuiet, Event.isGet, Event.isSend, h1, h2, h3]
  | recvSig _ sig rest h hq ht =>
    simp [HeldBack, Event.isQuiet, Event.isGet, Event.isSend, h1, h2, h3]
  | sigLoad sig hpc hp =>
    simp [HeldBack, Event.isQuiet, Event.isGet, Event.isSend, h1, h2, h3]
  | sigStray sig h ht =>
    simp [HeldBack, Event.isQuiet, Event.isGet, Event.isSend, h1, h2, h3]
  | topSkip hpc hc =>
    simp [HeldBack, Event.isQuiet, Event.isGet, Event.isSend, h1, h2, h3]
  | drainEmpty hpc hq1 =>
    simp [HeldBack, Event.isQuiet, Event.isGet, Event.isSend, h1, h2, h3]
  | _ => simp [HeldBack, Event.isQuiet, Event.isGet, Event.isSend, h1, h2, h3, h4, h5]

/-- C8: the state that `newEventConsumer` creates has the pause flag set, the
wait flag clear, no output group, and a worker whose `paused` is true; and in
every run from that state no event is a call of `Get` or a send on an output
work queue before the worker has handled a `sigConsumerUpdateOutput` signal
with a non-nil output group, nor before the worker has handled a signal for
which it loaded both flags as false. -/
theorem starts_paused (ctx : Nat) (h : Option Handle) :
    (newEventConsumer ctx h).c.pause = true ∧ (newEventConsumer ctx h).c.wait = false ∧
    (newEventConsumer ctx h).c.out = none ∧ (newEventConsumer ctx h).l.paused = true ∧
    ∀ acts s tr, run (newEventConsumer ctx h) acts = some (s, tr) →
      (∀ ev ∈ before Event.isOutputAssigned tr, ev.isGet = false ∧ ev.isSend = false) ∧
      (∀ ev ∈ before Event.isClear tr, ev.isGet = false ∧ ev.isSend = false) := by
  refine ⟨rfl, rfl, rfl, rfl, fun acts s tr hrun => ⟨fun ev hev => ?_, fun ev hev => ?_⟩⟩
  · have := gated_run unassigned_local _ ⟨rfl, rfl, rfl⟩ acts s tr hrun ev hev
    simpa [Event.isQuiet] using this
  · have := gated_run heldBack_local _
      ⟨rfl, rfl, rfl, by simp [newEventConsumer], by simp [newEventConsumer]⟩
      acts s tr hrun ev hev
    simpa [Event.isQuiet] using this

theorem starts_paused_witness :
    run (newEventConsumer 0 (some 1)) demoActs = some (demoEnd.1, demoEnd.2) ∧
    (before Event.isOutputAssigned demoEnd.2).length = 3 ∧
    (before Event.isClear demoEnd.2).length = 3 ∧
    (demoEnd.2.filter Event.isGet).length = 1 ∧
    ∀ ev ∈ before Event.isClear demoEnd.2, ev.isGet = false ∧ ev.isSend = false :=
  ⟨demo_run, by decide, by decide, by decide,
   ((starts_paused 0 (some 1)).2.2.2.2 demoActs demoEnd.1 demoEnd.2 demo_run).2⟩

theorem runP_invariant {P : State → List Event → Prop}
    (hP : ∀ s tr a s1 e, P s tr → admissible s a = true → Step s a s1 e → P s1 (tr ++ e)) :
    ∀ (acts : List Action) (s : State) (tr : List Event) (s2 : State) (e2 : List Event),
      P s tr → runP s acts = some (s2, e2) → P s2 (tr ++ e2) := by
  intro acts
  induction acts with
  | nil =>
    intro s tr s2 e2 h hr
    simp only [runP, Option.some.injEq, Prod.mk.injEq] at hr
    obtain ⟨rfl, rfl⟩ := hr
    simpa using h
  | cons a as ih =>
    intro s tr s2 e2 h hr
    simp only [runP] at hr
    split at hr
    · next hadm =>
      split at hr
      · exact absurd hr (by simp)
      · next s1 e1 hx =>
        split at hr
        · exact absurd hr (by simp)
        · next s3 e3 hr3 =>
          simp only [Option.some.injEq, Prod.mk.injEq] at hr
          obtain ⟨rfl, rfl⟩ := hr
          have h1 := hP s tr a s1 e1 h hadm (exec_step hx)
          have h2 := ih s1 (tr ++ e1) s3 e3 h1 hr3
          simpa [List.append_assoc] using h2
    · exact absurd hr (by simp)

theorem runP_run : ∀ (acts : List Action) (s s2 : State) (e2 : List Event),
    runP s acts = some (s2, e2) → run s acts = some (s2, e2) := by
  intro acts
  induction acts with
  | nil => intro s s2 e2 h; simpa [runP, run] using h
  | cons a as ih =>
    intro s s2 e2 h
    simp only [runP] at h
    split at h
    · split at h
      · exact absurd h (by simp)
      · next s1 e1 hx =>
        split at h
        · exact absurd h (by simp)
        · next s3 e3 hr3 =>
          simp only [run, hx, ih s1 s3 e3 hr3]
          exact h
    · exact absurd h (by simp)

theorem fifo_step (s : State) (tr : List Event) (a : Action) (s1 : State)
    (e : List Event) (h : Fifo s tr) (hs : Step s a s1 e) : Fifo s1 (tr ++ e) := by
  unfold Fifo processed postedSigs inbox at *
  rw [List.filterMap_append, List.filterMap_append, ← h]
  cases hs with
  | recvStop _ sig rest h1 hq ht =>
    rcases h1 with ⟨hpc, _⟩ | ⟨hpc, _⟩ <;>
      simp [inflight, hpc, hq, Event.processedSig, Event.postedSig]
  | recvSig _ sig rest h1 hq ht =>
    rcases h1 with ⟨hpc, _⟩ | ⟨hpc, _⟩ <;>
      simp [inflight, hpc, hq, Event.processedSig, Event.postedSig]
  | sigDone sig p w h1 ht =>
    rcases h1 with ⟨hpc, _⟩ | ⟨hpc, _⟩ <;>
      simp [inflight, hpc, Event.processedSig, Event.postedSig]
  | sigStray sig h1 ht =>
    rcases h1 with hpc | hpc <;>
      simp [inflight, hpc, Event.processedSig, Event.postedSig]
  | fetchDone p w h1 =>
    rcases h1 with ⟨hpc, _⟩ | ⟨hpc, _⟩ <;>
      simp [inflight, hpc, finishFetch, Event.processedSig, Event.postedSig]
  | hintSent h1 hroom => simp [Event.processedSig, Event.postedSig]
  | post sig hroom => simp [Event.processedSig, Event.postedSig]
  | ctlPost x sig next h1 hroom => simp [Event.processedSig, Event.postedSig]
  | topSkip hpc hc => simp [inflight, hpc, Event.processedSig, Event.postedSig]
  | getOk g h0 qb hpc hc hg hh => simp [inflight, hpc, Event.processedSig, Event.postedSig]
  | fetchLoad hpc hp => simp [inflight, hpc, Event.processedSig, Event.postedSig]
  | drainEmpty hpc hq => simp [inflight, hpc, hq, Event.processedSig, Event.postedSig]
  | sigLoad sig hpc hp => simp [inflight, hpc, Event.processedSig, Event.postedSig]
  | accept q hpc ho => simp [inflight, hpc, Event.processedSig, Event.postedSig]
  | _ => simp [Event.processedSig, Event.postedSig]

theorem balance_append (b : Bool) (q1 q2 : List consumerSignal) :
    balance b (q1 ++ q2) = (balance b q1).bind (fun b1 => balance b1 q2) := by
  induction q1 generalizing b with
  | nil => rfl
  | cons sig rest ih =>
    simp only [List.cons_append, balance]
    split
    · split
      · rfl
      · exact ih true
    · split
      · exact ih false
      · rfl
    · exact ih b

theorem balanced_step (s : State) (tr : List Event) (a : Action) (s1 : State)
    (e : List Event) (h : Balanced s tr) (hadm : admissible s a = true)
    (hs : Step s a s1 e) : Balanced s1 (tr ++ e) := by
  unfold Balanced postedSigs at *
  rw [List.filterMap_append, balance_append, h]
  cases hs with
  | post sig hroom => simp [admissible] at hadm
  | ctlPost x sig next h1 hroom =>
    rcases h1 with ⟨hc, hsig, rfl⟩ | ⟨hc, hsig, rfl⟩ | ⟨hc, hsig, rfl⟩
    · rw [hsig]
      simp [hc, Ctl.betweenSends, Event.postedSig, balance, updateOutputSignal]
    · rw [hsig]
      simp [hc, Ctl.betweenSends, Event.postedSig, balance, updateInputSignal]
    · rw [hsig]
      simp [hc, Ctl.betweenSends, Event.postedSig, balance, stopSignal]
  | hintSent h1 hroom => simp [Event.postedSig, balance, checkSignal]
  | fetchDone p w h1 => simp [finishFetch, Event.postedSig, balance]
  | updOutput grp h0 hc hh => simp [hc, Ctl.betweenSends, Event.postedSig, balance]
  | close h0 hc hh => simp [hc, Ctl.betweenSends, Event.postedSig, balance]
  | acquire x hc => simp [hc, Ctl.betweenSends, Event.postedSig, balance]
  | ctlReturn x hc hpc => simp [hc, Ctl.betweenSends, Event.postedSig, balance]
  | _ => simp [Event.postedSig, balance]

theorem closedLogged_step (s : State) (tr : List Event) (a : Action) (s1 : State)
    (e : List Event) (h : ClosedLogged s tr) (hs : Step s a s1 e) :
    ClosedLogged s1 (tr ++ e) := by
  unfold ClosedLogged at *
  cases hs with
  | updOutput grp h0 hc hh =>
    intro h1 hm
    rcases List.mem_cons.1 hm with rfl | hm
    · simp
    · exact List.mem_append_left _ (h h1 hm)
  | close h0 hc hh =>
    intro h1 hm
    rcases List.mem_cons.1 hm with rfl | hm
    · simp
    · exact List.mem_append_left _ (h h1 hm)
  | fetchDone p w h1 => simpa [finishFetch] using h
  | _ => exact fun h1 hm => List.mem_append_left _ (h h1 hm)

theorem okChain_of_all (closed : List Handle) (idle : Prop) (cur : Option Handle)
    (q : List (Option Handle)) (h : ∀ x ∈ q, closedOrNil closed x) :
    okChain closed idle cur q := by
  induction q with
  | nil => trivial
  | cons x rest ih =>
    cases rest with
    | nil => exact Or.inl (h x (by simp))
    | cons y rest =>
      exact ⟨h x (by simp), ih (fun z hz => h z (List.mem_cons_of_mem _ hz))⟩

theorem okChain_all (closed : List Handle) (idle : Prop) (cur : Option Handle)
    (q : List (Option Handle)) (hn : ¬ idle) (h : okChain closed idle cur q) :
    ∀ x ∈ q, closedOrNil closed x := by
  induction q with
  | nil => simp
  | cons x rest ih =>
    cases rest with
    | nil =>
      intro z hz
      rw [List.mem_singleton.1 hz]
      exact h.elim id (fun h1 => absurd h1.1 hn)
    | cons y rest =>
      intro z hz
      rcases List.mem_cons.1 hz with rfl | hz
      · exact h.1
      · exact ih h.2 z hz

theorem okChain_tail (closed : List Handle) (idle : Prop) (cur x y : Option Handle)
    (q : List (Option Handle)) (h : okChain closed idle cur (x :: y :: q)) :
    okChain closed idle cur (y :: q) := h.2

theorem okChain_head (closed : List Handle) (idle : Prop) (cur x : Option Handle)
    (q : List (Option Handle)) (h : okChain closed idle cur (x :: q)) :
    okChain closed idle cur (none :: q) := by
  cases q with
  | nil => exact Or.inl (fun h0 hh => absurd hh (by simp))
  | cons y rest => exact ⟨fun h0 hh => absurd hh (by simp), h.2⟩

theorem okChain_snoc (closed : List Handle) (idle : Prop) (cur x : Option Handle)
    (q : List (Option Handle)) (h : ∀ z ∈ x :: q, closedOrNil closed z) (hi : idle) :
    okChain closed idle cur ((x :: q) ++ [cur]) := by
  induction q generalizing x with
  | nil => exact ⟨h x (by simp), Or.inr ⟨hi, rfl⟩⟩
  | cons y rest ih =>
    exact ⟨h x (by simp), ih y (fun z hz => h z (List.mem_cons_of_mem _ hz))⟩

theorem okChain_close (closed : List Handle) (idle idle1 : Prop) (h0 : Handle)
    (cur1 : Option Handle) (q : List (Option Handle))
    (h : okChain closed idle (some h0) q) : okChain (h0 :: closed) idle1 cur1 q := by
  apply okChain_of_all
  induction q with
  | nil => simp
  | cons x rest ih =>
    cases rest with
    | nil =>
      intro z hz
      rw [List.mem_singleton.1 hz]
      rcases h with h | ⟨_, rfl⟩
      · exact fun h1 hh => List.mem_cons_of_mem _ (h h1 hh)
      · intro h1 hh
        simp only [Option.some.injEq] at hh
        rw [hh]
        exact List.mem_cons_self _ _
    | cons y rest =>
      intro z hz
      rcases List.mem_cons.1 hz with rfl | hz
      · exact fun h1 hh => List.mem_cons_of_mem _ (h.1 h1 hh)
      · exact ih h.2 z hz

theorem inputs_cons (sig : consumerSignal) (q : List consumerSignal) :
    inputs (sig :: q) =
      if sig.tag = .sigConsumerUpdateInput then sig.consumer :: inputs q else inputs q := by
  unfold inputs
  by_cases h : sig.tag = .sigConsumerUpdateInput <;> simp [List.filter_cons, h]

theorem inputs_append (q1 q2 : List consumerSignal) :
    inputs (q1 ++ q2) = inputs q1 ++ inputs q2 := by
  simp [inputs]

theorem chainClosed_step (s : State) (a : Action) (s1 : State) (e : List Event)
    (h : ChainClosed s) (hadm : admissible s a = true) (hs : Step s a s1 e) :
    ChainClosed s1 := by
  unfold ChainClosed chain inbox at *
  cases hs with
  | topSkip hpc hc => simpa [inflight, hpc] using h
  | getErr g h0 hpc hc hg hh => exact okChain_head _ _ _ _ _ h
  | getOk g h0 qb hpc hc hg hh => simpa [inflight, hpc] using h
  | fetchLoad hpc hp => simpa [inflight, hpc] using h
  | fetchDone p w h1 =>
    rcases h1 with ⟨hpc, _⟩ | ⟨hpc, _⟩ <;> simpa [inflight, hpc, finishFetch] using h
  | drainEmpty hpc hq => simpa [inflight, hpc] using h
  | recvStop _ sig rest h1 hq ht =>
    rcases h1 with ⟨hpc, _⟩ | ⟨hpc, _⟩ <;>
      simpa [inflight, hpc, hq, inputs_cons, ht] using h
  | recvSig _ sig rest h1 hq ht =>
    rcases h1 with ⟨hpc, _⟩ | ⟨hpc, _⟩ <;>
      simpa [inflight, hpc, hq] using h
  | sigLoad sig hpc hp => simpa [inflight, hpc] using h
  | sigDone sig p w h1 ht =>
    have hpc : inflight s.pc = [sig] := by
      rcases h1 with ⟨hpc, _⟩ | ⟨hpc, _⟩ <;> simp [inflight, hpc]
    rw [hpc] at h
    simp only [List.singleton_append, inputs_cons] at h
    simp only [inflight, List.nil_append, sigConsumer]
    split
    · next hu =>
      rw [if_pos hu] at h
      exact okChain_tail _ _ _ _ _ _ h
    · next hu =>
      rw [if_neg hu] at h
      exact h
  | sigStray sig h1 ht =>
    have hpc : inflight s.pc = [sig] := by
      rcases h1 with hpc | hpc <;> simp [inflight, hpc]
    rw [hpc] at h
    simpa [inflight, inputs_cons, ht] using h
  | accept q hpc ho => simpa [inflight, hpc] using h
  | call f => simpa using h
  | hintSent h1 hroom =>
    simpa [← List.append_assoc, inputs_append, inputs_cons, checkSignal, inputs] using h
  | hintDropped h1 hfull => exact h
  | post sig hroom => simp [admissible] at hadm
  | updOutput grp h0 hc hh =>
    rw [hh] at h
    exact okChain_close _ _ _ _ _ _ h
  | close h0 hc hh =>
    rw [hh] at h
    exact okChain_close _ _ _ _ _ _ h
  | ctlPost x sig next h1 hroom =>
    rcases h1 with ⟨hc, hsig, rfl⟩ | ⟨hc, hsig, rfl⟩ | ⟨hc, hsig, rfl⟩
    · have hall := okChain_all _ _ _ _ (by simp [hc]) h
      apply okChain_of_all
      rw [hsig]
      simpa [← List.append_assoc, inputs_append, inputs_cons, updateOutputSignal, inputs]
        using hall
    · have hall := okChain_all _ _ _ _ (by simp [hc]) h
      have hin : inputs (inflight s.pc ++ (s.c.sig ++ [sig])) =
          inputs (inflight s.pc ++ s.c.sig) ++ [s.c.consumer] := by
        rw [hsig]
        simp [← List.append_assoc, inputs_append, inputs_cons, updateInputSignal, inputs]
      show okChain s.closed (Ctl.idle = Ctl.idle) s.c.consumer
        (s.l.consumer :: inputs (inflight s.pc ++ (s.c.sig ++ [sig])))
      rw [hin, ← List.cons_append]
      exact okChain_snoc _ _ _ _ _ hall rfl
    · have hall := okChain_all _ _ _ _ (by simp [hc]) h
      apply okChain_of_all
      rw [hsig]
      simpa [← List.append_assoc, inputs_append, inputs_cons, stopSignal, inputs]
        using hall
  | acquire x hc =>
    exact okChain_of_all _ _ _ _ (okChain_all _ _ _ _ (by simp [hc]) h)
  | ctlReturn x hc hpc =>
    exact okChain_of_all _ _ _ _ (okChain_all _ _ _ _ (by simp [hc]) h)

theorem each_append (φ : List Event → Event → Prop) (tr e : List Event)
    (h : Each φ tr) (hlen : e.length ≤ 1) (he : ∀ ev, e = [ev] → φ tr ev) :
    Each φ (tr ++ e) := by
  intro pre ev post heq
  rcases List.append_eq_append_iff.1 heq with ⟨a1, h1, h2⟩ | ⟨c1, h1, h2⟩
  · cases a1 with
    | nil =>
      simp only [List.nil_append] at h2
      rw [h2] at hlen
      cases post with
      | nil =>
        rw [h1, List.append_nil]
        exact he ev h2
      | cons y post => simp at hlen
    | cons y a2 =>
      rw [h2] at hlen
      simp at hlen
  · cases c1 with
    | nil =>
      simp only [List.nil_append] at h2
      rw [← h2] at hlen
      cases post with
      | nil =>
        rw [List.append_nil] at h1
        rw [← h1]
        exact he ev h2.symm
      | cons y post => simp at hlen
    | cons y c2 =>
      simp only [List.cons_append, List.cons.injEq] at h2
      rw [← h2.1] at h1
      exact h pre ev c2 h1

theorem step_events (s : State) (a : Action) (s1 : State) (e : List Event)
    (hs : Step s a s1 e) : e.length ≤ 1 := by
  cases hs <;> simp

theorem balance_no_input (q : List consumerSignal) (b : Bool) (hq : inputs q = [])
    (h : balance true q = some b) : b = true := by
  induction q with
  | nil => simpa [balance] using h.symm
  | cons sig rest ih =>
    rw [inputs_cons] at hq
    simp only [balance] at h
    split at h
    · simp at h
    · next hu => simp [hu] at hq
    · next h1 h2 =>
      have hq1 : inputs rest = [] := by
        split at hq
        · simp at hq
        · exact hq
      exact ih hq1 h

theorem window_consumer_closed (s : State) (tr : List Event) (hchain : ChainClosed s)
    (hfifo : Fifo s tr) (hbal : Balanced s tr)
    (hw : balance false (processed tr) = some true) :
    closedOrNil s.closed s.l.consumer := by
  unfold Balanced at hbal
  rw [← hfifo, balance_append, hw] at hbal
  simp only [Option.some_bind] at hbal
  unfold ChainClosed chain at hchain
  cases hb : s.ctl.betweenSends
  · rw [hb] at hbal
    cases hin : inputs (inbox s) with
    | nil => exact absurd (balance_no_input _ _ hin hbal) (by simp)
    | cons y rest =>
      rw [hin] at hchain
      exact hchain.1
  · have hidle : ¬ s.ctl = .idle := by
      intro hc
      rw [hc] at hb
      simp [Ctl.betweenSends] at hb
    exact okChain_all _ _ _ _ hidle hchain _ (List.mem_cons_self _ _)

theorem proto_step (s : State) (tr : List Event) (a : Action) (s1 : State)
    (e : List Event) (h : Proto s tr) (hadm : admissible s a = true)
    (hs : Step s a s1 e) : Proto s1 (tr ++ e) := by
  obtain ⟨h1, h2, h3, h4, h5⟩ := h
  refine ⟨chainClosed_step s a s1 e h1 hadm hs, fifo_step s tr a s1 e h2 hs,
    balanced_step s tr a s1 e h3 hadm hs, closedLogged_step s tr a s1 e h4 hs,
    each_append _ tr e h5 (step_events s a s1 e hs) ?_⟩
  intro ev hev h0 n r hget hw
  have hcl := window_consumer_closed s tr h1 h2 h3 hw
  rw [hev] at hs
  rw [hget] at hs
  cases hs with
  | getErr g hh hpc hc hg hk => exact ⟨rfl, h4 _ (hcl _ hk)⟩
  | getOk g hh qb hpc hc hg hk =>
    have := hcl _ hk
    simp [admissible, hk, this] at hadm

theorem proto_init (ctx : Nat) (h : Option Handle) : Proto (newEventConsumer ctx h) [] := by
  refine ⟨?_, rfl, rfl, ?_, ?_⟩
  · exact Or.inr ⟨rfl, rfl⟩
  · intro h0 hm
    simp [newEventConsumer] at hm
  · intro pre ev post heq
    simp at heq

theorem updOutput_sequence (s : State) (grp : Option outputGroup) (h0 : Handle)
    (x1 x2 x3 : Option Handle) (hc : s.ctl = .idle) (hh : s.c.consumer = some h0)
    (hroom : s.c.sig.length + 2 ≤ sigCap) :
    run s [.updOutput grp, .ctl x1, .ctl x2, .ctl x3] =
      some ({ s with
              c := { s.c with
                     sig := s.c.sig ++ [updateOutputSignal grp, updateInputSignal x2]
                     consumer := x2 }
              closed := h0 :: s.closed },
        [.closed h0, .posted (updateOutputSignal grp), .acquired x2,
         .posted (updateInputSignal x2)]) := by
  have h1 : s.c.sig.length < sigCap := by omega
  have h2 : s.c.sig.length + 1 < sigCap := by omega
  simp [run, exec, ctlStep, post, hc, hh, h1, h2]

theorem ctl_order (s : State) (a : Action) (s1 : State) (e : List Event)
    (hs : Step s a s1 e) (hne : s1.ctl ≠ s.ctl) :
    (∀ grp, s.ctl = .updPostOut grp →
      e = [.posted (updateOutputSignal grp)] ∧
      s1.c.sig = s.c.sig ++ [updateOutputSignal grp] ∧ s1.ctl = .updAcquire) ∧
    (s.ctl = .updAcquire →
      ∃ x, e = [.acquired x] ∧ s1.c.consumer = x ∧ s1.ctl = .updPostIn) ∧
    (s.ctl = .updPostIn →
      e = [.posted (updateInputSignal s.c.consumer)] ∧
      s1.c.sig = s.c.sig ++ [updateInputSignal s.c.consumer] ∧ s1.ctl = .idle) ∧
    (s.ctl = .idle →
      ∃ h0, s.c.consumer = some h0 ∧ e = [.closed h0] ∧ s1.closed = h0 :: s.closed ∧
        ((∃ grp, a = .updOutput grp ∧ s1.ctl = .updPostOut grp) ∨
         (a = .close ∧ s1.ctl = .closePostStop))) := by
  cases hs with
  | updOutput grp h0 hc hh =>
    refine ⟨fun g hg => ?_, fun hg => ?_, fun hg => ?_, fun _ => ?_⟩
    · simp [hc] at hg
    · simp [hc] at hg
    · simp [hc] at hg
    · exact ⟨h0, hh, rfl, rfl, Or.inl ⟨grp, rfl, rfl⟩⟩
  | close h0 hc hh =>
    refine ⟨fun g hg => ?_, fun hg => ?_, fun hg => ?_, fun _ => ?_⟩
    · simp [hc] at hg
    · simp [hc] at hg
    · simp [hc] at hg
    · exact ⟨h0, hh, rfl, rfl, Or.inr ⟨rfl, rfl⟩⟩
  | ctlPost x sig next h1 hroom =>
    rcases h1 with ⟨hc, hsig, rfl⟩ | ⟨hc, hsig, rfl⟩ | ⟨hc, hsig, rfl⟩
    · refine ⟨fun g hg => ?_, fun hg => ?_, fun hg => ?_, fun hg => ?_⟩
      · rw [hc] at hg
        simp only [Ctl.updPostOut.injEq] at hg
        rw [← hg, ← hsig]
        exact ⟨rfl, rfl, rfl⟩
      · simp [hc] at hg
      · simp [hc] at hg
      · simp [hc] at hg
    · refine ⟨fun g hg => ?_, fun hg => ?_, fun hg => ?_, fun hg => ?_⟩
      · simp [hc] at hg
      · simp [hc] at hg
      · rw [← hsig]
        exact ⟨rfl, rfl, rfl⟩
      · simp [hc] at hg
    · refine ⟨fun g hg => ?_, fun hg => ?_, fun hg => ?_, fun hg => ?_⟩ <;> simp [hc] at hg
  | acquire x hc =>
    refine ⟨fun g hg => ?_, fun hg => ?_, fun hg => ?_, fun hg => ?_⟩
    · simp [hc] at hg
    · exact ⟨x, rfl, rfl, rfl⟩
    · simp [hc] at hg
    · simp [hc] at hg
  | ctlReturn x hc hpc =>
    refine ⟨fun g hg => ?_, fun hg => ?_, fun hg => ?_, fun hg => ?_⟩ <;> simp [hc] at hg
  | fetchDone p w h1 => exact absurd rfl hne
  | _ => exact absurd rfl hne

theorem swap_run :
    runP (newEventConsumer 0 (some 1)) swapActs = some (swapEnd.1, swapEnd.2) := by
  decide

/-- C9: `updOutput(grp)` calls `Close` on `c.consumer`, sends the output update
with a blocking send, stores in `c.consumer` what `c.queue.Consumer()` returns,
and sends the input update carrying that value with a blocking send, in this
order: run alone it produces these four events in this order, and in any
interleaving the controller leaves each of its positions only by the next of
these statements.  In every run in which signals are sent by the methods of
this file and `Get` on a closed consumer returns an error, the signals handled
are an initial segment of the signals sent and alternate between output update
and input update, the output update first; and whenever an output update has
been handled and the input update that follows it has not, the consumer of the
worker is nil or closed, so that every call of `Get` made then targets a
consumer on which `Close` was called before and returns an error. -/
theorem updOutput_closes_before_swap :
    (∀ (s : State) (grp : Option outputGroup) (h0 : Handle) (x1 x2 x3 : Option Handle),
      s.ctl = .idle → s.c.consumer = some h0 → s.c.sig.length + 2 ≤ sigCap →
      run s [.updOutput grp, .ctl x1, .ctl x2, .ctl x3] =
        some ({ s with
                c := { s.c with
                       sig := s.c.sig ++ [updateOutputSignal grp, updateInputSignal x2]
                       consumer := x2 }
                closed := h0 :: s.closed },
          [.closed h0, .posted (updateOutputSignal grp), .acquired x2,
           .posted (updateInputSignal x2)])) ∧
    (∀ (s : State) (a : Action) (s1 : State) (e : List Event),
      exec s a = some (s1, e) → s1.ctl ≠ s.ctl →
      (∀ grp, s.ctl = .updPostOut grp →
        e = [.posted (updateOutputSignal grp)] ∧
        s1.c.sig = s.c.sig ++ [updateOutputSignal grp] ∧ s1.ctl = .updAcquire) ∧
      (s.ctl = .updAcquire →
        ∃ x, e = [.acquired x] ∧ s1.c.consumer = x ∧ s1.ctl = .updPostIn) ∧
      (s.ctl = .updPostIn →
        e = [.posted (updateInputSignal s.c.consumer)] ∧
        s1.c.sig = s.c.sig ++ [updateInputSignal s.c.consumer] ∧ s1.ctl = .idle) ∧
      (s.ctl = .idle →
        ∃ h0, s.c.consumer = some h0 ∧ e = [.closed h0] ∧ s1.closed = h0 :: s.closed ∧
          ((∃ grp, a = .updOutput grp ∧ s1.ctl = .updPostOut grp) ∨
           (a = .close ∧ s1.ctl = .closePostStop)))) ∧
    (∀ (ctx : Nat) (h : Option Handle) (acts : List Action) (s : State) (tr : List Event),
      runP (newEventConsumer ctx h) acts = some (s, tr) →
      processed tr <+: postedSigs tr ∧
      (∃ b, balance false (processed tr) = some b) ∧
      (balance false (processed tr) = some true → closedOrNil s.closed s.l.consumer) ∧
      (∀ pre post h1 n r, tr = pre ++ Event.get h1 n r :: post →
        balance false (processed pre) = some true → r = .err ∧ Event.closed h1 ∈ pre)) := by
  refine ⟨updOutput_sequence, fun s a s1 e hx hne => ctl_order s a s1 e (exec_step hx) hne,
    fun ctx h acts s tr hrun => ?_⟩
  have hp := runP_invariant proto_step acts _ [] s tr (proto_init ctx h) hrun
  simp only [List.nil_append] at hp
  obtain ⟨h1, h2, h3, h4, h5⟩ := hp
  refine ⟨⟨inbox s, h2⟩, ?_, fun hw => window_consumer_closed s tr h1 h2 h3 hw,
    fun pre post h1 n r heq hw => h5 pre _ post heq h1 n r rfl hw⟩
  have hb := h3
  unfold Balanced at hb
  rw [← h2, balance_append] at hb
  cases hbp : balance false (processed tr) with
  | none => rw [hbp] at hb; simp at hb
  | some b => exact ⟨b, rfl⟩

theorem updOutput_closes_before_swap_witness :
    runP (newEventConsumer 0 (some 1)) swapActs = some (swapEnd.1, swapEnd.2) ∧
    swapEnd.2 = swapEnd.2.take 6 ++ Event.get 1 10 .err :: swapEnd.2.drop 7 ∧
    balance false (processed (swapEnd.2.take 6)) = some true ∧
    (GetResult.err = .err ∧ Event.closed 1 ∈ swapEnd.2.take 6) :=
  ⟨swap_run, by decide, by decide,
   (updOutput_closes_before_swap.2.2 0 (some 1) swapActs swapEnd.1 swapEnd.2 swap_run).2.2.2
     (swapEnd.2.take 6) (swapEnd.2.drop 7) 1 10 .err (by decide) (by decide)⟩

theorem ahead_append (q : List consumerSignal) (x : consumerSignal)
    (h : ∃ sig ∈ q, sig.tag = .sigStop) : ahead (q ++ [x]) = ahead q := by
  unfold ahead
  induction q with
  | nil => simp at h
  | cons y rest ih =>
    simp only [List.cons_append, List.takeWhile_cons]
    by_cases hy : nonStop y = true
    · simp only [hy, if_true, List.length_cons]
      obtain ⟨sig, hm, ht⟩ := h
      rcases List.mem_cons.1 hm with rfl | hm
      · simp [nonStop, ht] at hy
      · rw [ih ⟨sig, hm, ht⟩]
    · simp [hy]

theorem upToStop_append (q : List consumerSignal) (x : consumerSignal)
    (h : ∃ sig ∈ q, sig.tag = .sigStop) : upToStop (q ++ [x]) = upToStop q := by
  unfold upToStop
  induction q with
  | nil => simp at h
  | cons y rest ih =>
    by_cases hy : nonStop y = true
    · obtain ⟨sig, hm, ht⟩ := h
      rcases List.mem_cons.1 hm with rfl | hm
      · simp [nonStop, ht] at hy
      · have := ih ⟨sig, hm, ht⟩
        simp only [List.cons_append, List.takeWhile_cons, List.dropWhile_cons, hy, if_true]
        rw [this]
    · simp [List.takeWhile_cons, List.dropWhile_cons, hy]

theorem upToStop_cons (y : consumerSignal) (q : List consumerSignal) :
    upToStop (y :: q) = if y.tag = .sigStop then [y] else y :: upToStop q := by
  unfold upToStop
  by_cases hy : y.tag = .sigStop
  · simp [List.takeWhile_cons, List.dropWhile_cons, nonStop, hy]
  · simp [List.takeWhile_cons, List.dropWhile_cons, nonStop, hy]

theorem ahead_cons (y : consumerSignal) (q : List consumerSignal) :
    ahead (y :: q) = if y.tag = .sigStop then 0 else ahead q + 1 := by
  unfold ahead
  by_cases hy : y.tag = .sigStop
  · simp [List.takeWhile_cons, nonStop, hy]
  · simp [List.takeWhile_cons, nonStop, hy]

theorem stopQueued_step (s : State) (a : Action) (s1 : State) (e : List Event)
    (h : StopQueued s) (hadm : admissible s a = true) (hs : Step s a s1 e) :
    StopQueued s1 := by
  unfold StopQueued at *
  cases hs with
  | topSkip hpc hc => simp_all
  | getErr g h0 hpc hc hg hh => simp_all
  | getOk g h0 qb hpc hc hg hh => simp_all
  | fetchLoad hpc hp => simp_all
  | fetchDone p w h1 => rcases h1 with ⟨hpc, _⟩ | ⟨hpc, _⟩ <;> simp_all [finishFetch]
  | drainEmpty hpc hq => simp_all
  | recvStop _ sig rest h1 hq ht => rcases h1 with ⟨hpc, _⟩ | ⟨hpc, _⟩ <;> simp_all
  | recvSig _ sig rest h1 hq ht => rcases h1 with ⟨hpc, _⟩ | ⟨hpc, _⟩ <;> simp_all
  | sigLoad sig hpc hp => simp_all
  | sigDone sig p w h1 ht => rcases h1 with ⟨hpc, _⟩ | ⟨hpc, _⟩ <;> simp_all
  | sigStray sig h1 ht => rcases h1 with hpc | hpc <;> simp_all
  | accept q hpc ho => simp_all
  | call f => simpa using h
  | hintSent h1 hroom =>
    rcases h with ⟨hc, hp | ⟨sig, hm, ht⟩⟩ | hr
    · exact Or.inl ⟨hc, Or.inl hp⟩
    · exact Or.inl ⟨hc, Or.inr ⟨sig, List.mem_append_left _ hm, ht⟩⟩
    · exact Or.inr hr
  | hintDropped h1 hfull => exact h
  | post sig hroom => simp [admissible] at hadm
  | updOutput grp h0 hc hh => simp [hc] at h
  | close h0 hc hh => simp [hc] at h
  | ctlPost x sig next h1 hroom =>
    rcases h1 with ⟨hc, _⟩ | ⟨hc, _⟩ | ⟨hc, _⟩ <;> simp [hc] at h
  | acquire x hc => simp [hc] at h
  | ctlReturn x hc hpc => exact Or.inr ⟨rfl, hpc⟩

theorem stopQueued_sig (s : State) (h : StopQueued s) (hpc : s.pc ≠ .stopped) :
    s.ctl = .closeWait ∧ ∃ sig ∈ s.c.sig, sig.tag = .sigStop := by
  rcases h with ⟨hc, hp | hs⟩ | ⟨_, hp⟩
  · exact absurd hp hpc
  · exact ⟨hc, hs⟩
  · exact absurd hp hpc

theorem cost_top_le (s : State) (hpc : s.pc = .top) : cost s ≤ 2 := by
  unfold cost
  rw [hpc]
  show (if fetchCond s.c s.l then 2 else 1) ≤ 2
  split <;> omega

theorem fuel_eq (s : State) (hpc : s.pc ≠ .stopped) :
    fuel s = cost s + 1 + 5 * ahead s.c.sig := by
  unfold fuel
  rw [if_neg hpc]

theorem fuel_worker_step (s : State) (a : Action) (s1 : State) (e : List Event)
    (hq : StopQueued s) (hch : ChainClosed s) (hadm : admissible s a = true)
    (hs : Step s a s1 e) (hw : a.isWorker = true) : fuel s1 < fuel s := by
  cases hs with
  | topSkip hpc hc =>
    rw [fuel_eq s (by simp [hpc]), fuel_eq _ (by simp)]
    simp [cost, hpc, hc]
  | getErr g h0 hpc hc hg hh =>
    have h1 : fetchCond s.c { s.l with out := none, consumer := none } = false := by
      simp [fetchCond]
    rw [fuel_eq s (by simp [hpc]), fuel_eq _ (by simp [hpc])]
    simp [cost, hpc, hc, h1]
  | getOk g h0 qb hpc hc hg hh =>
    obtain ⟨hctl, _⟩ := stopQueued_sig s hq (by simp [hpc])
    have hcl := okChain_all _ _ _ _ (by simp [hctl]) hch _ (List.mem_cons_self _ _) h0 hh
    simp [admissible, hh, hcl] at hadm
  | fetchLoad hpc hp =>
    rw [fuel_eq s (by simp [hpc]), fuel_eq _ (by simp)]
    simp [cost, hpc]
  | fetchDone p w h1 =>
    rcases h1 with ⟨hpc, _⟩ | ⟨hpc, _⟩ <;>
    · rw [fuel_eq s (by simp [hpc]), fuel_eq _ (by simp [finishFetch])]
      simp [cost, hpc, finishFetch]
  | drainEmpty hpc hq1 =>
    obtain ⟨_, sig, hm, _⟩ := stopQueued_sig s hq (by simp [hpc])
    simp [hq1] at hm
  | recvStop _ sig rest h1 hq1 ht =>
    have hpc : s.pc ≠ .stopped := by rcases h1 with ⟨hpc, _⟩ | ⟨hpc, _⟩ <;> simp [hpc]
    rw [fuel_eq s hpc]
    simp [fuel]
  | recvSig _ sig rest h1 hq1 ht =>
    rcases h1 with ⟨hpc, _⟩ | ⟨hpc, _⟩ <;>
    · rw [fuel_eq s (by simp [hpc]), fuel_eq _ (by simp)]
      simp only [cost, hpc, hq1, ahead_cons, if_neg ht]
      omega
  | sigLoad sig hpc hp =>
    rw [fuel_eq s (by simp [hpc]), fuel_eq _ (by simp)]
    simp [cost, hpc]
  | sigDone sig p w h1 ht =>
    have hc1 := cost_top_le
      { s with
        c := { s.c with out := sigOut s.c sig }
        l := { consumer := sigConsumer s.l sig
               out := target (sigOut s.c sig) s.l.batch
               batch := s.l.batch
               paused := p || w }
        pc := .top } rfl
    rcases h1 with ⟨hpc, _⟩ | ⟨hpc, _⟩ <;>
    · rw [fuel_eq s (by simp [hpc]), fuel_eq _ (by simp)]
      have hc2 : cost s ≥ 3 := by simp [cost, hpc]
      simp only at hc1 ⊢
      omega
  | sigStray sig h1 ht =>
    have hpc : s.pc ≠ .stopped := by rcases h1 with hpc | hpc <;> simp [hpc]
    rw [fuel_eq s hpc]
    simp [fuel]
  | accept q hpc ho =>
    have hc1 := cost_top_le
      { s with
        l := { s.l with batch := none, out := if s.l.paused then none else s.l.out }
        pc := .top } rfl
    rw [fuel_eq s (by simp [hpc]), fuel_eq _ (by simp)]
    have hc2 : cost s = 3 := by simp [cost, hpc]
    simp only at hc1 ⊢
    omega
  | _ => simp [Action.isWorker] at hw

@[simp] theorem fetchCond_store (f : Call) (c : eventConsumer) (l : loopVars) :
    fetchCond (f.store c) l = fetchCond c l := by
  simp [fetchCond]

theorem fuel_congr (s s1 : State) (hpc : s1.pc = s.pc) (hout : s1.c.out = s.c.out)
    (hl : s1.l = s.l) (ha : ahead s1.c.sig = ahead s.c.sig) : fuel s1 = fuel s := by
  simp only [fuel, cost, fetchCond, hpc, hout, hl, ha]

theorem fuel_other_step (s : State) (a : Action) (s1 : State) (e : List Event)
    (hq : StopQueued s) (hadm : admissible s a = true)
    (hs : Step s a s1 e) (hw : a.isWorker = false) : fuel s1 = fuel s := by
  cases hs with
  | call f => simp [fuel, cost]
  | hintSent h1 hroom =>
    by_cases hpc : s.pc = .stopped
    · simp [fuel, hpc]
    · obtain ⟨_, hstop⟩ := stopQueued_sig s hq hpc
      exact fuel_congr s _ rfl rfl rfl (ahead_append _ _ hstop)
  | hintDropped h1 hfull => rfl
  | post sig hroom => simp [admissible] at hadm
  | updOutput grp h0 hc hh => rfl
  | close h0 hc hh => rfl
  | ctlPost x sig next h1 hroom =>
    rcases hq with ⟨hc, _⟩ | ⟨hc, _⟩ <;>
      rcases h1 with ⟨hc1, _⟩ | ⟨hc1, _⟩ | ⟨hc1, _⟩ <;> simp [hc] at hc1
  | acquire x hc => rfl
  | ctlReturn x hc hpc => rfl
  | recvStop _ sig rest h1 hq1 ht =>
    rcases h1 with ⟨_, rfl⟩ | ⟨_, rfl⟩ <;> simp [Action.isWorker] at hw
  | recvSig _ sig rest h1 hq1 ht =>
    rcases h1 with ⟨_, rfl⟩ | ⟨_, rfl⟩ <;> simp [Action.isWorker] at hw
  | _ => simp [Action.isWorker] at hw

theorem toHandle_step (s : State) (a : Action) (s1 : State) (e : List Event)
    (hq : StopQueued s) (hadm : admissible s a = true) (hs : Step s a s1 e) :
    processed e ++ toHandle s1 = toHandle s := by
  unfold toHandle processed inbox
  cases hs with
  | topSkip hpc hc => simp [hpc, inflight, Event.processedSig]
  | getErr g h0 hpc hc hg hh => simp [hpc, inflight, Event.processedSig]
  | getOk g h0 qb hpc hc hg hh => simp [hpc, inflight, Event.processedSig]
  | fetchLoad hpc hp => simp [hpc, inflight, Event.processedSig]
  | fetchDone p w h1 =>
    rcases h1 with ⟨hpc, _⟩ | ⟨hpc, _⟩ <;> simp [hpc, inflight, finishFetch]
  | drainEmpty hpc hq1 => simp [hpc, inflight, Event.processedSig]
  | recvStop _ sig rest h1 hq1 ht =>
    rcases h1 with ⟨hpc, _⟩ | ⟨hpc, _⟩ <;>
      simp [hpc, hq1, inflight, Event.processedSig, upToStop_cons, ht]
  | recvSig _ sig rest h1 hq1 ht =>
    rcases h1 with ⟨hpc, _⟩ | ⟨hpc, _⟩ <;>
      simp [hpc, hq1, inflight, Event.processedSig]
  | sigLoad sig hpc hp => simp [hpc, inflight, Event.processedSig]
  | sigDone sig p w h1 ht =>
    rcases h1 with ⟨hpc, _⟩ | ⟨hpc, _⟩ <;>
      simp [hpc, inflight, Event.processedSig, upToStop_cons, ht]
  | sigStray sig h1 ht =>
    rcases h1 with hpc | hpc <;>
      simp [hpc, inflight, Event.processedSig, upToStop_cons, ht]
  | accept q hpc ho => simp [hpc, inflight, Event.processedSig]
  | call f => simp [Event.processedSig]
  | hintSent h1 hroom =>
    by_cases hpc : s.pc = .stopped
    · simp [hpc, Event.processedSig]
    · obtain ⟨_, sig, hm, ht⟩ := stopQueued_sig s hq hpc
      simp only [List.filterMap_cons, Event.processedSig, List.filterMap_nil,
        List.nil_append, if_neg hpc]
      rw [← List.append_assoc, upToStop_append _ _ ⟨sig, List.mem_append_right _ hm, ht⟩]
  | hintDropped h1 hfull => simp
  | post sig hroom => simp [admissible] at hadm
  | updOutput grp h0 hc hh => simp [Event.processedSig]
  | close h0 hc hh => simp [Event.processedSig]
  | ctlPost x sig next h1 hroom =>
    rcases hq with ⟨hc, _⟩ | ⟨hc, _⟩ <;>
      rcases h1 with ⟨hc1, _⟩ | ⟨hc1, _⟩ | ⟨hc1, _⟩ <;> simp [hc] at hc1
  | acquire x hc => simp [Event.processedSig]
  | ctlReturn x hc hpc => simp [Event.processedSig]

theorem closing_run : ∀ (acts : List Action) (s s2 : State) (e2 : List Event),
    ChainClosed s → StopQueued s → runP s acts = some (s2, e2) →
    ChainClosed s2 ∧ StopQueued s2 ∧ workerSteps acts + fuel s2 ≤ fuel s ∧
      processed e2 ++ toHandle s2 = toHandle s := by
  intro acts
  induction acts with
  | nil =>
    intro s s2 e2 hch hq hr
    simp only [runP, Option.some.injEq, Prod.mk.injEq] at hr
    obtain ⟨rfl, rfl⟩ := hr
    exact ⟨hch, hq, by simp [workerSteps], by simp [processed]⟩
  | cons a as ih =>
    intro s s2 e2 hch hq hr
    simp only [runP] at hr
    split at hr
    · next hadm =>
      split at hr
      · exact absurd hr (by simp)
      · next s1 e1 hx =>
        split at hr
        · exact absurd hr (by simp)
        · next s3 e3 hr3 =>
          simp only [Option.some.injEq, Prod.mk.injEq] at hr
          obtain ⟨rfl, rfl⟩ := hr
          have hs := exec_step hx
          obtain ⟨k1, k2, k3, k4⟩ := ih s1 s3 e3 (chainClosed_step s a s1 e1 hch hadm hs)
            (stopQueued_step s a s1 e1 hq hadm hs) hr3
          refine ⟨k1, k2, ?_, ?_⟩
          · cases hw : a.isWorker
            · have := fuel_other_step s a s1 e1 hq hadm hs hw
              simp only [workerSteps, List.filter_cons, hw] at k3 ⊢
              simp only [Bool.false_eq_true, if_false]
              omega
            · have := fuel_worker_step s a s1 e1 hq hch hadm hs hw
              simp only [workerSteps, List.filter_cons, hw, if_true, List.length_cons] at k3 ⊢
              omega
          · have := toHandle_step s a s1 e1 hq hadm hs
            rw [← this, ← k4]
            simp [processed, List.append_assoc]
    · exact absurd hr (by simp)

theorem next_enabled (s : State) (hq : StopQueued s) (hpc : s.pc ≠ .stopped) :
    admissible s (nextAction s) = true ∧ (exec s (nextAction s)).isSome = true ∧
    (nextAction s).isWorker = true ∧ nextAction s ≠ .accept := by
  obtain ⟨_, sig, hm, _⟩ := stopQueued_sig s hq hpc
  cases hp : s.pc with
  | top =>
    by_cases hc : fetchCond s.c s.l = true
    · have hc1 := hc
      simp only [fetchCond, Bool.and_eq_true, Option.isSome_iff_exists] at hc1
      obtain ⟨⟨⟨_, g, hg⟩, h0, hh⟩, _⟩ := hc1
      simp [nextAction, hp, hc, admissible, exec, loopStep, hg, hh, Action.isWorker]
    · simp [nextAction, hp, hc, admissible, exec, loopStep, Action.isWorker]
  | fetched =>
    by_cases hf : s.c.pause = true <;>
      simp [nextAction, hp, admissible, exec, loopStep, Action.isWorker, hf]
  | fetchedWait => simp [nextAction, hp, admissible, exec, loopStep, Action.isWorker]
  | drain =>
    cases hsg : s.c.sig <;>
      simp [nextAction, hp, admissible, exec, loopStep, Action.isWorker, hsg]
  | block =>
    cases hsg : s.c.sig with
    | nil => simp [hsg] at hm
    | cons y rest => simp [nextAction, hp, admissible, exec, loopStep, Action.isWorker, hsg]
  | handling sg =>
    by_cases hf : s.c.pause = true <;>
      simp [nextAction, hp, admissible, exec, loopStep, Action.isWorker, hf]
  | handlingWait sg => simp [nextAction, hp, admissible, exec, loopStep, Action.isWorker]
  | stopped => exact absurd hp hpc

theorem closing_stops : ∀ (n : Nat) (s : State), fuel s ≤ n → ChainClosed s → StopQueued s →
    ∃ acts s2 e2, (∀ a ∈ acts, a.isWorker = true ∧ a ≠ .accept) ∧ acts.length ≤ fuel s ∧
      runP s acts = some (s2, e2) ∧ s2.pc = .stopped := by
  intro n
  induction n with
  | zero =>
    intro s hf hch hq
    by_cases hpc : s.pc = .stopped
    · exact ⟨[], s, [], by simp, by simp, rfl, hpc⟩
    · rw [fuel_eq s hpc] at hf
      omega
  | succ n ih =>
    intro s hf hch hq
    by_cases hpc : s.pc = .stopped
    · exact ⟨[], s, [], by simp, by simp, rfl, hpc⟩
    · obtain ⟨h1, h2, h3, h4⟩ := next_enabled s hq hpc
      obtain ⟨⟨s1, e1⟩, hx⟩ := Option.isSome_iff_exists.1 h2
      have hs := exec_step hx
      have hlt := fuel_worker_step s _ s1 e1 hq hch h1 hs h3
      obtain ⟨acts, s2, e2, k1, k2, k3, k4⟩ := ih s1 (by omega)
        (chainClosed_step s _ s1 e1 hch h1 hs) (stopQueued_step s _ s1 e1 hq h1 hs)
      refine ⟨nextAction s :: acts, s2, e1 ++ e2, ?_, ?_, ?_, k4⟩
      · intro a ha
        rcases List.mem_cons.1 ha with rfl | ha
        · exact ⟨h3, h4⟩
        · exact k1 a ha
      · simp only [List.length_cons]
        omega
      · simp [runP, h1, hx, k3]

theorem closeSent_step (s : State) (a : Action) (s1 : State) (e : List Event)
    (h : CloseSent s) (hadm : admissible s a = true) (hs : Step s a s1 e) :
    CloseSent s1 := by
  by_cases hq : StopQueued s
  · have := stopQueued_step s a s1 e hq hadm hs
    rcases this with ⟨hc, hp⟩ | ⟨hc, hp⟩
    · exact ⟨fun _ => hp, fun hr => by rw [hc] at hr; simp at hr⟩
    · exact ⟨fun _ => Or.inl hp, fun _ => hp⟩
  · have hn1 : s.ctl ≠ .closeWait := fun hc => hq (Or.inl ⟨hc, h.1 hc⟩)
    have hn2 : s.ctl ≠ .returned := fun hc => hq (Or.inr ⟨hc, h.2 hc⟩)
    cases hs with
    | ctlPost x sig next h1 hroom =>
      rcases h1 with ⟨hc, hsig, rfl⟩ | ⟨hc, hsig, rfl⟩ | ⟨hc, hsig, rfl⟩
      · exact ⟨fun hr => by simp at hr, fun hr => by simp at hr⟩
      · exact ⟨fun hr => by simp at hr, fun hr => by simp at hr⟩
      · refine ⟨fun _ => Or.inr ⟨sig, by simp, by rw [hsig]; rfl⟩, fun hr => by simp at hr⟩
    | updOutput grp h0 hc hh => exact ⟨fun hr => by simp at hr, fun hr => by simp at hr⟩
    | close h0 hc hh => exact ⟨fun hr => by simp at hr, fun hr => by simp at hr⟩
    | acquire x hc => exact ⟨fun hr => by simp at hr, fun hr => by simp at hr⟩
    | ctlReturn x hc hpc => exact absurd hc hn1
    | fetchDone p w h1 =>
      exact ⟨fun hr => absurd hr hn1, fun hr => absurd hr hn2⟩
    | _ => exact ⟨fun hr => absurd hr hn1, fun hr => absurd hr hn2⟩

theorem upToStop_length (q : List consumerSignal) : (upToStop q).length ≤ ahead q + 1 := by
  unfold upToStop ahead
  rw [List.length_append]
  have : ((q.dropWhile nonStop).take 1).length ≤ 1 := by
    rw [List.length_take]
    omega
  omega

theorem close_run :
    runP (newEventConsumer 0 (some 1)) closeActs = some (closeEnd.1, closeEnd.2) := by
  decide

/-- C10: take any run in which signals are sent by the methods of this file and
`Get` on a closed consumer returns an error, up to a state in which `close` has
closed `c.consumer`, sent `sigStop` and waits.  From there the worker alone,
without any send being accepted, reaches the end of `loop` within `fuel` steps;
under every schedule the worker takes at most `fuel` steps, is never blocked
before it has stopped (a step other than a send is always possible), handles
only signals queued up to the first `sigStop`, exactly those once it has
stopped, hence at most the number queued ahead of `sigStop` plus one, and once
it has stopped `close` has returned or returns at its next statement.  Handling
`sigStop` only removes the signal from the channel and ends the loop: no
variable of the worker changes and nothing is sent. -/
theorem close_terminates (ctx : Nat) (h : Option Handle) (acts : List Action)
    (s : State) (tr : List Event)
    (hrun : runP (newEventConsumer ctx h) acts = some (s, tr)) (hc : s.ctl = .closeWait) :
    (∃ acts2 s2 e2, (∀ a ∈ acts2, a.isWorker = true ∧ a ≠ .accept) ∧
      acts2.length ≤ fuel s ∧ runP s acts2 = some (s2, e2) ∧ s2.pc = .stopped) ∧
    (∀ acts2 s2 e2, runP s acts2 = some (s2, e2) →
      workerSteps acts2 + fuel s2 ≤ fuel s ∧
      (s2.pc ≠ .stopped →
        admissible s2 (nextAction s2) = true ∧ (exec s2 (nextAction s2)).isSome = true ∧
        (nextAction s2).isWorker = true ∧ nextAction s2 ≠ .accept) ∧
      (s2.pc = .stopped →
        s2.ctl = .returned ∨
        exec s2 (.ctl none) = some ({ s2 with ctl := .returned }, [.returned])) ∧
      processed e2 <+: toHandle s ∧
      (s2.pc = .stopped → processed e2 = toHandle s) ∧
      (processed e2).length ≤ ahead (inbox s) + 1) ∧
    (∀ (s0 : State) (sig : consumerSignal) (rest : List consumerSignal),
      sig.tag = .sigStop →
      received s0 sig rest =
        ({ s0 with c := { s0.c with sig := rest }, pc := .stopped }, [.stopped sig])) := by
  have hp := runP_invariant proto_step acts _ [] s tr (proto_init ctx h) hrun
  have hcs := runP_invariant (P := fun s _ => CloseSent s)
    (fun s _ a s1 e hP hadm hs => closeSent_step s a s1 e hP hadm hs) acts _ [] s tr
    ⟨fun hr => by simp [newEventConsumer] at hr, fun hr => by simp [newEventConsumer] at hr⟩
    hrun
  have hch : ChainClosed s := hp.1
  have hq : StopQueued s := Or.inl ⟨hc, hcs.1 hc⟩
  refine ⟨closing_stops (fuel s) s (le_refl _) hch hq, ?_, ?_⟩
  · intro acts2 s2 e2 hr2
    obtain ⟨k1, k2, k3, k4⟩ := closing_run acts2 s s2 e2 hch hq hr2
    have hpre : processed e2 <+: toHandle s := ⟨toHandle s2, k4⟩
    refine ⟨k3, fun hpc => next_enabled s2 k2 hpc, ?_, hpre, ?_, ?_⟩
    · intro hpc
      rcases k2 with ⟨hc2, _⟩ | ⟨hc2, _⟩
      · exact Or.inr (by simp [exec, ctlStep, hc2, hpc])
      · exact Or.inl hc2
    · intro hpc
      rw [← k4]
      simp [toHandle, hpc]
    · have h1 := hpre.length_le
      have h2 : (toHandle s).length ≤ ahead (inbox s) + 1 := by
        unfold toHandle
        split
        · simp
        · exact upToStop_length _
      omega
  · intro s0 sig rest ht
    simp [received, ht]

theorem close_terminates_witness :
    runP (newEventConsumer 0 (some 1)) closeActs = some (closeEnd.1, closeEnd.2) ∧
    closeEnd.1.ctl = .closeWait ∧ closeEnd.1.pc = .block ∧
    closeEnd.1.l.batch = some (newBatch 0 [1, 2] 5) ∧ fuel closeEnd.1 = 4 ∧
    ∃ acts2 s2 e2, (∀ a ∈ acts2, a.isWorker = true ∧ a ≠ .accept) ∧
      acts2.length ≤ fuel closeEnd.1 ∧ runP closeEnd.1 acts2 = some (s2, e2) ∧
      s2.pc = .stopped :=
  ⟨close_run, by decide, by decide, by decide, by decide,
   (close_terminates 0 (some 1) closeActs closeEnd.1 closeEnd.2 close_run (by decide)).1⟩

/-- C11: `sigHint` is a total function of the struct (its send never waits) and
leaves both flags and every field other than the channel alone.  When the
channel holds fewer than its capacity of 3 signals the result is the old content
followed by exactly one `sigConsumerCheck` signal; when it is full the content
is unchanged.  In both cases the old content is an initial segment of the new
one and the stop, update-output and update-input signals queued are the same,
in the same order.  In the system, the hint of a flag setter that has stored its
flag can always take place. -/
theorem sigHint_never_blocks (c : eventConsumer) :
    (sigHint c).pause = c.pause ∧ (sigHint c).wait = c.wait ∧
    (sigHint c).ctx = c.ctx ∧ (sigHint c).consumer = c.consumer ∧ (sigHint c).out = c.out ∧
    sigCap = 3 ∧
    (c.sig.length < 3 → (sigHint c).sig = c.sig ++ [checkSignal]) ∧
    (3 ≤ c.sig.length → (sigHint c).sig = c.sig) ∧
    c.sig <+: (sigHint c).sig ∧
    (sigHint c).sig.filter isStructural = c.sig.filter isStructural ∧
    checkSignal.tag = .sigConsumerCheck ∧
    (∀ s : State, 0 < s.calls → s.c = c →
      (exec s .hint).map (fun r => r.1) =
        some { s with c := sigHint c, calls := s.calls - 1 }) := by
  have h0 : sigCap = 3 := rfl
  by_cases hroom : c.sig.length < sigCap
  · have hs : sigHint c = { c with sig := c.sig ++ [checkSignal] } := by
      simp [sigHint, hroom]
    rw [hs]
    refine ⟨rfl, rfl, rfl, rfl, rfl, rfl, fun _ => rfl, fun h3 => ?_, ⟨[checkSignal], rfl⟩,
      ?_, rfl, fun s hcalls hc => ?_⟩
    · rw [h0] at hroom
      omega
    · simp [isStructural, checkSignal]
    · subst hc
      simp [exec, hcalls, hs]
  · have hs : sigHint c = c := by simp [sigHint, hroom]
    rw [hs]
    refine ⟨rfl, rfl, rfl, rfl, rfl, rfl, fun h3 => ?_, fun _ => rfl, List.prefix_refl _,
      rfl, rfl, fun s hcalls hc => ?_⟩
    · rw [h0] at hroom
      exact absurd h3 hroom
    · subst hc
      simp [exec, hcalls, hs]

theorem sigHint_never_blocks_witness :
    hintDemo.sig.length < 3 ∧
    (sigHint hintDemo).sig = [stopSignal, updateInputSignal (some 2), checkSignal] :=
  ⟨by decide, (sigHint_never_blocks hintDemo).2.2.2.2.2.2.1 (by decide)⟩

/-- C14, the code at the failing input: the channel holds one unprocessed check
signal, so it is not empty, and `sigHint` still enqueues a check signal; a
further `sigHint` enqueues a third one, and only the fourth hint is dropped. -/
theorem sigHint_queues_second_check :
    hintedOnce.sig ≠ [] ∧
    (sigHint hintedOnce).sig = [checkSignal, checkSignal] ∧
    (sigHint (sigHint hintedOnce)).sig = [checkSignal, checkSignal, checkSignal] ∧
    (sigHint (sigHint (sigHint hintedOnce))).sig = [checkSignal, checkSignal, checkSignal] := by
  decide

/-- C15: when the send of the second `select` goes through, the value sent is
the pending batch, the pending batch is cleared, and the delivery target is
cleared when `paused` is true and kept otherwise.  In every run from
`newEventConsumer` in which no handled `sigConsumerUpdateInput` signal carried
a nil consumer, a worker that stands at its second `select` with a non-nil
delivery target has a pending batch, and no value ever sent on an output work
queue is nil. -/
theorem sends_pending_batch :
    (∀ (s s1 : State) (e : List Event), exec s .accept = some (s1, e) →
      ∃ q, s.l.out = some q ∧ s.pc = .block ∧ e = [.send q s.l.batch] ∧
        s1.l.batch = none ∧ s1.l.out = (if s.l.paused then none else s.l.out) ∧
        s1.l.paused = s.l.paused ∧ s1.l.consumer = s.l.consumer ∧ s1.pc = .top) ∧
    (∀ (ctx : Nat) (h : Option Handle) (acts : List Action) (s : State) (tr : List Event),
      run (newEventConsumer ctx h) acts = some (s, tr) → nonNilInputs tr →
      (s.pc = .block → s.l.out ≠ none → s.l.batch ≠ none) ∧
      (∀ q b, Event.send q b ∈ tr → b ≠ none)) := by
  constructor
  · intro s s1 e hx
    have hs := exec_step hx
    cases hs with
    | accept q hpc ho => exact ⟨q, ho, hpc, rfl, rfl, rfl, rfl, rfl, rfl⟩
    | recvStop _ sig rest h hq ht => simp at h
    | recvSig _ sig rest h hq ht => simp at h
  · intro ctx h acts s tr hrun hn
    have hg := run_invariant guarded_step acts _ [] s tr (guarded_init ctx h) hrun
    simp only [List.nil_append] at hg
    obtain ⟨⟨_, _, h3⟩, h4⟩ := hg hn
    refine ⟨fun hpc ho hb => ?_, fun q b hm => h4 b ?_⟩
    · have := h3 ho hb
      simp [hpc] at this
    · simp only [handoffs, List.mem_filterMap]
      exact ⟨_, hm, rfl⟩

theorem nonNilInputs_of_all (tr : List Event) (h : tr.all Event.inputOk = true) :
    nonNilInputs tr := by
  intro sig p hm ht
  have h1 := List.all_eq_true.1 h _ hm
  simp only [Event.inputOk, ht, ne_eq, not_true_eq_false, decide_False, Bool.false_or] at h1
  intro hc
  rw [hc] at h1
  simp at h1

theorem deliver_run :
    run (newEventConsumer 0 (some 1)) deliverActs = some (deliverEnd.1, deliverEnd.2) := by
  decide

theorem sends_pending_batch_witness :
    run (newEventConsumer 0 (some 1)) deliverActs = some (deliverEnd.1, deliverEnd.2) ∧
    nonNilInputs deliverEnd.2 ∧
    Event.handled (updateInputSignal (some 2)) false ∈ deliverEnd.2 ∧
    Event.send 7 (some (newBatch 0 [1, 2] 5)) ∈ deliverEnd.2 ∧
    (∀ q b, Event.send q b ∈ deliverEnd.2 → b ≠ none) :=
  ⟨deliver_run, nonNilInputs_of_all _ (by decide), by decide, by decide,
   (sends_pending_batch.2 0 (some 1) deliverActs deliverEnd.1 deliverEnd.2 deliver_run
     (nonNilInputs_of_all _ (by decide))).2⟩

theorem untargeted_local (s : State) (a : Action) (s1 : State) (e : List Event)
    (hs : Step s a s1 e) (hq : Untargeted s) :
    (∀ ev ∈ e, ev.isQuiet = true) ∧
    ((∀ ev ∈ e, ev.isProcessed = false) → Untargeted s1) := by
  obtain ⟨h1, h2, h3, h4⟩ := hq
  cases hs with
  | topSkip hpc hc => exact absurd hpc h2
  | getErr g h0 hpc hc1 hg hh => exact absurd hpc h2
  | getOk g h0 qb hpc hc1 hg hh => exact absurd hpc h2
  | fetchLoad hpc hp => exact absurd hpc h3
  | fetchDone p w h =>
    rcases h with ⟨hpc, _⟩ | ⟨hpc, _⟩
    · exact absurd hpc h3
    · exact absurd hpc h4
  | drainEmpty hpc hq1 =>
    simp [Untargeted, Event.isQuiet, Event.isGet, Event.isSend, h1]
  | recvStop _ sig rest h hq1 ht =>
    simp [Untargeted, Event.isQuiet, Event.isGet, Event.isSend, Event.isProcessed,
      Event.processedSig]
  | recvSig _ sig rest h hq1 ht => simp [Untargeted, h1]
  | sigLoad sig hpc hp => simp [Untargeted, h1]
  | sigDone sig p w h ht =>
    simp [Event.isQuiet, Event.isGet, Event.isSend, Event.isProcessed, Event.processedSig]
  | sigStray sig h ht =>
    simp [Event.isQuiet, Event.isGet, Event.isSend, Event.isProcessed, Event.processedSig]
  | accept q hpc ho => simp [h1] at ho
  | hintSent h hroom =>
    simp [Untargeted, Event.isQuiet, Event.isGet, Event.isSend, h1, h2, h3, h4]
  | _ => simp [Untargeted, Event.isQuiet, Event.isGet, Event.isSend, h1, h2, h3, h4]

theorem finishFetch_paused (s : State) (w : Bool) :
    finishFetch s true w = finishFetch s true false := by
  simp [finishFetch, paused]

theorem fetched_run (s : State) (hpc : s.pc = .fetched) :
    ∃ n, n ≤ 2 ∧
      run s (List.replicate n .step) = some (finishFetch s s.c.pause s.c.wait, []) := by
  by_cases hp : s.c.pause = true
  · refine ⟨1, by omega, ?_⟩
    rw [hp, finishFetch_paused]
    simp [List.replicate, run, exec, loopStep, hpc, hp]
  · have hp : s.c.pause = false := by simpa using hp
    refine ⟨2, le_refl 2, ?_⟩
    rw [hp]
    simp [List.replicate, run, exec, loopStep, hpc, hp, finishFetch]

/-- C13: a fetch step in which `Get` returns without error leaves the worker
about to re-read the flags, with the batch built from the queue batch (none
when `Get` returned a nil batch) and the target set to the work queue of the
output group.  Whatever the two flags then load as, the worker reaches its
first `select` with `paused` their disjunction, the batch kept (also when
paused), and the target equal to the work queue when a batch materialised and
the flags say not paused, and nil otherwise; for an output group whose work
queue is a non-nil channel the target is thus non-nil exactly in that case.
When the target is nil, no event is a call of `Get` or a send before the worker
has handled its next signal. -/
theorem fetch_success_sets_target (s s1 : State) (e : List Event) (qb : Option QueueBatch)
    (hx : exec s (.getReturns (.ok qb)) = some (s1, e)) :
    ∃ g h,
      s.c.out = some g ∧ s.l.consumer = some h ∧ s.l.batch = none ∧
      e = [.get h g.batchSize (.ok qb)] ∧ s1.pc = .fetched ∧
      s1.l.batch = qb.map (fun b => newBatch s.c.ctx b g.timeToLive) ∧
      s1.l.out = g.workQueue ∧
      (∃ n, n ≤ 2 ∧
        run s1 (List.replicate n .step) = some (finishFetch s1 s1.c.pause s1.c.wait, [])) ∧
      ∀ p w : Bool,
        (finishFetch s1 p w).pc = .drain ∧
        (finishFetch s1 p w).l.paused = (p || w) ∧
        (finishFetch s1 p w).l.batch = s1.l.batch ∧
        (finishFetch s1 p w).l.out =
          (if qb ≠ none ∧ (p || w) = false then g.workQueue else none) ∧
        (g.workQueue ≠ none →
          ((finishFetch s1 p w).l.out ≠ none ↔ qb ≠ none ∧ (p || w) = false)) ∧
        ((finishFetch s1 p w).l.out = none →
          ∀ acts s2 e2, run (finishFetch s1 p w) acts = some (s2, e2) →
            ∀ ev ∈ before Event.isProcessed e2, ev.isGet = false ∧ ev.isSend = false) := by
  have hs := exec_step hx
  cases hs with
  | getOk g h0 qb1 hpc hc hg hh =>
    clear hx
    have hb : s.l.batch = none := by
      simp only [fetchCond, Bool.and_eq_true, Option.isNone_iff_eq_none] at hc
      exact hc.2
    refine ⟨g, h0, hg, hh, hb, rfl, rfl, ?_, rfl, fetched_run _ rfl, fun p w => ?_⟩
    · cases qb <;> simp [hb]
    · have hout : (finishFetch
          { s with
            l := { s.l with
                   out := g.workQueue
                   batch :=
                     match qb with
                     | some b => some (newBatch s.c.ctx b g.timeToLive)
                     | none => s.l.batch }
            pc := .fetched } p w).l.out =
          (if qb ≠ none ∧ (p || w) = false then g.workQueue else none) := by
        cases qb <;> cases p <;> cases w <;> simp [finishFetch, paused, hb]
      refine ⟨rfl, rfl, rfl, hout, fun hwq => ?_, fun hnone acts s2 e2 hrun ev hev => ?_⟩
      · have key : ∀ o : Option Chan,
            o = (if qb ≠ none ∧ (p || w) = false then g.workQueue else none) →
            (o ≠ none ↔ qb ≠ none ∧ (p || w) = false) := by
          intro o ho
          rw [ho]
          split
          · next hcond => exact ⟨fun _ => hcond, fun _ => hwq⟩
          · next hcond => exact ⟨fun hne => absurd rfl hne, fun hc1 => absurd hc1 hcond⟩
        exact key _ hout
      · have := gated_run untargeted_local _
          ⟨hnone, by simp [finishFetch], by simp [finishFetch], by simp [finishFetch]⟩
          acts s2 e2 hrun ev hev
        simpa [Event.isQuiet] using this
  | recvStop _ sig rest h hq ht => simp at h
  | recvSig _ sig rest h hq ht => simp at h

theorem fetch_success_sets_target_witness :
    exec fetchPoint (.getReturns (.ok (some [1, 2]))) =
      some (afterFetch, [.get 1 10 (.ok (some [1, 2]))]) ∧
    (finishFetch afterFetch true false).l.out = none ∧
    (finishFetch afterFetch true false).l.batch = some (newBatch 0 [1, 2] 5) ∧
    (finishFetch afterFetch false false).l.out = some 7 ∧
    ∃ g h, fetchPoint.c.out = some g ∧ fetchPoint.l.consumer = some h ∧
      afterFetch.l.out = g.workQueue :=
  ⟨by decide, by decide, by decide, by decide,
   by
    obtain ⟨g, h, h1, h2, _, _, _, _, h7, _⟩ :=
      fetch_success_sets_target fetchPoint afterFetch [.get 1 10 (.ok (some [1, 2]))]
        (some [1, 2]) (by decide)
    exact ⟨g, h, h1, h2, h7⟩⟩

theorem gatedEach_step {g : Event → Bool} {Q : State → Prop} {φ : Event → Prop}
    (hloc : ∀ s a s1 e, Step s a s1 e → Q s →
      (∀ ev ∈ e, φ ev) ∧ ((∀ ev ∈ e, g ev = false) → Q s1))
    (s : State) (tr : List Event) (a : Action) (s1 : State) (e : List Event)
    (h : GatedEach g Q φ s tr) (hs : Step s a s1 e) : GatedEach g Q φ s1 (tr ++ e) := by
  obtain ⟨h1, h2⟩ := h
  refine ⟨fun hall => ?_, each_append _ tr e h2 (step_events s a s1 e hs) ?_⟩
  · exact (hloc s a s1 e hs (h1 (fun ev hev => hall ev (List.mem_append_left e hev)))).2
      (fun ev hev => hall ev (List.mem_append_right tr hev))
  · intro ev hev hpre
    exact (hloc s a s1 e hs (h1 hpre)).1 ev (by rw [hev]; exact List.mem_singleton.2 rfl)

theorem retargeted_local (g : outputGroup) (b : Batch) (s : State) (a : Action)
    (s1 : State) (e : List Event) (hs : Step s a s1 e) (hq : Retargeted g b s) :
    (∀ ev ∈ e, sendsTo g b ev) ∧
    ((∀ ev ∈ e, ev.endsRetarget = false) → Retargeted g b s1) := by
  obtain ⟨h1, h2, h3⟩ := hq
  cases hs with
  | getErr g0 h0 hpc hc hg hh => simp [fetchCond, h1] at hc
  | getOk g0 h0 qb hpc hc hg hh => simp [fetchCond, h1] at hc
  | fetchDone p w h =>
    refine ⟨by simp, fun _ => ⟨h1, h2, ?_⟩⟩
    show (if _ then none else s.l.out) = none ∨ (if _ then none else s.l.out) = g.workQueue
    split
    · exact Or.inl rfl
    · exact h3
  | sigDone sig p w h ht =>
    refine ⟨by simp [sendsTo], fun hg => ?_⟩
    have hg1 := hg _ (List.mem_singleton.2 rfl)
    have hu : sig.tag ≠ .sigConsumerUpdateOutput := by
      simpa [Event.endsRetarget, Event.isSend, Event.isOutputUpdate] using hg1
    have ho : sigOut s.c sig = some g := by simp [sigOut, hu, h2]
    refine ⟨h1, ho, Or.inr ?_⟩
    show target (sigOut s.c sig) s.l.batch = g.workQueue
    rw [ho, h1]
    rfl
  | accept q hpc ho =>
    refine ⟨?_, fun hg => ?_⟩
    · intro ev hev q1 b1 heq
      rw [List.mem_singleton.1 hev] at heq
      simp only [Event.send.injEq] at heq
      obtain ⟨rfl, rfl⟩ := heq
      refine ⟨h1, ?_⟩
      rcases h3 with h3 | h3
      · rw [h3] at ho
        simp at ho
      · rw [← h3, ho]
    · have := hg _ (List.mem_singleton.2 rfl)
      simp [Event.endsRetarget, Event.isSend] at this
  | hintSent h hroom => exact ⟨by simp [sendsTo], fun _ => ⟨h1, h2, h3⟩⟩
  | call f => exact ⟨by simp [sendsTo], fun _ => ⟨h1, by simpa using h2, h3⟩⟩
  | recvStop _ sig rest h hq1 ht => exact ⟨by simp [sendsTo], fun _ => ⟨h1, h2, h3⟩⟩
  | _ => exact ⟨by simp [sendsTo], fun _ => ⟨h1, h2, h3⟩⟩

/-- C16: handling `sigConsumerUpdateOutput` while a batch `b` is pending leaves
`b` pending, unchanged (so with the queue batch and the time to live it was
built with under the former output group), makes the group of the signal the
current one, and sets the delivery target to the work queue of that group, or
to nil when the signal carries no group.  With a group `g2` installed this way,
in every continuation the first send, if no other output update is handled
before it, is the send of `b` on the work queue of `g2`. -/
theorem pending_batch_retargeted (p w : Bool) (c : eventConsumer) (l : loopVars)
    (b : Batch) (sig : consumerSignal) (hb : l.batch = some b)
    (ht : sig.tag = .sigConsumerUpdateOutput) :
    ∃ c1 l1, handleSignal p w c l sig = .ok (c1, l1) ∧
      c1.out = sig.out ∧ l1.batch = some b ∧ l1.consumer = l.consumer ∧
      l1.out = (match sig.out with
                | some g2 => g2.workQueue
                | none => none) ∧
      (∀ ctx qb ttl, b = newBatch ctx qb ttl →
        l1.batch.map Batch.ttl = some ttl ∧ l1.batch.map Batch.original = some qb) ∧
      (∀ g2, sig.out = some g2 → ∀ s : State, s.c = c1 → s.l = l1 →
        ∀ acts s2 e2, run s acts = some (s2, e2) →
        ∀ pre q b1 post, e2 = pre ++ Event.send q b1 :: post →
          (∀ x ∈ pre, x.isSend = false ∧ x.isOutputUpdate = false) →
          b1 = some b ∧ g2.workQueue = some q) := by
  have hne : sig.tag ≠ .sigStop := by rw [ht]; decide
  have hout : sigOut c sig = sig.out := by simp [sigOut, ht]
  refine ⟨_, _, handleSignal_ok p w c l sig hne, hout, hb, ?_, ?_, ?_, ?_⟩
  · simp [sigConsumer, ht]
  · show target (sigOut c sig) l.batch = _
    rw [hout, hb]
    cases sig.out <;> rfl
  · intro ctx qb ttl hbq
    show l.batch.map Batch.ttl = some ttl ∧ l.batch.map Batch.original = some qb
    rw [hb, hbq]
    exact ⟨rfl, rfl⟩
  · intro g2 hg2 s hc hl acts s2 e2 hrun pre q b1 post heq hpre
    have hq : Retargeted g2 b s := by
      refine ⟨by rw [hl]; exact hb, by rw [hc]; show sigOut c sig = some g2; rw [hout, hg2],
        Or.inr ?_⟩
      rw [hl]
      show target (sigOut c sig) l.batch = g2.workQueue
      rw [hout, hg2, hb]
      rfl
    have hinv := run_invariant (gatedEach_step (retargeted_local g2 b)) acts s [] s2 e2
      ⟨fun _ => hq, fun pre ev post heq => by simp at heq⟩ hrun
    simp only [List.nil_append] at hinv
    exact hinv.2 pre _ post heq
      (fun x hx => by simp [Event.endsRetarget, (hpre x hx).1, (hpre x hx).2]) q b1 rfl

theorem pending_batch_retargeted_witness :
    pendingPoint.l.batch = some (newBatch 0 [1, 2] 5) ∧
    (updateOutputSignal (some otherGroup)).tag = .sigConsumerUpdateOutput ∧
    ∃ c1 l1, handleSignal false false pendingPoint.c pendingPoint.l
        (updateOutputSignal (some otherGroup)) = .ok (c1, l1) ∧
      c1.out = some otherGroup ∧ l1.batch = some (newBatch 0 [1, 2] 5) ∧ l1.out = some 8 :=
  ⟨by decide, by decide,
   by
    obtain ⟨c1, l1, h1, h2, h3, _, h5, _⟩ :=
      pending_batch_retargeted false false pendingPoint.c pendingPoint.l
        (newBatch 0 [1, 2] 5) (updateOutputSignal (some otherGroup)) (by decide) (by decide)
    exact ⟨c1, l1, h1, h2, h3, h5⟩⟩

theorem sceneStep_inv (sc : Scene) (a : Action) (sc1 : Scene) (e : List Event)
    (h : sceneStep sc a = some (sc1, e)) : Step sc.s a sc1.s e ∧ SceneSide sc a sc1 := by
  unfold sceneStep at h
  split at h
  · next hw =>
    split at h
    · next r =>
      split at h
      · next h0 g hh hg =>
        split at h
        · next r1 rest hq =>
          split at h
          · next hr =>
            rcases hx : exec sc.s (.getReturns r) with _ | ⟨s1, e1⟩
            · simp [hx] at h
            · simp only [hx, Option.map_some', Option.some.injEq, Prod.mk.injEq] at h
              obtain ⟨rfl, rfl⟩ := h
              refine ⟨exec_step hx, Or.inl ⟨hw, rfl, Or.inl ⟨r, h0, g, rfl, hh, hg, ?_⟩⟩⟩
              rw [hq, hr]
          · exact absurd h (by simp)
        · exact absurd h (by simp)
      · exact absurd h (by simp)
    · next hne =>
      rcases hx : exec sc.s a with _ | ⟨s1, e1⟩
      · simp [hx] at h
      · simp only [hx, Option.map_some', Option.some.injEq, Prod.mk.injEq] at h
        obtain ⟨rfl, rfl⟩ := h
        exact ⟨exec_step hx, Or.inl ⟨hw, rfl, Or.inr ⟨fun r hr => hne r hr, rfl⟩⟩⟩
  · next hw =>
    split at h
    · next b rest hs =>
      split at h
      · next hab =>
        rcases hx : exec sc.s a with _ | ⟨s1, e1⟩
        · simp [hx] at h
        · simp only [hx, Option.map_some', Option.some.injEq, Prod.mk.injEq] at h
          obtain ⟨rfl, rfl⟩ := h
          exact ⟨exec_step hx, Or.inr ⟨by simpa using hw, by rw [hs, hab], rfl⟩⟩
      · exact absurd h (by simp)
    · exact absurd h (by simp)

theorem scene_invariant {P : Scene → List Event → Prop}
    (hP : ∀ sc tr a sc1 e, P sc tr → Step sc.s a sc1.s e → SceneSide sc a sc1 →
      P sc1 (tr ++ e)) :
    ∀ (acts : List Action) (sc : Scene) (tr : List Event) (sc2 : Scene) (e2 : List Event),
      P sc tr → sceneRun sc acts = some (sc2, e2) → P sc2 (tr ++ e2) := by
  intro acts
  induction acts with
  | nil =>
    intro sc tr sc2 e2 h hr
    simp only [sceneRun, Option.some.injEq, Prod.mk.injEq] at hr
    obtain ⟨rfl, rfl⟩ := hr
    simpa using h
  | cons a as ih =>
    intro sc tr sc2 e2 h hr
    simp only [sceneRun] at hr
    split at hr
    · exact absurd hr (by simp)
    · next sc1 e1 hx =>
      split at hr
      · exact absurd hr (by simp)
      · next sc3 e3 hr3 =>
        simp only [Option.some.injEq, Prod.mk.injEq] at hr
        obtain ⟨rfl, rfl⟩ := hr
        obtain ⟨hs, hside⟩ := sceneStep_inv sc a sc1 e1 hx
        have h1 := hP sc tr a sc1 e1 h hs hside
        have h2 := ih sc1 (tr ++ e1) sc3 e3 h1 hr3
        simpa [List.append_assoc] using h2

theorem worker_step_shared (s : State) (a : Action) (s1 : State) (e : List Event)
    (hs : Step s a s1 e) (hw : a.isWorker = true) :
    s1.ctl = s.ctl ∧ s1.closed = s.closed ∧ s1.c.consumer = s.c.consumer ∧
    s1.c.pause = s.c.pause ∧ s1.calls = s.calls ∧ postedSigs e = [] ∧
    s1.c.wait = s.c.wait ∧ s1.c.ctx = s.c.ctx := by
  cases hs with
  | fetchDone p w h => simp [finishFetch, postedSigs]
  | recvStop _ sig rest h hq ht => simp [postedSigs, Event.postedSig]
  | recvSig _ sig rest h hq ht => simp [postedSigs]
  | topSkip hpc hc => simp [postedSigs]
  | getErr g h0 hpc hc hg hh => simp [postedSigs, Event.postedSig]
  | getOk g h0 qb hpc hc hg hh => simp [postedSigs, Event.postedSig]
  | fetchLoad hpc hp => simp [postedSigs]
  | drainEmpty hpc hq => simp [postedSigs, Event.postedSig]
  | sigLoad sig hpc hp => simp [postedSigs]
  | sigDone sig p w h ht => simp [postedSigs, Event.postedSig]
  | sigStray sig h ht => simp [postedSigs, Event.postedSig]
  | accept q hpc ho => simp [postedSigs, Event.postedSig]
  | _ => simp [Action.isWorker] at hw

theorem fifo_room (s : State) (tr : List Event) (hf : Fifo s tr)
    (hp : (postedSigs tr).length < sigCap) : s.c.sig.length < sigCap := by
  have := congrArg List.length hf
  simp only [List.length_append, inbox] at this
  omega

theorem scripted_step (c : Setting) (sc : Scene) (tr : List Event) (a : Action)
    (sc1 : Scene) (e : List Event) (h : Scripted c sc tr) (hs : Step sc.s a sc1.s e)
    (hside : SceneSide sc a sc1) : Scripted c sc1 (tr ++ e) := by
  obtain ⟨s, avail, script⟩ := sc
  obtain ⟨s1, avail1, script1⟩ := sc1
  simp only at hs
  obtain ⟨⟨k, hk, h1, h2, h3, h4, h5, h6, h7, h8, h9⟩, hf⟩ := h
  simp only at h1 h2 h3 h4 h5 h6 h8 h9 hf
  refine ⟨?_, fifo_step s tr a s1 e hf hs⟩
  rcases hside with ⟨hw, hscr, _⟩ | ⟨hw, hscr, _⟩
  · obtain ⟨k1, k2, k3, k4, k5, k6, k7, k8⟩ := worker_step_shared s a s1 e hs hw
    simp only at hscr
    refine ⟨k, hk, by rw [hscr, h1], by rw [k1, h2], by rw [k2, h3], by rw [k3, h4],
      by rw [k4, h5], by rw [k5, h6], ?_, by rw [k7, h8], by rw [k8, h9]⟩
    have : postedSigs (tr ++ e) = postedSigs tr ++ postedSigs e := by simp [postedSigs]
    rw [this, k6, List.append_nil, h7]
  · have hroom : (postedSigs tr).length < sigCap → s.c.sig.length < sigCap :=
      fifo_room s tr hf
    refine ⟨k + 1, ?_⟩
    simp only at hscr
    rw [h1] at hscr
    unfold ScriptedAt
    have hpost : postedSigs (tr ++ e) = postedSigs tr ++ postedSigs e := by simp [postedSigs]
    rw [hpost, h7]
    rw [h7] at hroom
    interval_cases k
    · simp only [setOutputThenContinue, List.drop_zero, List.cons.injEq] at hscr
      obtain ⟨rfl, hrest⟩ := hscr
      cases hs with
      | recvStop _ sig rest h hq ht => simp at h
      | recvSig _ sig rest h hq ht => simp at h
      | updOutput grp hh hc hcons =>
        rw [h4] at hcons
        simp only [Setting.sharedAt, Option.some.injEq] at hcons
        subst hcons
        simp_all [Setting.sharedAt, postedSigs, Event.postedSig, setOutputThenContinue]
    · simp only [setOutputThenContinue, List.drop_succ_cons, List.drop_zero,
        List.cons.injEq] at hscr
      obtain ⟨rfl, hrest⟩ := hscr
      cases hs with
      | recvStop _ sig rest h hq ht => simp at h
      | recvSig _ sig rest h hq ht => simp at h
      | ctlPost _ sig next h hroom1 =>
        rcases h with ⟨hc, hsig, rfl⟩ | ⟨hc, hsig, rfl⟩ | ⟨hc, hsig, rfl⟩
        · rw [h2] at hc
          simp only [Setting.sharedAt, Ctl.updPostOut.injEq] at hc
          rw [← hc] at hsig
          subst hsig
          clear hc
          simp_all [Setting.sharedAt, postedSigs, Event.postedSig, setOutputThenContinue]
        · simp [h2, Setting.sharedAt] at hc
        · simp [h2, Setting.sharedAt] at hc
      | acquire _ hc => simp [h2, Setting.sharedAt] at hc
      | ctlReturn _ hc hpc => simp [h2, Setting.sharedAt] at hc
    · simp only [setOutputThenContinue, List.drop_succ_cons, List.drop_zero,
        List.cons.injEq] at hscr
      obtain ⟨rfl, hrest⟩ := hscr
      cases hs with
      | recvStop _ sig rest h hq ht => simp at h
      | recvSig _ sig rest h hq ht => simp at h
      | ctlPost _ sig next h hroom1 =>
        rcases h with ⟨hc, _⟩ | ⟨hc, _⟩ | ⟨hc, _⟩ <;> simp [h2, Setting.sharedAt] at hc
      | acquire _ hc =>
        simp_all [Setting.sharedAt, postedSigs, Event.postedSig, setOutputThenContinue]
      | ctlReturn _ hc hpc => simp [h2, Setting.sharedAt] at hc
    · simp only [setOutputThenContinue, List.drop_succ_cons, List.drop_zero,
        List.cons.injEq] at hscr
      obtain ⟨rfl, hrest⟩ := hscr
      cases hs with
      | recvStop _ sig rest h hq ht => simp at h
      | recvSig _ sig rest h hq ht => simp at h
      | ctlPost _ sig next h hroom1 =>
        rcases h with ⟨hc, hsig, rfl⟩ | ⟨hc, hsig, rfl⟩ | ⟨hc, hsig, rfl⟩
        · simp [h2, Setting.sharedAt] at hc
        · rw [h4] at hsig
          subst hsig
          simp_all [Setting.sharedAt, postedSigs, Event.postedSig, setOutputThenContinue]
        · simp [h2, Setting.sharedAt] at hc
      | acquire _ hc => simp [h2, Setting.sharedAt] at hc
      | ctlReturn _ hc hpc => simp [h2, Setting.sharedAt] at hc
    · simp only [setOutputThenContinue, List.drop_succ_cons, List.drop_zero,
        List.cons.injEq] at hscr
      obtain ⟨rfl, hrest⟩ := hscr
      cases hs with
      | recvStop _ sig rest h hq ht => simp at h
      | recvSig _ sig rest h hq ht => simp at h
      | call =>
        simp_all [Setting.sharedAt, postedSigs, Event.postedSig, setOutputThenContinue,
          Call.store]
    · simp only [setOutputThenContinue, List.drop_succ_cons, List.drop_zero,
        List.cons.injEq] at hscr
      obtain ⟨rfl, hrest⟩ := hscr
      cases hs with
      | recvStop _ sig rest h hq ht => simp at h
      | recvSig _ sig rest h hq ht => simp at h
      | hintSent h hroom1 =>
        simp_all [Setting.sharedAt, postedSigs, Event.postedSig, setOutputThenContinue]
      | hintDropped h hfull =>
        exact absurd (hroom (by simp [Setting.sharedAt, sigCap])) hfull
    · simp [setOutputThenContinue] at hscr

theorem scripted_facts (c : Setting) (sc : Scene) (tr : List Event)
    (h : Scripted c sc tr) :
    (∀ sig ∈ inbox sc.s, sig ∈ c.sigs) ∧ (∀ sig ∈ processed tr, sig ∈ c.sigs) ∧
    (∀ h ∈ sc.s.closed, h = c.h0) ∧ (postedSigs tr ≠ [] → c.h0 ∈ sc.s.closed) ∧
    sc.s.c.ctx = c.ctx := by
  obtain ⟨⟨k, hk, h1, h2, h3, h4, h5, h6, h7, h8, h9⟩, hf⟩ := h
  have hsub : ∀ sig ∈ postedSigs tr, sig ∈ c.sigs := by
    rw [h7]
    interval_cases k <;> simp [Setting.sharedAt, Setting.sigs]
  have hcl : (∀ h ∈ sc.s.closed, h = c.h0) ∧ (postedSigs tr ≠ [] → c.h0 ∈ sc.s.closed) := by
    rw [h3, h7]
    interval_cases k <;> simp [Setting.sharedAt]
  refine ⟨fun sig hm => hsub sig ?_, fun sig hm => hsub sig ?_, hcl.1, hcl.2, h9⟩
  · rw [← hf]
    exact List.mem_append_right _ hm
  · rw [← hf]
    exact List.mem_append_left _ hm

theorem silent_nil : Silent [] := ⟨rfl, rfl, fun _ h => absurd h (List.not_mem_nil _)⟩

theorem silent_single (ev : Event) (h1 : ev.processedSig = none) (h2 : ev.fetchedBatch = none)
    (h3 : ev.isSend = false) (h4 : ev.isGet = false) : Silent [ev] := by
  refine ⟨by simp [processed, h1], by simp [fetched, h2], fun x hx => ?_⟩
  rw [List.mem_singleton.1 hx]
  exact ⟨h3, h4⟩

theorem processed_append (tr e : List Event) :
    processed (tr ++ e) = processed tr ++ processed e := by
  simp [processed]

theorem fetched_append (tr e : List Event) : fetched (tr ++ e) = fetched tr ++ fetched e := by
  simp [fetched]

theorem working_silent (c : Setting) (q : Chan) (sc sc1 : Scene) (tr e : List Event)
    (hW : Working c q sc tr) (he : Silent e) (hav : sc1.avail = sc.avail)
    (hrun : sc1.s.pc ≠ .stopped)
    (hgroup : sc1.s.c.out = sc.s.c.out) (hclosed : ∀ h ∈ sc.s.closed, h ∈ sc1.s.closed)
    (hcons : sc1.s.l.consumer = sc.s.l.consumer) (hbatch : sc1.s.l.batch = sc.s.l.batch)
    (hout : sc1.s.l.out = none ∨ sc1.s.l.out = some q)
    (hfetching : sc1.s.pc = .fetched ∨ sc1.s.pc = .fetchedWait →
      sc1.s.l.batch ≠ none ∧ sc1.s.l.out = some q)
    (harmed : sc1.s.l.batch ≠ none → sc1.s.l.paused = false → sc1.s.c.out ≠ none →
      sc1.s.l.out ≠ none)
    (hloaded : sc1.s.pc = .drain ∨ sc1.s.pc = .block → sc1.s.l.paused = false →
      sc1.s.c.out ≠ none → sc1.s.l.consumer ≠ none → sc1.s.l.batch ≠ none)
    (htarget : Targeted sc1.s) : Working c q sc1 (tr ++ e) := by
  obtain ⟨e1, e2, e3⟩ := he
  refine
    { running := hrun
      group := ?_
      cons := by rw [hcons]; exact hW.cons
      consNew := fun hm => by
        rw [processed_append, e1, List.append_nil] at hm
        rw [hcons]
        exact hW.consNew hm
      groupNew := fun hm => by
        rw [processed_append, e1, List.append_nil] at hm
        rw [hgroup]
        exact hW.groupNew hm
      queue := by
        rw [fetched_append, e2, List.append_nil, hav]
        exact hW.queue
      batch := by rw [hbatch]; exact hW.batch
      out := hout
      sends := fun q1 b1 hm => by
        rcases List.mem_append.1 hm with hm | hm
        · exact hW.sends q1 b1 hm
        · have := (e3 _ hm).1
          simp [Event.isSend] at this
      gets := fun h n r hm => by
        rcases List.mem_append.1 hm with hm | hm
        · exact hW.gets h n r hm
        · have := (e3 _ hm).2
          simp [Event.isGet] at this
      fetching := hfetching
      armed := harmed
      loaded := hloaded
      target := htarget }
  rw [hgroup]
  rcases hW.group with h | ⟨h, h0⟩
  · exact Or.inl h
  · exact Or.inr ⟨h, hclosed _ h0⟩

theorem script_step_local (s : State) (a : Action) (s1 : State) (e : List Event)
    (hs : Step s a s1 e) (hw : a.isWorker = false) :
    s1.l = s.l ∧ s1.pc = s.pc ∧ s1.c.out = s.c.out ∧ (∀ h ∈ s.closed, h ∈ s1.closed) ∧
    Silent e := by
  cases hs with
  | call f => exact ⟨rfl, rfl, by simp, fun _ h => h, silent_single _ rfl rfl rfl rfl⟩
  | hintSent h hroom => exact ⟨rfl, rfl, rfl, fun _ h => h, silent_single _ rfl rfl rfl rfl⟩
  | hintDropped h hfull => exact ⟨rfl, rfl, rfl, fun _ h => h, silent_nil⟩
  | post sig hroom => exact ⟨rfl, rfl, rfl, fun _ h => h, silent_single _ rfl rfl rfl rfl⟩
  | updOutput grp h0 hc hh =>
    exact ⟨rfl, rfl, rfl, fun _ h => List.mem_cons_of_mem _ h, silent_single _ rfl rfl rfl rfl⟩
  | close h0 hc hh =>
    exact ⟨rfl, rfl, rfl, fun _ h => List.mem_cons_of_mem _ h, silent_single _ rfl rfl rfl rfl⟩
  | ctlPost x sig next h hroom =>
    exact ⟨rfl, rfl, rfl, fun _ h => h, silent_single _ rfl rfl rfl rfl⟩
  | acquire x hc => exact ⟨rfl, rfl, rfl, fun _ h => h, silent_single _ rfl rfl rfl rfl⟩
  | ctlReturn x hc hpc => exact ⟨rfl, rfl, rfl, fun _ h => h, silent_single _ rfl rfl rfl rfl⟩
  | recvStop _ sig rest h hq ht =>
    rcases h with ⟨_, rfl⟩ | ⟨_, rfl⟩ <;> simp [Action.isWorker] at hw
  | recvSig _ sig rest h hq ht =>
    rcases h with ⟨_, rfl⟩ | ⟨_, rfl⟩ <;> simp [Action.isWorker] at hw
  | _ => simp [Action.isWorker] at hw

theorem handled_inflight (s : State) (a : Action) (s1 : State) (e : List Event)
    (hs : Step s a s1 e) (sig : consumerSignal) (p : Bool)
    (hm : Event.handled sig p ∈ e) : sig ∈ inflight s.pc := by
  cases hs with
  | sigDone sig1 p1 w1 h ht =>
    simp only [List.mem_singleton, Event.handled.injEq] at hm
    rw [hm.1]
    rcases h with ⟨hpc, _⟩ | ⟨hpc, _⟩ <;> simp [inflight, hpc]
  | fetchDone p1 w1 h => simp at hm
  | recvSig _ sig1 rest h hq ht => simp at hm
  | hintSent h hroom => simp at hm
  | _ => simp at hm

theorem queueGet_err (closed : List Handle) (avail rest : List Nat) (h : Handle) (max : Int)
    (hq : queueGet closed avail h max = some (.err, rest)) : h ∈ closed ∧ rest = avail := by
  unfold queueGet at hq
  split at hq
  · next hc =>
    simp only [Option.some.injEq, Prod.mk.injEq, true_and] at hq
    exact ⟨hc, hq.symm⟩
  · split at hq <;> simp at hq

theorem queueGet_ok (closed : List Handle) (avail rest : List Nat) (h : Handle) (max : Int)
    (qb : Option QueueBatch) (hq : queueGet closed avail h max = some (.ok qb, rest)) :
    h ∉ closed ∧ avail ≠ [] ∧ qb = some (avail.take max.toNat) ∧
    rest = avail.drop max.toNat := by
  unfold queueGet at hq
  split at hq
  · simp at hq
  · next hc =>
    split at hq
    · simp at hq
    · next ha =>
      simp only [Option.some.injEq, Prod.mk.injEq, GetResult.ok.injEq] at hq
      exact ⟨hc, ha, hq.1.symm, hq.2.symm⟩

theorem working_step (c : Setting) (q : Chan) (hq : c.g.workQueue = some q)
    (hne : c.h1 ≠ c.h0) (hsize : (c.records.length : Int) ≤ c.g.batchSize)
    (sc : Scene) (tr : List Event) (a : Action) (sc1 : Scene) (e : List Event)
    (hW : Working c q sc tr) (hS : Scripted c sc tr) (hs : Step sc.s a sc1.s e)
    (hside : SceneSide sc a sc1) : Working c q sc1 (tr ++ e) := by
  obtain ⟨hin, hproc, hcl, hposted, hctx⟩ := scripted_facts c sc tr hS
  obtain ⟨s, avail, script⟩ := sc
  obtain ⟨s1, avail1, script1⟩ := sc1
  simp only at hs hin hcl hposted hctx
  have hn : ∀ sig p, Event.handled sig p ∈ e → sig.tag = .sigConsumerUpdateInput →
      sig.consumer ≠ none := by
    intro sig p hm ht
    have h1 := hin sig (List.mem_append_left _ (handled_inflight s a s1 e hs sig p hm))
    simp only [Setting.sigs, List.mem_cons, List.mem_singleton, List.not_mem_nil,
      or_false] at h1
    rcases h1 with rfl | rfl | rfl
    · simp [updateOutputSignal] at ht
    · simp [updateInputSignal]
    · simp [checkSignal] at ht
  have htarget := targeted_step s a s1 e hW.target hs hn
  rcases hside with ⟨hw, hscr, hget⟩ | ⟨hw, hscr, hav⟩
  swap
  · obtain ⟨k1, k2, k3, k4, k5⟩ := script_step_local s a s1 e hs hw
    simp only at hav
    refine working_silent c q _ ⟨s1, avail1, script1⟩ tr e hW k5 hav (by rw [k2]; exact hW.running) k3 k4
      (by rw [k1]) (by rw [k1]) (by rw [k1]; exact hW.out)
      (by rw [k1, k2]; exact hW.fetching) (by rw [k1, k3]; exact hW.armed)
      (by rw [k1, k2, k3]; exact hW.loaded) htarget
  · have hsigs : ∀ sig ∈ inbox s, sig = updateOutputSignal (some c.g) ∨
        sig = updateInputSignal (some c.h1) ∨ sig = checkSignal := by
      intro sig hm
      simpa [Setting.sigs] using hin sig hm
    have hWr := hW.running
    have hWg := hW.group
    have hWc := hW.cons
    have hWq := hW.queue
    have hWb := hW.batch
    have hWo := hW.out
    have hWf := hW.fetching
    have hWa := hW.armed
    have hWl := hW.loaded
    simp only at hWr hWg hWc hWq hWb hWo hWf hWa hWl hget htarget
    cases hs with
    | topSkip hpc hc =>
      rcases hget with ⟨r, _, _, hr, _⟩ | ⟨_, hav⟩
      · simp at hr
      · refine working_silent c q _ ⟨_, avail1, script1⟩ tr [] hW silent_nil hav (by simp)
          rfl (fun _ h => h) rfl rfl hWo (by simp) hWa ?_ htarget
        intro _ hp ho hk hb
        have hp1 : s.l.paused = false := hp
        have ho1 : s.c.out ≠ none := ho
        have hk1 : s.l.consumer ≠ none := hk
        have hb1 : s.l.batch = none := hb
        cases h1 : s.c.out <;> cases h2 : s.l.consumer <;>
          simp_all [fetchCond]
    | fetchLoad hpc hp =>
      rcases hget with ⟨r, _, _, hr, _⟩ | ⟨_, hav⟩
      · simp at hr
      · exact working_silent c q _ ⟨_, avail1, script1⟩ tr [] hW silent_nil hav (by simp)
          rfl (fun _ h => h) rfl rfl hWo (fun _ => hWf (Or.inl hpc)) hWa (by simp) htarget
    | drainEmpty hpc hq1 =>
      rcases hget with ⟨r, _, _, hr, _⟩ | ⟨_, hav⟩
      · simp at hr
      · exact working_silent c q _ ⟨_, avail1, script1⟩ tr [.drained] hW
          (silent_single _ rfl rfl rfl rfl) hav (by simp)
          rfl (fun _ h => h) rfl rfl hWo (by simp) hWa (fun _ => hWl (Or.inl hpc)) htarget
    | recvSig _ sig rest h hq1 ht =>
      have hav : avail1 = avail := by
        rcases hget with ⟨r, _, _, hr, _⟩ | ⟨_, hav⟩
        · rcases h with ⟨_, h⟩ | ⟨_, h⟩ <;> simp [h] at hr
        · exact hav
      exact working_silent c q _ ⟨_, avail1, script1⟩ tr [] hW silent_nil hav (by simp)
        rfl (fun _ h => h) rfl rfl hWo (by simp) hWa (by simp) htarget
    | sigLoad sig hpc hp =>
      rcases hget with ⟨r, _, _, hr, _⟩ | ⟨_, hav⟩
      · simp at hr
      · exact working_silent c q _ ⟨_, avail1, script1⟩ tr [] hW silent_nil hav (by simp)
          rfl (fun _ h => h) rfl rfl hWo (by simp) hWa (by simp) htarget
    | fetchDone p w h =>
      have hpc : s.pc = .fetched ∨ s.pc = .fetchedWait :=
        h.elim (fun h => Or.inl h.1) (fun h => Or.inr h.1)
      obtain ⟨hb, ho⟩ := hWf hpc
      rcases hget with ⟨r, _, _, hr, _⟩ | ⟨_, hav⟩
      · simp at hr
      · refine working_silent c q _ ⟨_, avail1, script1⟩ tr [] hW silent_nil hav
          (by simp [finishFetch]) rfl (fun _ h => h) rfl rfl ?_ (by simp [finishFetch]) ?_
          (fun _ _ _ _ => hb) htarget
        · show (if _ then none else s.l.out) = none ∨ (if _ then none else s.l.out) = some q
          split
          · exact Or.inl rfl
          · exact Or.inr ho
        · intro hb1 hp1 _
          have hp2 : paused p w = false := hp1
          show (if (paused p w || s.l.batch.isNone) = true then none else s.l.out) ≠ none
          have hb2 : s.l.batch.isNone = false := by
            cases hbb : s.l.batch
            · exact absurd hbb hb
            · rfl
          simp [hp2, hb2, ho]
    | recvStop _ sig rest h hq1 ht =>
      exfalso
      have hm : sig ∈ inbox s := by simp [inbox, hq1]
      rcases hsigs sig hm with rfl | rfl | rfl <;> simp [updateOutputSignal,
        updateInputSignal, checkSignal] at ht
    | sigStray sig h ht =>
      exfalso
      have hm : sig ∈ inbox s := by
        rcases h with hpc | hpc <;> simp [inbox, inflight, hpc]
      rcases hsigs sig hm with rfl | rfl | rfl <;> simp [updateOutputSignal,
        updateInputSignal, checkSignal] at ht
    | getErr g h0 hpc hc hg hh =>
      have hbn : s.l.batch = none := by
        simp only [fetchCond, Bool.and_eq_true, Option.isNone_iff_eq_none] at hc
        exact hc.2
      have hgc : g = c.g := by
        rcases hWg with h | ⟨h, _⟩
        · rw [hg] at h; simp at h
        · rw [hg] at h; simpa using h
      rcases hget with ⟨r, h1, g1, hr, hh1, hg1, hqg⟩ | ⟨hr, _⟩
      swap
      · exact absurd rfl (hr .err)
      simp only [Action.getReturns.injEq] at hr
      subst hr
      rw [hh] at hh1
      rw [hg] at hg1
      simp only [Option.some.injEq] at hh1 hg1
      subst hh1 hg1
      obtain ⟨hclosed, hav⟩ := queueGet_err _ _ _ _ _ hqg
      have hh0 : h0 = c.h0 := hcl h0 hclosed
      have hproc1 : processed (tr ++ [Event.get h0 g.batchSize .err]) = processed tr := by
        simp [processed, Event.processedSig]
      exact
        { running := by simp [hpc]
          group := hWg
          cons := Or.inr (Or.inl rfl)
          consNew := fun hm => by
            rw [hproc1] at hm
            have := hW.consNew hm
            simp only at this
            rw [hh, hh0] at this
            simp only [Option.some.injEq] at this
            exact absurd this.symm hne
          groupNew := fun hm => by
            rw [hproc1] at hm
            exact hW.groupNew hm
          queue := by
            have : fetched (tr ++ [Event.get h0 g.batchSize .err]) = fetched tr := by
              simp [fetched, Event.fetchedBatch]
            rw [this]
            simp only [hav]
            exact hWq
          batch := hWb
          out := Or.inl rfl
          sends := fun q1 b1 hm => by
            rcases List.mem_append.1 hm with hm | hm
            · exact hW.sends q1 b1 hm
            · simp at hm
          gets := fun h n r hm => by
            rcases List.mem_append.1 hm with hm | hm
            · exact hW.gets h n r hm
            · simp only [List.mem_singleton, Event.get.injEq] at hm
              obtain ⟨rfl, rfl, rfl⟩ := hm
              exact ⟨by rw [hgc], Or.inl ⟨hh0, rfl⟩⟩
          fetching := fun h => by simp [hpc] at h
          armed := fun h => absurd hbn h
          loaded := fun h => by simp [hpc] at h
          target := htarget }
    | getOk g h0 qb hpc hc hg hh =>
      rcases hget with ⟨r, h1, g1, hr, hh1, hg1, hqg⟩ | ⟨hr, _⟩
      swap
      · exact absurd rfl (hr (.ok qb))
      simp only [Action.getReturns.injEq] at hr
      subst hr
      rw [hh] at hh1
      rw [hg] at hg1
      simp only [Option.some.injEq] at hh1 hg1
      subst hh1 hg1
      obtain ⟨hopen, hne0, hqb, hav⟩ := queueGet_ok _ _ _ _ _ _ hqg
      obtain ⟨hgc, hc0⟩ : g = c.g ∧ c.h0 ∈ s.closed := by
        rcases hWg with h | ⟨h, h0c⟩
        · rw [hg] at h; simp at h
        · rw [hg] at h; exact ⟨by simpa using h, h0c⟩
      have hh1 : h0 = c.h1 := by
        rcases hWc with h | h | h
        · rw [hh] at h
          simp only [Option.some.injEq] at h
          rw [h] at hopen
          exact absurd hc0 hopen
        · rw [hh] at h; simp at h
        · rw [hh] at h; simpa using h
      obtain ⟨hrec, hf0⟩ : avail = c.records ∧ fetched tr = [] := by
        rcases hWq with h | h
        · exact h
        · exact absurd h.1 hne0
      have hlen : c.records.length ≤ g.batchSize.toNat := by
        rw [hgc]
        omega
      have hqb1 : qb = some c.records := by
        rw [hqb, hrec, List.take_of_length_le hlen]
      have hav1 : avail1 = [] := by
        rw [hav, hrec, List.drop_of_length_le hlen]
      subst hqb1
      have hbatch : newBatch s.c.ctx c.records g.timeToLive = c.batch := by
        rw [hctx, hgc]
        rfl
      have hproc1 : processed (tr ++ [Event.get h0 g.batchSize (.ok (some c.records))]) =
          processed tr := by
        simp [processed, Event.processedSig]
      have hwq : g.workQueue = some q := by rw [hgc]; exact hq
      exact
        { running := by simp
          group := hWg
          cons := hWc
          consNew := fun hm => by
            rw [hproc1] at hm
            exact hW.consNew hm
          groupNew := fun hm => by
            rw [hproc1] at hm
            exact hW.groupNew hm
          queue := Or.inr ⟨hav1, by
            rw [fetched_append, hf0]
            simp [fetched, Event.fetchedBatch]⟩
          batch := Or.inr (by simp [hbatch])
          out := Or.inr hwq
          sends := fun q1 b1 hm => by
            rcases List.mem_append.1 hm with hm | hm
            · exact hW.sends q1 b1 hm
            · simp at hm
          gets := fun h n r hm => by
            rcases List.mem_append.1 hm with hm | hm
            · exact hW.gets h n r hm
            · simp only [List.mem_singleton, Event.get.injEq] at hm
              obtain ⟨rfl, rfl, rfl⟩ := hm
              exact ⟨by rw [hgc], Or.inr ⟨hh1, rfl⟩⟩
          fetching := fun _ => ⟨by simp, hwq⟩
          armed := fun _ _ _ => by simp [hwq]
          loaded := fun h => by simp at h
          target := htarget }
    | sigDone sig p w h ht =>
      have hav : avail1 = avail := by
        rcases hget with ⟨r, _, _, hr, _⟩ | ⟨_, hav⟩
        · simp at hr
        · exact hav
      have hm : sig ∈ inbox s := by
        rcases h with ⟨hpc, _⟩ | ⟨hpc, _⟩ <;> simp [inbox, inflight, hpc]
      have hpn : postedSigs tr ≠ [] := by
        intro hnil
        have hf := hS.2
        unfold Fifo at hf
        simp only at hf
        rw [hnil] at hf
        have := (List.append_eq_nil.1 hf).2
        rw [this] at hm
        simp at hm
      have ho : sigOut s.c sig = none ∨ (sigOut s.c sig = some c.g ∧ c.h0 ∈ s.closed) := by
        rcases hsigs sig hm with rfl | rfl | rfl
        · exact Or.inr ⟨by simp [sigOut, updateOutputSignal], hposted hpn⟩
        · simpa [sigOut, updateInputSignal] using hWg
        · simpa [sigOut, checkSignal] using hWg
      have hk : sigConsumer s.l sig = some c.h0 ∨ sigConsumer s.l sig = none ∨
          sigConsumer s.l sig = some c.h1 := by
        rcases hsigs sig hm with rfl | rfl | rfl
        · simpa [sigConsumer, updateOutputSignal] using hWc
        · exact Or.inr (Or.inr (by simp [sigConsumer, updateInputSignal]))
        · simpa [sigConsumer, checkSignal] using hWc
      have hproc1 : processed (tr ++ [Event.handled sig (p || w)]) = processed tr ++ [sig] := by
        simp [processed, Event.processedSig]
      have hout : target (sigOut s.c sig) s.l.batch = none ∨
          target (sigOut s.c sig) s.l.batch = some q := by
        rcases ho with ho | ⟨ho, _⟩
        · rw [ho]
          exact Or.inl (by cases s.l.batch <;> rfl)
        · rw [ho]
          cases s.l.batch with
          | none => exact Or.inl rfl
          | some b => exact Or.inr hq
      exact
        { running := by simp
          group := ho
          cons := hk
          consNew := fun hmem => by
            rw [hproc1] at hmem
            show sigConsumer s.l sig = some c.h1
            rcases List.mem_append.1 hmem with hmem | hmem
            · have hpre := hW.consNew hmem
              simp only at hpre
              rcases hsigs sig hm with rfl | rfl | rfl
              · simpa [sigConsumer, updateOutputSignal] using hpre
              · simp [sigConsumer, updateInputSignal]
              · simpa [sigConsumer, checkSignal] using hpre
            · rw [← List.mem_singleton.1 hmem]
              simp [sigConsumer, updateInputSignal]
          groupNew := fun hmem => by
            rw [hproc1] at hmem
            show sigOut s.c sig = some c.g
            rcases List.mem_append.1 hmem with hmem | hmem
            · have hpre := hW.groupNew hmem
              simp only at hpre
              rcases hsigs sig hm with rfl | rfl | rfl
              · simp [sigOut, updateOutputSignal]
              · simpa [sigOut, updateInputSignal] using hpre
              · simpa [sigOut, checkSignal] using hpre
            · rw [← List.mem_singleton.1 hmem]
              simp [sigOut, updateOutputSignal]
          queue := by
            have : fetched (tr ++ [Event.handled sig (p || w)]) = fetched tr := by
              simp [fetched, Event.fetchedBatch]
            rw [this]
            simp only [hav]
            exact hWq
          batch := hWb
          out := hout
          sends := fun q1 b1 hmem => by
            rcases List.mem_append.1 hmem with hmem | hmem
            · exact hW.sends q1 b1 hmem
            · simp at hmem
          gets := fun h1 n r hmem => by
            rcases List.mem_append.1 hmem with hmem | hmem
            · exact hW.gets h1 n r hmem
            · simp at hmem
          fetching := fun h1 => by simp at h1
          armed := fun hb _ hoo => by
            show target (sigOut s.c sig) s.l.batch ≠ none
            have hb1 : s.l.batch ≠ none := hb
            have ho1 : sigOut s.c sig ≠ none := hoo
            rcases ho with ho | ⟨ho, _⟩
            · exact absurd ho ho1
            · rw [ho]
              cases hbb : s.l.batch with
              | none => exact absurd hbb hb1
              | some b =>
                show c.g.workQueue ≠ none
                rw [hq]
                simp
          loaded := fun h1 => by simp at h1
          target := htarget }
    | accept q1 hpc ho =>
      have hav : avail1 = avail := by
        rcases hget with ⟨r, _, _, hr, _⟩ | ⟨_, hav⟩
        · simp at hr
        · exact hav
      have hq1 : q1 = q := by
        rcases hWo with h | h
        · rw [ho] at h; simp at h
        · rw [ho] at h; simpa using h
      have hb : s.l.batch = some c.batch := by
        rcases hWb with h | h
        · have := hW.target.2.2 (by rw [show ({ s := s, avail := avail, script := script } :
              Scene).s.l.out = s.l.out from rfl, ho]; simp) h
          simp [hpc] at this
        · exact h
      have hproc1 : processed (tr ++ [Event.send q1 s.l.batch]) = processed tr := by
        simp [processed, Event.processedSig]
      exact
        { running := by simp
          group := hWg
          cons := hWc
          consNew := fun hmem => by
            rw [hproc1] at hmem
            exact hW.consNew hmem
          groupNew := fun hmem => by
            rw [hproc1] at hmem
            exact hW.groupNew hmem
          queue := by
            have : fetched (tr ++ [Event.send q1 s.l.batch]) = fetched tr := by
              simp [fetched, Event.fetchedBatch]
            rw [this]
            simp only [hav]
            exact hWq
          batch := Or.inl rfl
          out := by
            show (if s.l.paused = true then none else s.l.out) = none ∨
              (if s.l.paused = true then none else s.l.out) = some q
            split
            · exact Or.inl rfl
            · exact hWo
          sends := fun q2 b2 hmem => by
            rcases List.mem_append.1 hmem with hmem | hmem
            · exact hW.sends q2 b2 hmem
            · simp only [List.mem_singleton, Event.send.injEq] at hmem
              obtain ⟨rfl, rfl⟩ := hmem
              exact ⟨hq1, hb⟩
          gets := fun h1 n r hmem => by
            rcases List.mem_append.1 hmem with hmem | hmem
            · exact hW.gets h1 n r hmem
            · simp at hmem
          fetching := fun h1 => by simp at h1
          armed := fun h1 => absurd rfl h1
          loaded := fun h1 => by simp at h1
          target := htarget }
    | _ => simp [Action.isWorker] at hw

theorem sceneInv_step (c : Setting) (q : Chan) (hq : c.g.workQueue = some q)
    (hne : c.h1 ≠ c.h0) (hsize : (c.records.length : Int) ≤ c.g.batchSize)
    (sc : Scene) (tr : List Event) (a : Action) (sc1 : Scene) (e : List Event)
    (h : SceneInv c q sc tr) (hs : Step sc.s a sc1.s e) (hside : SceneSide sc a sc1) :
    SceneInv c q sc1 (tr ++ e) :=
  ⟨scripted_step c sc tr a sc1 e h.1 hs hside,
   working_step c q hq hne hsize sc tr a sc1 e h.2.1 h.1 hs hside,
   accounted_step sc.s tr a sc1.s e h.2.2.1 hs,
   settled_step sc.s a sc1.s e h.2.2.2 hs⟩

theorem sceneInv_start (c : Setting) (q : Chan) : SceneInv c q c.start [] := by
  refine ⟨⟨⟨0, ?_⟩, rfl⟩, ?_, accounted_init c.ctx (some c.h0), settled_init c.ctx (some c.h0)⟩
  · exact ⟨by omega, rfl, rfl, rfl, rfl, rfl, rfl, rfl, rfl, rfl⟩
  · exact
      { running := by simp [Setting.start, sceneStart, newEventConsumer]
        group := Or.inl rfl
        cons := Or.inl rfl
        consNew := fun h => by simp [processed] at h
        groupNew := fun h => by simp [processed] at h
        queue := Or.inl ⟨rfl, rfl⟩
        batch := Or.inl rfl
        out := Or.inl rfl
        sends := fun _ _ h => by simp at h
        gets := fun _ _ _ h => by simp at h
        fetching := fun h => by simp [Setting.start, sceneStart, newEventConsumer] at h
        armed := fun h => absurd rfl h
        loaded := fun h => by simp [Setting.start, sceneStart, newEventConsumer] at h
        target := by simp [Targeted, Setting.start, sceneStart, newEventConsumer] }

theorem sends_of_delivered (q : Chan) (tr : List Event)
    (h : ∀ q1 b1, Event.send q1 b1 ∈ tr → q1 = q ∧ b1 ≠ none) :
    tr.filter Event.isSend = (delivered tr).map (fun b => Event.send q (some b)) := by
  induction tr with
  | nil => rfl
  | cons ev tr ih =>
    have ih1 := ih (fun q1 b1 hm => h q1 b1 (List.mem_cons_of_mem _ hm))
    cases ev with
    | send q1 b1 =>
      obtain ⟨rfl, hb⟩ := h q1 b1 (List.mem_cons_self _ _)
      cases b1 with
      | none => exact absurd rfl hb
      | some b =>
        simp only [List.filter_cons, Event.isSend, if_true, delivered, List.filterMap_cons,
          Event.deliveredBatch, List.map_cons]
        rw [ih1]
        rfl
    | _ => simpa [List.filter_cons, Event.isSend, delivered, Event.deliveredBatch] using ih1

theorem mem_delivered (tr : List Event) (b : Batch) (h : b ∈ delivered tr) :
    ∃ q, Event.send q (some b) ∈ tr := by
  simp only [delivered, List.mem_filterMap] at h
  obtain ⟨ev, hm, hev⟩ := h
  cases ev with
  | send q b1 =>
    cases b1 with
    | none => simp [Event.deliveredBatch] at hev
    | some b2 =>
      simp only [Event.deliveredBatch, Option.some.injEq] at hev
      rw [← hev]
      exact ⟨q, hm⟩
  | _ => simp [Event.deliveredBatch] at hev

theorem mem_fetched (tr : List Event) (qb : QueueBatch) (h : qb ∈ fetched tr) :
    ∃ h1 n, Event.get h1 n (.ok (some qb)) ∈ tr := by
  simp only [fetched, List.mem_filterMap] at h
  obtain ⟨ev, hm, hev⟩ := h
  cases ev with
  | get h1 n r =>
    cases r with
    | err => simp [Event.fetchedBatch] at hev
    | ok ob =>
      cases ob with
      | none => simp [Event.fetchedBatch] at hev
      | some b =>
        simp only [Event.fetchedBatch, Option.some.injEq] at hev
        rw [← hev]
        exact ⟨h1, n, hm⟩
  | _ => simp [Event.fetchedBatch] at hev

theorem scene_safe (c : Setting) (q : Chan) (sc : Scene) (tr : List Event)
    (h : SceneInv c q sc tr) :
    (∀ q1 b1, Event.send q1 b1 ∈ tr → q1 = q ∧ b1 = some c.batch) ∧
    tr.filter Event.isSend = (delivered tr).map (fun b => Event.send q (some b)) ∧
    (∀ b ∈ delivered tr, b = c.batch) ∧
    (delivered tr).length + (pending sc.s).length = (fetched tr).length ∧
    (fetched tr).length ≤ 1 := by
  obtain ⟨_, hW, hA, _⟩ := h
  refine ⟨hW.sends, ?_, ?_, ?_, ?_⟩
  · exact sends_of_delivered q tr (fun q1 b1 hm => by
      obtain ⟨h1, h2⟩ := hW.sends q1 b1 hm
      exact ⟨h1, by rw [h2]; simp⟩)
  · intro b hb
    obtain ⟨q1, hm⟩ := mem_delivered tr b hb
    have := (hW.sends q1 _ hm).2
    simpa using this
  · have := congrArg List.length hA
    simp only [List.length_map, List.length_append] at this
    omega
  · rcases hW.queue with ⟨_, hf⟩ | ⟨_, hf⟩ <;> simp [hf]

theorem scene_blocked (c : Setting) (q : Chan)
    (hpos : 0 < c.records.length) (sc : Scene) (tr : List Event)
    (h : SceneInv c q sc tr) (hb : sc.blocked) :
    sc.s.pc = .top ∧ fetchCond sc.s.c sc.s.l = true ∧ sc.s.l.consumer = some c.h1 ∧
    sc.s.c.out = some c.g ∧ queueGet sc.s.closed sc.avail c.h1 c.g.batchSize = none ∧
    sc.avail = [] ∧ fetched tr = [c.records] ∧ delivered tr = [c.batch] := by
  have hsafe := scene_safe c q sc tr h
  obtain ⟨hS, hW, hA, hSet⟩ := h
  obtain ⟨hscript, hno⟩ := hb
  obtain ⟨hin, hproc, hcl, hposted, hctx⟩ := scripted_facts c sc tr hS
  obtain ⟨s, avail, script⟩ := sc
  simp only at hscript hno hcl hposted hA hSet hsafe ⊢
  have hWr := hW.running
  have hWg := hW.group
  have hWc := hW.cons
  have hWq := hW.queue
  have hWa := hW.armed
  have hWl := hW.loaded
  have hWn := hW.consNew
  have hWo := hW.groupNew
  simp only at hWr hWg hWc hWq hWa hWl hWn hWo
  cases hpc : s.pc with
  | top =>
    by_cases hc : fetchCond s.c s.l = true
    swap
    · have := hno .step rfl
      simp [sceneStep, Action.isWorker, exec, loopStep, hpc, hc] at this
    have hc1 := hc
    simp only [fetchCond, Bool.and_eq_true, Option.isSome_iff_exists,
      Option.isNone_iff_eq_none] at hc1
    obtain ⟨⟨⟨_, g1, hg⟩, h1, hh⟩, hbn⟩ := hc1
    obtain ⟨hgc, hc0⟩ : g1 = c.g ∧ c.h0 ∈ s.closed := by
      rcases hWg with h | ⟨h, h0c⟩
      · rw [hg] at h; simp at h
      · rw [hg] at h; exact ⟨by simpa using h, h0c⟩
    cases hqg : queueGet s.closed avail h1 g1.batchSize with
    | some x =>
      obtain ⟨r, rest⟩ := x
      have := hno (.getReturns r) rfl
      cases r <;>
        simp [sceneStep, Action.isWorker, exec, loopStep, hpc, hc, hg, hh, hqg] at this
    | none =>
      have hq2 : h1 ∉ s.closed ∧ avail = [] := by
        unfold queueGet at hqg
        split at hqg
        · simp at hqg
        · next hcl1 =>
          split at hqg
          · next ha => exact ⟨hcl1, ha⟩
          · simp at hqg
      have hh1 : h1 = c.h1 := by
        rcases hWc with h | h | h
        · rw [hh] at h
          simp only [Option.some.injEq] at h
          rw [h] at hq2
          exact absurd hc0 hq2.1
        · rw [hh] at h; simp at h
        · rw [hh] at h; simpa using h
      have hf : fetched tr = [c.records] := by
        rcases hWq with ⟨h, _⟩ | ⟨_, h⟩
        · rw [hq2.2] at h
          rw [← h] at hpos
          simp at hpos
        · exact h
      have hd : delivered tr = [c.batch] := by
        have hlen := hsafe.2.2.2.1
        simp only [pending, hbn, Option.toList, List.length_nil, hf, List.length_singleton,
          Nat.add_zero] at hlen
        match hdl : delivered tr, hlen with
        | [b], _ =>
          have := hsafe.2.2.1 b (by rw [hdl]; simp)
          rw [this]
      subst hh1 hgc
      exact ⟨rfl, hc, hh, hg, hqg, hq2.2, hf, hd⟩
  | fetched =>
    have := hno .step rfl
    by_cases hp : s.c.pause = true <;>
      simp [sceneStep, Action.isWorker, exec, loopStep, hpc, hp] at this
  | fetchedWait =>
    have := hno .step rfl
    simp [sceneStep, Action.isWorker, exec, loopStep, hpc] at this
  | drain =>
    have := hno .step rfl
    cases hsg : s.c.sig <;>
      simp [sceneStep, Action.isWorker, exec, loopStep, hpc, hsg] at this
  | handling sig =>
    have := hno .step rfl
    by_cases hp : s.c.pause = true <;>
      simp [sceneStep, Action.isWorker, exec, loopStep, hpc, hp] at this
  | handlingWait sig =>
    have := hno .step rfl
    simp [sceneStep, Action.isWorker, exec, loopStep, hpc] at this
  | stopped => exact absurd hpc hWr
  | block =>
    exfalso
    have hsig : s.c.sig = [] := by
      have := hno .recv rfl
      cases hsg : s.c.sig with
      | nil => rfl
      | cons x rest =>
        simp [sceneStep, Action.isWorker, exec, loopStep, hpc, hsg] at this
    have hout : s.l.out = none := by
      have := hno .accept rfl
      cases ho : s.l.out with
      | none => rfl
      | some q1 =>
        simp [sceneStep, Action.isWorker, exec, loopStep, hpc, ho] at this
    obtain ⟨⟨k, hk, h1, h2, h3, h4, h5, h6, h7, h8, h9⟩, hf⟩ := hS
    simp only at h1 h5 h6 h8 hf
    have hk6 : k = 6 := by
      rw [hscript] at h1
      have := congrArg List.length h1
      simp [setOutputThenContinue] at this
      omega
    subst hk6
    have hpr : processed tr = c.sigs := by
      unfold Fifo inbox at hf
      rw [hpc, hsig] at hf
      simpa [inflight, h7, Setting.sharedAt, Setting.sigs] using hf
    have hk1 : s.l.consumer = some c.h1 := hWn (by rw [hpr]; simp [Setting.sigs])
    have ho1 : s.c.out = some c.g := hWo (by rw [hpr]; simp [Setting.sigs])
    have hp1 : s.l.paused = false := by
      rcases hSet with hcalls | hsg | hfresh
      · rw [h6] at hcalls
        simp [Setting.sharedAt] at hcalls
      · exact absurd hsig hsg
      · simp only [hpc] at hfresh
        rw [hfresh, h5, h8]
        rfl
    have hb1 := hWl (Or.inr hpc) hp1 (by rw [ho1]; simp) (by rw [hk1]; simp)
    exact hWa hb1 hp1 (by rw [ho1]; simp) hout

theorem take_all (c : Setting) (hsize : (c.records.length : Int) ≤ c.g.batchSize) :
    c.records.take c.g.batchSize.toNat = c.records ∧
    c.records.drop c.g.batchSize.toNat = [] := by
  have : c.records.length ≤ c.g.batchSize.toNat := by omega
  exact ⟨List.take_of_length_le this, List.drop_of_length_le this⟩

theorem schedule_runs (c : Setting) (q : Chan) (hq : c.g.workQueue = some q)
    (hne : c.h1 ≠ c.h0) (hpos : 0 < c.records.length)
    (hsize : (c.records.length : Int) ≤ c.g.batchSize) :
    (sceneRun c.start c.schedule).map (fun r => r.1) = some c.rest := by
  obtain ⟨ht, hd⟩ := take_all c hsize
  have hrec : c.records ≠ [] := by
    intro h
    rw [h] at hpos
    simp at hpos
  simp [Setting.schedule, Setting.start, sceneStart, setOutputThenContinue, sceneRun, sceneStep,
    Action.isWorker, exec, ctlStep, loopStep, newEventConsumer, post, sigCap, sigHint,
    Call.store, fetchCond, received, finishSignal, finishFetch, handleSignal, paused,
    updateOutputSignal, updateInputSignal, checkSignal, queueGet, hne, hrec, ht, hd, hq,
    Setting.rest]

theorem weight_step (sc : Scene) (tr : List Event) (a : Action) (sc1 : Scene)
    (e : List Event) (hs : Step sc.s a sc1.s e) (hside : SceneSide sc a sc1)
    (hT : Targeted sc.s) (hf : (fetched (tr ++ e)).length ≤ 1) :
    sc1.weight (tr ++ e) < sc.weight tr := by
  obtain ⟨s, avail, script⟩ := sc
  obtain ⟨s1, avail1, script1⟩ := sc1
  simp only at hs hT
  rw [fetched_append, List.length_append] at hf
  unfold Scene.weight
  rw [fetched_append, List.length_append]
  simp only
  rcases hside with ⟨hw, hscr, hget⟩ | ⟨hw, hscr, _⟩
  · simp only at hscr hget
    rw [hscr]
    cases hs with
    | topSkip hpc hc => simp [hpc, PC.rank, fetched]
    | getErr g h0 hpc hc hg hh => simp [hpc, hh, PC.rank, fetched, Event.fetchedBatch]
    | getOk g h0 qb hpc hc hg hh =>
      rcases hget with ⟨r, h1, g1, hr, hh1, hg1, hq⟩ | ⟨hno, _⟩
      swap
      · exact absurd rfl (hno _)
      simp only [Action.getReturns.injEq] at hr
      subst hr
      obtain ⟨_, _, hqb, _⟩ := queueGet_ok _ _ _ _ _ _ hq
      subst hqb
      have hb : s.l.batch = none := by
        simp only [fetchCond, Bool.and_eq_true, Option.isNone_iff_eq_none] at hc
        exact hc.2
      simp only [fetched, List.filterMap_cons, Event.fetchedBatch, List.filterMap_nil,
        List.length_singleton] at hf ⊢
      simp only [hpc, hb, PC.rank, Option.toList, List.length_singleton, List.length_nil]
      omega
    | fetchLoad hpc hp => simp [hpc, PC.rank, fetched]
    | fetchDone p w h =>
      rcases h with ⟨hpc, _⟩ | ⟨hpc, _⟩ <;> simp [hpc, finishFetch, PC.rank, fetched]
    | drainEmpty hpc hq => simp [hpc, PC.rank, fetched, Event.fetchedBatch]
    | recvStop _ sig rest h hq ht =>
      rcases h with ⟨hpc, _⟩ | ⟨hpc, _⟩ <;>
        simp [hpc, hq, PC.rank, fetched, Event.fetchedBatch] <;> omega
    | recvSig _ sig rest h hq ht =>
      rcases h with ⟨hpc, _⟩ | ⟨hpc, _⟩ <;>
        simp [hpc, hq, PC.rank, fetched, Event.fetchedBatch] <;> omega
    | sigLoad sig hpc hp => simp [hpc, PC.rank, fetched]
    | sigDone sig p w h ht =>
      have hle : (sigConsumer s.l sig).toList.length ≤ 1 := by
        cases sigConsumer s.l sig <;> simp
      rcases h with ⟨hpc, _⟩ | ⟨hpc, _⟩ <;>
        simp [hpc, PC.rank, fetched, Event.fetchedBatch] <;> omega
    | sigStray sig h ht =>
      rcases h with hpc | hpc <;> simp [hpc, PC.rank, fetched, Event.fetchedBatch]
    | accept q hpc ho =>
      have hb : s.l.batch ≠ none := by
        intro hb
        rcases hT.2.2 (by rw [ho]; simp) hb with h | h | h <;> simp [hpc] at h
      obtain ⟨b, hb1⟩ := Option.ne_none_iff_exists'.1 hb
      simp [hpc, hb1, PC.rank, fetched, Event.fetchedBatch]
      omega
    | _ => simp [Action.isWorker] at hw
  · simp only at hscr
    have hsig : s1.c.sig.length ≤ s.c.sig.length + 1 := by
      cases hs with
      | recvStop _ sig rest h hq ht =>
        rcases h with ⟨_, rfl⟩ | ⟨_, rfl⟩ <;> simp [Action.isWorker] at hw
      | recvSig _ sig rest h hq ht =>
        rcases h with ⟨_, rfl⟩ | ⟨_, rfl⟩ <;> simp [Action.isWorker] at hw
      | call f => cases f <;> simp [Call.store]
      | hintSent h hroom => simp
      | ctlPost _ sig next h hroom => simp
      | _ => first | simp | exact Nat.le_succ _
    obtain ⟨hl, hpc, _, _, _, he, _⟩ := script_step_local s a s1 e hs hw
    rw [hscr, hl, hpc, he]
    simp only [List.length_cons, List.length_nil]
    omega

theorem sceneInv_weight (c : Setting) (q : Chan) (hq : c.g.workQueue = some q)
    (hne : c.h1 ≠ c.h0) (hsize : (c.records.length : Int) ≤ c.g.batchSize)
    (sc : Scene) (tr : List Event) (a : Action) (sc1 : Scene) (e : List Event)
    (h : SceneInv c q sc tr) (hx : sceneStep sc a = some (sc1, e)) :
    SceneInv c q sc1 (tr ++ e) ∧ sc1.weight (tr ++ e) < sc.weight tr := by
  obtain ⟨hs, hside⟩ := sceneStep_inv sc a sc1 e hx
  have h1 := sceneInv_step c q hq hne hsize sc tr a sc1 e h hs hside
  exact ⟨h1, weight_step sc tr a sc1 e hs hside h.2.1.target
    (scene_safe c q sc1 (tr ++ e) h1).2.2.2.2⟩

theorem script_enabled (c : Setting) (q : Chan) (sc : Scene) (tr : List Event)
    (h : SceneInv c q sc tr) (hne : sc.script ≠ []) :
    ∃ a sc1 e, sceneStep sc a = some (sc1, e) := by
  obtain ⟨⟨⟨k, hk, h1, h2, h3, h4, h5, h6, h7, h8, h9⟩, hf⟩, _⟩ := h
  have hroom := fifo_room sc.s tr hf
  rw [h7] at hroom
  obtain ⟨s, avail, script⟩ := sc
  simp only at h1 h2 h3 h4 h5 h6 h8 h9 hroom hne
  have key : ∀ a, (sceneStep ⟨s, avail, script⟩ a).isSome = true →
      ∃ a sc1 e, sceneStep ⟨s, avail, script⟩ a = some (sc1, e) := by
    intro a ha
    obtain ⟨⟨sc1, e⟩, hx⟩ := Option.isSome_iff_exists.1 ha
    exact ⟨a, sc1, e, hx⟩
  interval_cases k
  · apply key (.updOutput (some c.g))
    simp [sceneStep, Action.isWorker, h1, setOutputThenContinue, exec, ctlStep, h2, h4,
      Setting.sharedAt]
  · apply key (.ctl none)
    have := hroom (by simp [Setting.sharedAt, sigCap])
    simp [sceneStep, Action.isWorker, h1, setOutputThenContinue, exec, ctlStep, h2, h4,
      Setting.sharedAt, post, this]
  · apply key (.ctl (some c.h1))
    simp [sceneStep, Action.isWorker, h1, setOutputThenContinue, exec, ctlStep, h2, h4,
      Setting.sharedAt]
  · apply key (.ctl none)
    have := hroom (by simp [Setting.sharedAt, sigCap])
    simp [sceneStep, Action.isWorker, h1, setOutputThenContinue, exec, ctlStep, h2, h4,
      Setting.sharedAt, post, this]
  · apply key (.call .sigContinue)
    simp [sceneStep, Action.isWorker, h1, setOutputThenContinue, exec]
  · apply key .hint
    simp [sceneStep, Action.isWorker, h1, setOutputThenContinue, exec, h6, Setting.sharedAt]
  · simp [h1, setOutputThenContinue] at hne

theorem run_bounded (c : Setting) (q : Chan) (hq : c.g.workQueue = some q)
    (hne : c.h1 ≠ c.h0) (hsize : (c.records.length : Int) ≤ c.g.batchSize) :
    ∀ (acts : List Action) (sc : Scene) (tr : List Event) (sc2 : Scene) (e2 : List Event),
      SceneInv c q sc tr → sceneRun sc acts = some (sc2, e2) →
      acts.length + sc2.weight (tr ++ e2) ≤ sc.weight tr := by
  intro acts
  induction acts with
  | nil =>
    intro sc tr sc2 e2 h hr
    simp only [sceneRun, Option.some.injEq, Prod.mk.injEq] at hr
    obtain ⟨rfl, rfl⟩ := hr
    simp
  | cons a as ih =>
    intro sc tr sc2 e2 h hr
    simp only [sceneRun] at hr
    split at hr
    · exact absurd hr (by simp)
    · next sc1 e1 hx =>
      split at hr
      · exact absurd hr (by simp)
      · next sc3 e3 hr3 =>
        simp only [Option.some.injEq, Prod.mk.injEq] at hr
        obtain ⟨rfl, rfl⟩ := hr
        obtain ⟨h1, hlt⟩ := sceneInv_weight c q hq hne hsize sc tr a sc1 e1 h hx
        have h2 := ih sc1 (tr ++ e1) sc3 e3 h1 hr3
        rw [List.append_assoc] at h2
        simp only [List.length_cons]
        omega

theorem scene_settles (c : Setting) (q : Chan) (hq : c.g.workQueue = some q)
    (hne : c.h1 ≠ c.h0) (hsize : (c.records.length : Int) ≤ c.g.batchSize) :
    ∀ (n : Nat) (sc : Scene) (tr : List Event), SceneInv c q sc tr → sc.weight tr ≤ n →
      ∃ more sc2 e2, sceneRun sc more = some (sc2, e2) ∧ sc2.blocked := by
  intro n
  induction n with
  | zero =>
    intro sc tr h hn
    by_cases hb : sc.blocked
    · exact ⟨[], sc, [], rfl, hb⟩
    · exfalso
      have hex : ∃ a sc1 e, sceneStep sc a = some (sc1, e) := by
        by_cases hscr : sc.script = []
        · simp only [Scene.blocked, hscr, true_and, not_forall] at hb
          obtain ⟨a, _, ha⟩ := hb
          obtain ⟨⟨sc1, e⟩, hx⟩ := Option.ne_none_iff_exists'.1 ha
          exact ⟨a, sc1, e, hx⟩
        · exact script_enabled c q sc tr h hscr
      obtain ⟨a, sc1, e, hx⟩ := hex
      have := (sceneInv_weight c q hq hne hsize sc tr a sc1 e h hx).2
      omega
  | succ n ih =>
    intro sc tr h hn
    by_cases hb : sc.blocked
    · exact ⟨[], sc, [], rfl, hb⟩
    · have hex : ∃ a sc1 e, sceneStep sc a = some (sc1, e) := by
        by_cases hscr : sc.script = []
        · simp only [Scene.blocked, hscr, true_and, not_forall] at hb
          obtain ⟨a, _, ha⟩ := hb
          obtain ⟨⟨sc1, e⟩, hx⟩ := Option.ne_none_iff_exists'.1 ha
          exact ⟨a, sc1, e, hx⟩
        · exact script_enabled c q sc tr h hscr
      obtain ⟨a, sc1, e, hx⟩ := hex
      obtain ⟨h1, hlt⟩ := sceneInv_weight c q hq hne hsize sc tr a sc1 e h hx
      obtain ⟨more, sc2, e2, hr, hb2⟩ := ih sc1 (tr ++ e) h1 (by omega)
      exact ⟨a :: more, sc2, e ++ e2, by simp [sceneRun, hx, hr], hb2⟩

theorem sceneRun_append (acts more : List Action) :
    ∀ (sc sc1 sc2 : Scene) (e1 e2 : List Event), sceneRun sc acts = some (sc1, e1) →
      sceneRun sc1 more = some (sc2, e2) → sceneRun sc (acts ++ more) = some (sc2, e1 ++ e2) := by
  induction acts with
  | nil =>
    intro sc sc1 sc2 e1 e2 h1 h2
    simp only [sceneRun, Option.some.injEq, Prod.mk.injEq] at h1
    obtain ⟨rfl, rfl⟩ := h1
    simpa using h2
  | cons a as ih =>
    intro sc sc1 sc2 e1 e2 h1 h2
    simp only [sceneRun] at h1
    split at h1
    · exact absurd h1 (by simp)
    · next sc3 e3 hx =>
      split at h1
      · exact absurd h1 (by simp)
      · next sc4 e4 hr =>
        simp only [Option.some.injEq, Prod.mk.injEq] at h1
        obtain ⟨rfl, rfl⟩ := h1
        have := ih sc3 sc4 sc2 e4 e2 hr h2
        simp [sceneRun, hx, this]

theorem gets_on_fresh (c : Setting) (hne : c.h1 ≠ c.h0) (tr : List Event)
    (h : ∀ h n r, Event.get h n r ∈ tr →
      n = c.g.batchSize ∧ ((h = c.h0 ∧ r = .err) ∨ (h = c.h1 ∧ r = .ok (some c.records)))) :
    tr.filter (Event.isGetOn c.h1) =
      (fetched tr).map (fun _ => Event.get c.h1 c.g.batchSize (.ok (some c.records))) := by
  induction tr with
  | nil => rfl
  | cons ev tr ih =>
    have ih1 := ih (fun h1 n r hm => h h1 n r (List.mem_cons_of_mem _ hm))
    cases ev with
    | get h1 n r =>
      obtain ⟨rfl, ⟨rfl, rfl⟩ | ⟨rfl, rfl⟩⟩ := h h1 n r (List.mem_cons_self _ _)
      · have : (c.h0 == c.h1) = false := by simpa using fun h => hne h.symm
        simpa [List.filter_cons, Event.isGetOn, this, fetched, Event.fetchedBatch] using ih1
      · simpa [List.filter_cons, Event.isGetOn, fetched, Event.fetchedBatch] using ih1
    | _ => simpa [List.filter_cons, Event.isGetOn, fetched, Event.fetchedBatch] using ih1

theorem rest_blocked (c : Setting) (hne : c.h1 ≠ c.h0) : c.rest.blocked := by
  refine ⟨rfl, fun a ha => ?_⟩
  cases a with
  | getReturns r =>
    simp [sceneStep, Action.isWorker, Setting.rest, queueGet, hne]
  | step => simp [sceneStep, Action.isWorker, Setting.rest, exec, loopStep, fetchCond]
  | recv => simp [sceneStep, Action.isWorker, Setting.rest, exec, loopStep]
  | accept => simp [sceneStep, Action.isWorker, Setting.rest, exec, loopStep]
  | _ => simp [Action.isWorker] at ha

/-- C12: end-to-end scenario.  A fresh (paused) `eventConsumer` with consumer
`h0` stands over a queue that holds the records of the setting, at least one and
at most `g.batchSize`; the caller executes `updOutput(g)`, in which
`c.queue.Consumer()` returns the fresh consumer `h1`, and then `sigContinue()`,
and the work queue `q` of `g` accepts whenever the worker sends.  Then in every
interleaving of the caller and the worker: the run has at most 65 steps; every
send is the send of the one batch on `q`, and there is at most one; every call of
`Get` asks for `g.batchSize` records and either fails on the closed `h0` or
returns all the records on `h1`; the run can be continued until the caller has
returned and the worker can take no step; and whenever that is the case, exactly
one send has taken place, exactly one call of `Get` on `h1` has returned, and the
worker stands at the head of the loop with the fetch condition true, about to
call `Get(g.batchSize)` on `h1`, which blocks.  The batch holds all the records,
the batch context and `g.timeToLive`. -/
theorem scenario_delivers_one_batch (c : Setting) (q : Chan) (hq : c.g.workQueue = some q)
    (hne : c.h1 ≠ c.h0) (hpos : 0 < c.records.length)
    (hsize : (c.records.length : Int) ≤ c.g.batchSize) :
    (∀ acts sc tr, sceneRun c.start acts = some (sc, tr) →
      acts.length ≤ 65 ∧
      (∀ q1 b1, Event.send q1 b1 ∈ tr → q1 = q ∧ b1 = some c.batch) ∧
      (tr.filter Event.isSend).length ≤ 1 ∧
      (∀ h n r, Event.get h n r ∈ tr → n = c.g.batchSize ∧
        ((h = c.h0 ∧ r = .err) ∨ (h = c.h1 ∧ r = .ok (some c.records)))) ∧
      (∃ more sc2 tr2, sceneRun c.start (acts ++ more) = some (sc2, tr ++ tr2) ∧ sc2.blocked) ∧
      (sc.blocked →
        tr.filter Event.isSend = [Event.send q (some c.batch)] ∧
        tr.filter (Event.isGetOn c.h1) =
          [Event.get c.h1 c.g.batchSize (.ok (some c.records))] ∧
        sc.s.pc = .top ∧ fetchCond sc.s.c sc.s.l = true ∧ sc.s.l.consumer = some c.h1 ∧
        sc.s.c.out = some c.g ∧
        queueGet sc.s.closed sc.avail c.h1 c.g.batchSize = none)) ∧
    c.batch.original = c.records ∧ c.batch.ttl = c.g.timeToLive ∧ c.batch.ctx = c.ctx := by
  refine ⟨fun acts sc tr hr => ?_, rfl, rfl, rfl⟩
  have hinv : SceneInv c q sc tr := by
    have := scene_invariant (sceneInv_step c q hq hne hsize) acts c.start [] sc tr
      (sceneInv_start c q) hr
    simpa using this
  have hsafe := scene_safe c q sc tr hinv
  have hbound := run_bounded c q hq hne hsize acts c.start [] sc tr (sceneInv_start c q) hr
  have hgets := hinv.2.1.gets
  refine ⟨?_, hsafe.1, ?_, hgets, ?_, fun hb => ?_⟩
  · have : c.start.weight [] = 65 := by
      simp [Scene.weight, Setting.start, sceneStart, setOutputThenContinue, newEventConsumer,
        fetched, PC.rank]
    omega
  · rw [hsafe.2.1, List.length_map]
    have := hsafe.2.2.2.1
    have := hsafe.2.2.2.2
    omega
  · obtain ⟨more, sc2, e2, hr2, hb2⟩ :=
      scene_settles c q hq hne hsize (sc.weight tr) sc tr hinv (Nat.le_refl _)
    exact ⟨more, sc2, e2, sceneRun_append acts more c.start sc sc2 tr e2 hr hr2, hb2⟩
  · obtain ⟨h1, h2, h3, h4, h5, _, h7, h8⟩ := scene_blocked c q hpos sc tr hinv hb
    refine ⟨?_, ?_, h1, h2, h3, h4, h5⟩
    · rw [hsafe.2.1, h8]
      rfl
    · rw [gets_on_fresh c hne tr hgets, h7]
      rfl

theorem scenario_delivers_one_batch_witness :
    demoSetting.g.workQueue = some 7 ∧ demoSetting.h1 ≠ demoSetting.h0 ∧
    0 < demoSetting.records.length ∧
    (demoSetting.records.length : Int) ≤ demoSetting.g.batchSize ∧
    (sceneRun demoSetting.start demoSetting.schedule).map
        (fun r => (r.2.filter Event.isSend, r.1.s.pc, r.1.avail)) =
      some ([Event.send 7 (some (newBatch 0 [1, 2] 5))], .top, []) ∧
    (∀ acts sc tr, sceneRun demoSetting.start acts = some (sc, tr) → sc.blocked →
      tr.filter Event.isSend = [Event.send 7 (some (newBatch 0 [1, 2] 5))] ∧
      tr.filter (Event.isGetOn 2) = [Event.get 2 10 (.ok (some [1, 2]))] ∧
      queueGet sc.s.closed sc.avail 2 10 = none) :=
  ⟨by decide, by decide, by decide, by decide, by decide,
   fun acts sc tr hr hb =>
    have h := ((scenario_delivers_one_batch demoSetting 7 (by decide) (by decide) (by decide)
      (by decide)).1 acts sc tr hr).2.2.2.2.2 hb
    ⟨h.1, h.2.1, h.2.2.2.2.2.2⟩⟩

end Pipeline
